import Mathlib

/-!
# git-sync: a shallow embedding of the repository-mirroring engine

The development follows `projects/git-sync`:

* `internal/config/config.go`  : `Config`, `LoadFromEnv`, `Validate`, `getEnvOrDefault`
* `internal/git/client.go`     : `Client`, `Client.Sync`, `clone`, `pull`, `getHeadCommit`
* `internal/sync/syncer.go`    : `Syncer`, `NewSyncer`, `Syncer.Sync`, `copyFiles`, `copyFile`,
  `GetStatus`, `IsHealthy`
* `main.go`                    : `main` up to the start of the scheduler, and the scheduled job

Modelling conventions.

* The filesystem the mirror writes to is a finite map from cleaned, rooted paths
  (lists of path elements) to entries: `FS`.
* The source of a mirror pass (the resolved source path inside the working
  directory) is a read-only snapshot, a `Tree`, whose directory listings are kept
  in the order `filepath.Walk` reads them (lexical by name).  The mirror is taken
  not to write into the subtree it reads from; symbolic links and special files
  are not part of a snapshot.
* The configured target path reaches `os.MkdirAll` as the string it is: the
  kernel resolves it element by element (`lookup`), so that a `..` segment
  follows a directory that has to exist, and `os.MkdirAll` makes every missing
  directory the string names on its way.  The paths the walk joins are cleaned by
  `filepath.Join`, as in the code.
* Everything the operating system and the go-git library decide is an explicit
  input: `Env` (umask, working directory of the process, whether the process is
  privileged, injected failures of individual system calls, short writes) and
  `GitCall` (the outcome of each library call made during one `Client.Sync`).
  A refusal that the state of the target decides is worked out, not injected: a
  path that is missing, a file where a directory is needed, and a file that its
  permission bits close to the process (`os.Create` needs the read and write bits
  of the owner unless the process is privileged; the files of the target are
  taken to belong to the process).  Any other refusal, such as one by the
  permission bits of a directory, is an injected failure.
* An error of a system call is its `PathError` text, `op name: reason`, with the
  path as it was passed to the call.
* Go `int64` counters are integers wrapped to 64 bits (`wrapInt64`).
* Errors are their messages; `fmt.Errorf("ctx: %w", err)` prepends `ctx: `.
-/

namespace GitSync

/-! ## Paths -/

/-- A cleaned, rooted path: its elements from the root downwards. -/
abbrev Path := List String

/-- Split a string at every slash (`cur` collects the current element, reversed). -/
def splitSlash : List Char → List Char → List String
  | [], cur => [String.mk cur.reverse]
  | c :: cs, cur =>
    if c = '/' then String.mk cur.reverse :: splitSlash cs [] else splitSlash cs (c :: cur)

/-- The slash-separated elements of a path string. -/
def pathElems (s : String) : List String := splitSlash s.data []

/-- One step of lexical cleaning on a rooted path held in reverse: empty and `.`
elements vanish, `..` removes the element before it (and vanishes at the root). -/
def cleanStep (acc : List String) (e : String) : List String :=
  if e = "" ∨ e = "." then acc
  else if e = ".." then acc.tail
  else e :: acc

/-- The function `filepath.Clean` on the elements of a rooted path. -/
def cleanPath (elems : List String) : Path := (elems.foldl cleanStep []).reverse

/-- The function `filepath.Join(base, s)` for an already resolved `base`. -/
def filepathJoin (base : Path) (s : String) : Path := cleanPath (base ++ pathElems s)

/-- The function `filepath.Base` of a cleaned rooted path (`/` for the root). -/
def filepathBase (p : Path) : String := p.getLast?.getD "/"

/-- The rooted path a path string names for a process whose working directory is `cwd`. -/
def resolvePath (cwd : Path) (s : String) : Path :=
  if s.data.head? = some '/' then cleanPath (pathElems s) else cleanPath (cwd ++ pathElems s)

/-- Elements joined by slashes: the string `pathElems` splits into them. -/
def joinSlash (elems : List String) : String := "/".intercalate elems

/-- The path string of a cleaned rooted path. -/
def pathString (p : Path) : String := "/" ++ joinSlash p

/-- One step of `filepath.Clean` on a path that is not rooted, held in reverse: `..`
removes the element before it, and stays when there is none or it is `..` itself. -/
def cleanRelStep (acc : List String) (e : String) : List String :=
  if e = "" ∨ e = "." then acc
  else if e = ".." then
    match acc with
    | [] => [".."]
    | top :: rest => if top = ".." then ".." :: top :: rest else rest
  else e :: acc

/-- The function `filepath.Clean` on a path string. -/
def filepathClean (s : String) : String :=
  if s.data.head? = some '/' then pathString (cleanPath (pathElems s))
  else
    match ((pathElems s).foldl cleanRelStep []).reverse with
    | [] => "."
    | e :: es => joinSlash (e :: es)

/-- The path string `filepath.Join(dir, relPath)`, where `relPath` is the relative
path `filepath.Rel` gives for the entry at `rel` (a dot for the root of the walk). -/
def joinName (dir : String) (rel : Path) : String :=
  let relPath := if rel = [] then "." else joinSlash rel
  if dir = "" then filepathClean relPath else filepathClean (dir ++ "/" ++ relPath)

/-! ## Configuration (`internal/config/config.go`) -/

/-- The struct `config.Config`. -/
structure Config where
  RepoURL : String
  Branch : String
  SourcePath : String
  TargetPath : String
  SyncInterval : String
  SyncOnce : Bool
  Port : String
  deriving DecidableEq, Repr

/-! ## Files, directories and the target filesystem -/

/-- A byte of file content. -/
abbrev Byte := Fin 256

/-- Permission bits of a file or directory. -/
abbrev FileMode := Nat

/-- What a path of the target filesystem holds. -/
inductive Entry
  | file (data : List Byte) (mode : FileMode)
  | dir (mode : FileMode)
  deriving DecidableEq, Repr

/-- Whether an entry is a directory. -/
def Entry.isDir : Entry → Bool
  | .dir _ => true
  | .file _ _ => false

/-- Whether an entry is a regular file. -/
def Entry.isFile : Entry → Bool
  | .dir _ => false
  | .file _ _ => true

/-- The filesystem the mirror writes to: what each rooted path holds, if anything. -/
abbrev FS := Path → Option Entry

/-- Put an entry at a path. -/
def FS.set (fs : FS) (p : Path) (e : Entry) : FS := fun q => if q = p then some e else fs q

mutual
/-- A snapshot of a source file or directory tree. -/
inductive Tree
  | file (data : List Byte) (mode : FileMode)
  | dir (mode : FileMode) (kids : Forest)
/-- The listing of a source directory, in the order `filepath.Walk` reads it. -/
inductive Forest
  | nil
  | cons (name : String) (t : Tree) (rest : Forest)
end

/-- The method `FileInfo.IsDir`. -/
def Tree.IsDir : Tree → Bool
  | .dir _ _ => true
  | .file _ _ => false

/-- The method `FileInfo.Mode`, as permission bits. -/
def Tree.Mode : Tree → FileMode
  | .dir m _ => m
  | .file _ m => m

/-- The system calls the mirror makes, each on one path. -/
inductive FsOp
  | stat (p : Path)
  | lstat (p : Path)
  | readdir (p : Path)
  | open (p : Path)
  | create (p : Path)
  | copy (p : Path)
  | chmod (p : Path)
  | mkdir (p : Path)
  deriving DecidableEq

/-- What the operating system decides during one mirror pass. -/
structure Env where
  -- working directory of the process, against which a relative target resolves
  cwd : Path
  -- file mode creation mask of the process
  umask : FileMode
  -- whether the process passes every permission check (it runs as root)
  privileged : Bool
  -- an injected failure of a system call (a refusal, an I/O error, a full disk)
  fault : FsOp → Option String
  -- how many bytes reach the destination before a failing io.Copy stops
  written : Path → Nat

/-- Permission bits a newly created entry gets: the requested ones minus the umask. -/
def maskMode (env : Env) (perm : FileMode) : FileMode := perm ^^^ (perm &&& env.umask)

/-! ### Path strings as the kernel resolves them -/

/-- Where the kernel stands while it resolves a path string element by element: at
an entry, at a free name inside a directory, or stopped with `ENOENT` or `ENOTDIR`. -/
inductive Lookup
  | found (p : Path) (e : Entry)
  | free (p : Path)
  | enoent
  | enotdir
  deriving DecidableEq

/-- One element of a path string: an empty element or a dot stays in a directory,
two dots go to the directory above, a name goes to the entry of that name or to the
free place for it; nothing but separators follows a free place, nothing a file. -/
def lookupStep (fs : FS) (st : Lookup) (elem : String) : Lookup :=
  match st with
  | .found p (.dir m) =>
    if elem = "" ∨ elem = "." then .found p (.dir m)
    else if elem = ".." then
      match fs p.dropLast with
      | some e => .found p.dropLast e
      | none => .enoent
    else
      match fs (p ++ [elem]) with
      | some e => .found (p ++ [elem]) e
      | none => .free (p ++ [elem])
  | .found _ (.file _ _) => .enotdir
  | .free p => if elem = "" then .free p else .enoent
  | .enoent => .enoent
  | .enotdir => .enotdir

/-- The resolution of the path string with the elements `elems`: from the root when
the string starts with a slash, from the working directory otherwise; the empty
string names nothing. -/
def lookup (env : Env) (fs : FS) (elems : List String) : Lookup :=
  match elems with
  | [] => .enoent
  | [""] => .enoent
  | first :: rest =>
    let base := if first = "" then [] else cleanPath env.cwd
    match fs base with
    | none => .enoent
    | some e => (first :: rest).foldl (lookupStep fs) (.found base e)

/-- The cleaned rooted path the elements of a path string name: where `lookup` ends
when every element on the way is a directory. -/
def lexPath (env : Env) (elems : List String) : Path :=
  if elems.head? = some "" then cleanPath elems else cleanPath (env.cwd ++ elems)

/-- The call `os.Mkdir(name, perm)` on the path string with the elements `elems`. -/
def osMkdirAt (env : Env) (fs : FS) (elems : List String) (perm : FileMode) :
    Option String × FS :=
  match lookup env fs elems with
  | .free p =>
    match env.fault (.mkdir p) with
    | some e => (some e, fs)
    | none => (none, FS.set fs p (.dir (maskMode env perm)))
  | .found p _ =>
    match env.fault (.mkdir p) with
    | some e => (some e, fs)
    | none => (some ("mkdir " ++ joinSlash elems ++ ": file exists"), fs)
  | .enoent => (some ("mkdir " ++ joinSlash elems ++ ": no such file or directory"), fs)
  | .enotdir => (some ("mkdir " ++ joinSlash elems ++ ": not a directory"), fs)

/-- The last step of `os.MkdirAll`: `Mkdir`, and when it fails a second look at the
path, which makes a success of the failure when the path is a directory after all
(a path such as `x/.`). -/
def mkdirOrDir (env : Env) (fs : FS) (elems : List String) (perm : FileMode) :
    Option String × FS :=
  match osMkdirAt env fs elems perm with
  | (none, fs2) => (none, fs2)
  | (some e, fs2) =>
    match lookup env fs2 elems with
    | .found _ (.dir _) => (none, fs2)
    | _ => (some e, fs2)

/-- The body of `os.MkdirAll(path, perm)` for the path with the elements `r`, held
in reverse, given what making its parent has returned: stop at a path that resolves
(success on a directory, `ENOTDIR` on a file), otherwise make the path itself once
the parent is there. -/
def mkdirAllOne (env : Env) (perm : FileMode) (r : List String) (parent : Option String × FS)
    (fs : FS) : Option String × FS :=
  match lookup env fs r.reverse with
  | .found _ (.dir _) => (none, fs)
  | .found _ (.file _ _) => (some ("mkdir " ++ joinSlash r.reverse ++ ": not a directory"), fs)
  | _ =>
    match parent with
    | (some e, fs1) => (some e, fs1)
    | (none, fs1) => mkdirOrDir env fs1 r.reverse perm

/-- The parent `os.MkdirAll` makes first for the path with the elements `r`, held in
reverse: the path before its last element, trailing separators skipped (`path[:j-1]`),
and none when that element starts the string or follows the root (`j > 1` fails). -/
def ensureParent (env : Env) (perm : FileMode) : List String → FS → Option String × FS
  | [], fs => (none, fs)
  | e :: rest, fs =>
    if e = "" then ensureParent env perm rest fs
    else if rest = [] ∨ rest = [""] then (none, fs)
    else mkdirAllOne env perm rest (ensureParent env perm rest fs) fs

/-- The call `os.MkdirAll(name, perm)` on a path string as configured: its elements
are resolved by the kernel, two dots included. -/
def osMkdirAllStr (env : Env) (fs : FS) (name : String) (perm : FileMode) : Option String × FS :=
  mkdirAllOne env perm (pathElems name).reverse
    (ensureParent env perm (pathElems name).reverse fs) fs

/-! ### Calls on cleaned paths

Once `os.MkdirAll` has made the target directory, the cleaned strings `filepath.Join`
builds below it resolve to the cleaned rooted paths, and the names a directory
listing gives are single elements.  The calls below take the rooted path `p`
together with the string `name` the program passes, which the error names. -/

/-- The call `os.Mkdir(name, perm)`: the parent must be a directory and `p` must be free. -/
def osMkdir (env : Env) (name : String) (fs : FS) (p : Path) (perm : FileMode) :
    Option String × FS :=
  match env.fault (.mkdir p) with
  | some e => (some e, fs)
  | none =>
    match fs p with
    | some _ => (some ("mkdir " ++ name ++ ": file exists"), fs)
    | none =>
      if p = [] then (some ("mkdir " ++ name ++ ": no such file or directory"), fs)
      else
        match fs p.dropLast with
        | some (.dir _) => (none, FS.set fs p (.dir (maskMode env perm)))
        | some (.file _ _) => (some ("mkdir " ++ name ++ ": not a directory"), fs)
        | none => (some ("mkdir " ++ name ++ ": no such file or directory"), fs)

/-- The recursion of `os.MkdirAll` on a cleaned path held leaf first, `rn` being the
elements of its name, also leaf first: stop at a path that exists (success on a
directory, `ENOTDIR` on a file), otherwise make the parent first, unless the name
has none (`j > 1` fails), and then the path itself.  The second look `MkdirAll`
takes after a failed `Mkdir` finds nothing here: the path was free and a failed
`Mkdir` leaves it so. -/
def mkdirAllRev (env : Env) (perm : FileMode) : List String → List String → FS → Option String × FS
  | rn, [], fs =>
    match fs [] with
    | some (.dir _) => (none, fs)
    | some (.file _ _) => (some ("mkdir " ++ joinSlash rn.reverse ++ ": not a directory"), fs)
    | none => osMkdir env (joinSlash rn.reverse) fs [] perm
  | rn, name :: up, fs =>
    match fs (name :: up).reverse with
    | some (.dir _) => (none, fs)
    | some (.file _ _) => (some ("mkdir " ++ joinSlash rn.reverse ++ ": not a directory"), fs)
    | none =>
      match (if rn.tail = [] ∨ rn.tail = [""] then (none, fs)
             else mkdirAllRev env perm rn.tail up fs) with
      | (some e, fs1) => (some e, fs1)
      | (none, fs1) => osMkdir env (joinSlash rn.reverse) fs1 (name :: up).reverse perm

/-- The call `os.MkdirAll(name, perm)` on a cleaned path. -/
def osMkdirAll (env : Env) (name : String) (fs : FS) (p : Path) (perm : FileMode) :
    Option String × FS :=
  mkdirAllRev env perm (pathElems name).reverse p.reverse fs

/-- The call `os.Create(name)`: truncate an existing file (its mode stays), which a
process without privilege may only do when the owner bits of the file, taken to be
its own, allow reading and writing; or create an empty file with mode `0666` minus
the umask inside an existing directory. -/
def osCreate (env : Env) (name : String) (fs : FS) (p : Path) : Option String × FS :=
  match env.fault (.create p) with
  | some e => (some e, fs)
  | none =>
    match fs p with
    | some (.dir _) => (some ("open " ++ name ++ ": is a directory"), fs)
    | some (.file _ m) =>
      if env.privileged ∨ m &&& 0o600 = 0o600 then (none, FS.set fs p (.file [] m))
      else (some ("open " ++ name ++ ": permission denied"), fs)
    | none =>
      if p = [] then (some ("open " ++ name ++ ": no such file or directory"), fs)
      else
        match fs p.dropLast with
        | some (.dir _) => (none, FS.set fs p (.file [] (maskMode env 0o666)))
        | some (.file _ _) => (some ("open " ++ name ++ ": not a directory"), fs)
        | none => (some ("open " ++ name ++ ": no such file or directory"), fs)

/-- Replace the content of the file open at `p`. -/
def writeData (fs : FS) (p : Path) (data : List Byte) : FS :=
  match fs p with
  | some (.file _ m) => FS.set fs p (.file data m)
  | _ => fs

/-- The call `os.Chmod(name, mode)`. -/
def osChmod (env : Env) (name : String) (fs : FS) (p : Path) (mode : FileMode) :
    Option String × FS :=
  match env.fault (.chmod p) with
  | some e => (some e, fs)
  | none =>
    match fs p with
    | some (.file d _) => (none, FS.set fs p (.file d mode))
    | some (.dir _) => (none, FS.set fs p (.dir mode))
    | none => (some ("chmod " ++ name ++ ": no such file or directory"), fs)

/-- The call `os.Stat(name)` on the source side, where `node` is what `p` holds. -/
def osStat (env : Env) (name : String) (p : Path) (node : Option Tree) : Except String Tree :=
  match env.fault (.stat p) with
  | some e => .error e
  | none =>
    match node with
    | none => .error ("stat " ++ name ++ ": no such file or directory")
    | some t => .ok t

/-! ## `copyFile` (`internal/sync/syncer.go`) -/

/-- The function `copyFile(src, dst)`, where `node` is what the source path holds:
open the source, create or truncate the destination, copy the bytes, stat the
source again and give the destination the source's permission bits. -/
def copyFile (env : Env) (srcName : String) (src : Path) (node : Tree) (dstName : String)
    (dst : Path) (fs : FS) : Option String × FS :=
  match env.fault (.open src) with
  | some e => (some e, fs)
  | none =>
    match osCreate env dstName fs dst with
    | (some e, fs1) => (some e, fs1)
    | (none, fs1) =>
      match node with
      | .dir _ _ => (some ("read " ++ srcName ++ ": is a directory"), fs1)
      | .file data mode =>
        match env.fault (.copy dst) with
        | some e => (some e, writeData fs1 dst (data.take (env.written dst)))
        | none =>
          let fs2 := writeData fs1 dst data
          match osStat env srcName src (some (.file data mode)) with
          | .error e => (some e, fs2)
          | .ok sourceInfo => osChmod env dstName fs2 dst sourceInfo.Mode

/-! ## `filepath.Walk` and the walk function of `copyFiles` -/

/-- What a walk function returns besides `nil`: the sentinel `filepath.SkipDir` or
an ordinary error. -/
inductive WalkErr
  | skipDir
  | err (msg : String)
  deriving DecidableEq, Repr

/-- The fixed data of one directory mirror: the environment, the resolved source
path, the resolved target path and the target path string as configured. -/
structure WalkCtx where
  env : Env
  root : Path
  target : Path
  targetName : String

/-- The result of a system call as the walk function returns it. -/
def walkResult (r : Option String × FS) : Option WalkErr × FS := (r.1.map WalkErr.err, r.2)

/-- The closure `copyFiles` hands to `filepath.Walk`, called for the entry at the
relative path `rel` with base name `name`; `err` is the error `Walk` passes in. -/
def walkFn (ctx : WalkCtx) (rel : Path) (name : String) (info : Tree) (err : Option String)
    (fs : FS) : Option WalkErr × FS :=
  match err with
  | some e => (some (.err e), fs)
  | none =>
    if info.IsDir && name == ".git" then (some .skipDir, fs)
    else
      -- filepath.Rel(sourcePath, path) is rel and cannot fail below sourcePath
      let targetPath := ctx.target ++ rel
      let targetName := joinName ctx.targetName rel
      if info.IsDir then
        walkResult (osMkdirAll ctx.env targetName fs targetPath info.Mode)
      else
        walkResult
          (copyFile ctx.env (pathString (ctx.root ++ rel)) (ctx.root ++ rel) info targetName
            targetPath fs)

mutual
/-- The recursion `walk(path, info, walkFn)` of `filepath.Walk`. -/
def walk (ctx : WalkCtx) (rel : Path) (name : String) : Tree → FS → Option WalkErr × FS
  | .file data mode, fs => walkFn ctx rel name (.file data mode) none fs
  | .dir mode kids, fs =>
    let err := ctx.env.fault (.readdir (ctx.root ++ rel))
    match walkFn ctx rel name (.dir mode kids) err fs with
    | (some err1, fs1) => (some err1, fs1)
    | (none, fs1) =>
      match err with
      | some _ => (none, fs1)
      | none => walkNames ctx rel kids fs1
/-- The loop of `walk` over the names of a directory. -/
def walkNames (ctx : WalkCtx) (rel : Path) : Forest → FS → Option WalkErr × FS
  | .nil, fs => (none, fs)
  | .cons name t rest, fs =>
    match ctx.env.fault (.lstat (ctx.root ++ (rel ++ [name]))) with
    | some e =>
      match walkFn ctx (rel ++ [name]) name t (some e) fs with
      | (some .skipDir, fs1) => walkNames ctx rel rest fs1
      | (some (.err e1), fs1) => (some (.err e1), fs1)
      | (none, fs1) => walkNames ctx rel rest fs1
    | none =>
      match walk ctx (rel ++ [name]) name t fs with
      | (none, fs1) => walkNames ctx rel rest fs1
      | (some e1, fs1) =>
        if !t.IsDir || e1 != .skipDir then (some e1, fs1) else walkNames ctx rel rest fs1
end

/-- The function `filepath.Walk(root, walkFn)` on the snapshot `t` of the root. -/
def filepathWalk (ctx : WalkCtx) (t : Tree) (fs : FS) : Option String × FS :=
  let r :=
    match ctx.env.fault (.lstat ctx.root) with
    | some e => walkFn ctx [] (filepathBase ctx.root) t (some e) fs
    | none => walk ctx [] (filepathBase ctx.root) t fs
  match r with
  | (none, fs1) => (none, fs1)
  | (some .skipDir, fs1) => (none, fs1)
  | (some (.err e), fs1) => (some e, fs1)

/-! ## The git client (`internal/git/client.go`) -/

/-- A handle on a go-git repository. -/
structure Repository where
  handle : Nat
  deriving DecidableEq, Repr

/-- The type `plumbing.Hash`: twenty bytes. -/
structure Hash where
  bytes : List Byte
  size : bytes.length = 20

/-- A lower-case hexadecimal digit. -/
def hexDigit (n : Nat) : Char := if n < 10 then Char.ofNat (48 + n) else Char.ofNat (87 + n)

/-- The method `Hash.String`: the hexadecimal rendering of the twenty bytes. -/
def Hash.hex (h : Hash) : String :=
  String.mk (h.bytes.flatMap fun b => [hexDigit (b.val / 16), hexDigit (b.val % 16)])

/-- The error a pull reports: the sentinel `git.NoErrAlreadyUpToDate` or another one. -/
inductive PullError
  | alreadyUpToDate
  | other (msg : String)
  deriving DecidableEq, Repr

/-- What the go-git library does during one call of `Client.Sync`. -/
structure GitCall where
  -- git.PlainCloneContext
  clone : Except String Repository
  -- the error of repo.Worktree, if any
  worktree : Option String
  -- the error of Worktree.PullContext, if any
  pull : Option PullError
  -- repo.Head
  head : Except String Hash

/-- The struct `git.Client`. -/
structure Client where
  cfg : Config
  workDir : Path
  repo : Option Repository

/-- The function `git.NewClient`; `mkdirTemp` is the outcome of `os.MkdirTemp`. -/
def NewClient (cfg : Config) (mkdirTemp : Except String Path) : Except String Client :=
  match mkdirTemp with
  | .error e => .error ("failed to create work directory: " ++ e)
  | .ok workDir => .ok { cfg := cfg, workDir := workDir, repo := none }

/-- The method `Client.getHeadCommit`. -/
def Client.getHeadCommit (_c : Client) (g : GitCall) : Except String String :=
  match g.head with
  | .error e => .error ("failed to get HEAD: " ++ e)
  | .ok ref => .ok ref.hex

/-- The method `Client.clone`. -/
def Client.clone (c : Client) (g : GitCall) : Except String String × Client :=
  match g.clone with
  | .error e => (.error ("clone failed: " ++ e), c)
  | .ok repo =>
    let c1 := { c with repo := some repo }
    (c1.getHeadCommit g, c1)

/-- The message of a pull error. -/
def PullError.Error : PullError → String
  | .alreadyUpToDate => "already up-to-date"
  | .other msg => msg

/-- The method `Client.pull`: a pull error other than `git.NoErrAlreadyUpToDate` is
returned, anything else leads on to the head commit. -/
def Client.pull (c : Client) (g : GitCall) : Except String String × Client :=
  match g.worktree with
  | some e => (.error ("failed to get worktree: " ++ e), c)
  | none =>
    match g.pull with
    | some err =>
      if err ≠ .alreadyUpToDate then (.error ("pull failed: " ++ err.Error), c)
      else (c.getHeadCommit g, c)
    | none => (c.getHeadCommit g, c)

/-- The method `Client.Sync`. -/
def Client.Sync (c : Client) (g : GitCall) : Except String String × Client :=
  if c.repo = none then c.clone g else c.pull g

/-- The method `Client.WorkDir`. -/
def Client.WorkDir (c : Client) : Path := c.workDir

/-! ## The syncer (`internal/sync/syncer.go`) -/

/-- A point in time; `0` is the zero value of `time.Time`. -/
abbrev Time := Nat

/-- A Go `int64` result: the integer wrapped into the 64-bit two's complement range. -/
def wrapInt64 (x : Int) : Int := (x + 2 ^ 63) % 2 ^ 64 - 2 ^ 63

/-- The struct `sync.Syncer` (the mutex guards every method and is not a field here). -/
structure Syncer where
  cfg : Config
  git : Client
  lastSync : Time
  lastCommit : String
  syncCount : Int
  errorCount : Int
  healthy : Bool

/-- The function `sync.NewSyncer`. -/
def NewSyncer (cfg : Config) (mkdirTemp : Except String Path) : Except String Syncer :=
  match NewClient cfg mkdirTemp with
  | .error e => .error ("failed to create git client: " ++ e)
  | .ok gitClient =>
    .ok { cfg := cfg, git := gitClient, lastSync := 0, lastCommit := "", syncCount := 0,
          errorCount := 0, healthy := false }

/-- The method `Syncer.copyFiles`; `source` is what the resolved source path holds.
`os.MkdirAll` gets the target path string as configured; once it has succeeded the
string names a directory, at the cleaned path `target`. -/
def Syncer.copyFiles (s : Syncer) (env : Env) (source : Option Tree) (fs : FS) :
    Option String × FS :=
  let sourcePath := filepathJoin s.git.WorkDir s.cfg.SourcePath
  let target := resolvePath env.cwd s.cfg.TargetPath
  match osMkdirAllStr env fs s.cfg.TargetPath 0o755 with
  | (some e, fs1) => (some ("failed to create target directory: " ++ e), fs1)
  | (none, fs1) =>
    match osStat env (pathString sourcePath) sourcePath source with
    | .error e => (some ("failed to stat source path: " ++ e), fs1)
    | .ok sourceInfo =>
      if !sourceInfo.IsDir then
        let base := filepathBase sourcePath
        copyFile env (pathString sourcePath) sourcePath sourceInfo
          (joinName s.cfg.TargetPath [base]) (target ++ [base]) fs1
      else
        filepathWalk
          { env := env, root := sourcePath, target := target, targetName := s.cfg.TargetPath }
          sourceInfo fs1

/-- How a call of `Syncer.Sync` ends. -/
inductive SyncResult
  | nil
  | error (msg : String)
  | panic (msg : String)
  deriving DecidableEq, Repr

/-- What the outside world does during one call of `Syncer.Sync`. -/
structure Cycle where
  -- the go-git library
  git : GitCall
  -- what the resolved source path holds once the git step is over
  source : Option Tree
  -- the operating system during the mirror pass
  env : Env
  -- the clock when the status is written
  now : Time

/-- The method `Syncer.Sync`: the result, the syncer and the target filesystem after
the call.  The slice `commit[:7]` of the success log line panics on a revision
shorter than seven bytes. -/
def Syncer.Sync (s : Syncer) (c : Cycle) (fs : FS) : SyncResult × Syncer × FS :=
  match s.git.Sync c.git with
  | (.error e, git1) =>
    (.error ("git sync failed: " ++ e),
     { s with git := git1, errorCount := wrapInt64 (s.errorCount + 1), healthy := false }, fs)
  | (.ok commit, git1) =>
    let s1 := { s with git := git1 }
    match s1.copyFiles c.env c.source fs with
    | (some e, fs1) =>
      (.error ("file copy failed: " ++ e),
       { s1 with errorCount := wrapInt64 (s1.errorCount + 1), healthy := false }, fs1)
    | (none, fs1) =>
      let s2 := { s1 with lastSync := c.now, lastCommit := commit,
                          syncCount := wrapInt64 (s1.syncCount + 1), healthy := true }
      if commit.utf8ByteSize < 7 then (.panic "slice bounds out of range", s2, fs1)
      else (.nil, s2, fs1)

/-- A sequence of calls of `Syncer.Sync` on one syncer, one cycle per call: the
results in order, the syncer and the target filesystem at the end. -/
def runCycles : List Cycle → Syncer → FS → List SyncResult × Syncer × FS
  | [], s, fs => ([], s, fs)
  | c :: cs, s, fs =>
    let r := s.Sync c fs
    let rest := runCycles cs r.2.1 r.2.2
    (r.1 :: rest.1, rest.2.1, rest.2.2)

/-! ## The entries of a source tree and the order in which the walk visits them -/

/-- An entry of a source tree as the walk meets it: its path relative to the root
of the walk, its base name and what it holds. -/
structure Visit where
  rel : Path
  name : String
  node : Tree

/-- Whether the walk function skips the entry: a directory named `.git`. -/
def Visit.skipped (v : Visit) : Bool := v.node.IsDir && v.name == ".git"

/-- Whether the entry is a regular file. -/
def Visit.isFile (v : Visit) : Bool := !v.node.IsDir

mutual
/-- Every entry of a tree, parents before children, siblings in listing order. -/
def Tree.entries (rel : Path) (name : String) : Tree → List Visit
  | .file data mode => [⟨rel, name, .file data mode⟩]
  | .dir mode kids => ⟨rel, name, .dir mode kids⟩ :: Forest.entries rel kids
/-- Every entry below a directory listing. -/
def Forest.entries (rel : Path) : Forest → List Visit
  | .nil => []
  | .cons name t rest => Tree.entries (rel ++ [name]) name t ++ Forest.entries rel rest
end

mutual
/-- The entries the walk function is called on, in order: every entry that does not
lie below a directory named `.git`. -/
def Tree.visits (rel : Path) (name : String) : Tree → List Visit
  | .file data mode => [⟨rel, name, .file data mode⟩]
  | .dir mode kids =>
    ⟨rel, name, .dir mode kids⟩ :: (if name = ".git" then [] else Forest.visits rel kids)
/-- The visited entries below a directory listing. -/
def Forest.visits (rel : Path) : Forest → List Visit
  | .nil => []
  | .cons name t rest => Tree.visits (rel ++ [name]) name t ++ Forest.visits rel rest
end

/-- The names of a directory listing. -/
def Forest.names : Forest → List String
  | .nil => []
  | .cons name _ rest => name :: Forest.names rest

mutual
/-- A snapshot is well formed when no directory lists a name twice. -/
def Tree.WF : Tree → Prop
  | .file _ _ => True
  | .dir _ kids => Forest.WF kids
/-- A listing is well formed when its names are distinct and its members well formed. -/
def Forest.WF : Forest → Prop
  | .nil => True
  | .cons name t rest => name ∉ Forest.names rest ∧ Tree.WF t ∧ Forest.WF rest
end

/-- One call of the walk function together with the `Lstat` and directory read that
`filepath.Walk` does before it. -/
def visitOne (ctx : WalkCtx) (v : Visit) (fs : FS) : Option WalkErr × FS :=
  match ctx.env.fault (.lstat (ctx.root ++ v.rel)) with
  | some e => walkFn ctx v.rel v.name v.node (some e) fs
  | none =>
    walkFn ctx v.rel v.name v.node
      (if v.node.IsDir then ctx.env.fault (.readdir (ctx.root ++ v.rel)) else none) fs

/-- The walk function called on a list of entries in turn, up to the first error. -/
def runVisits (ctx : WalkCtx) : List Visit → FS → Option String × FS
  | [], fs => (none, fs)
  | v :: vs, fs =>
    match visitOne ctx v fs with
    | (some (.err e), fs1) => (some e, fs1)
    | (some .skipDir, fs1) => runVisits ctx vs fs1
    | (none, fs1) => runVisits ctx vs fs1

/-- The result of a walk as `filepath.Walk` reports it: `SkipDir` is no error. -/
def collapse (r : Option WalkErr × FS) : Option String × FS :=
  match r with
  | (none, fs1) => (none, fs1)
  | (some .skipDir, fs1) => (none, fs1)
  | (some (.err e), fs1) => (some e, fs1)

/-! ## What a mirror pass does to a path -/

/-- How the mirror step for the entry `v` may have changed what the path `q` holds:
it wrote the file at the entry's destination, where no directory was, or it made a
directory, with the entry's mode minus the umask, at a free path on the way to the
entry's destination. -/
def Changed (ctx : WalkCtx) (v : Visit) (fs fs1 : FS) (q : Path) : Prop :=
  (v.node.IsDir = false ∧ q = ctx.target ++ v.rel ∧ (∀ m, fs q ≠ some (.dir m)) ∧
    ∃ d m, fs1 q = some (.file d m)) ∨
  (v.node.IsDir = true ∧ v.name ≠ ".git" ∧ fs q = none ∧ q <+: ctx.target ++ v.rel ∧
    fs1 q = some (.dir (maskMode ctx.env v.node.Mode)))

/-- The entry `v` is mirrored in `fs`: a file is at its destination with the same
bytes and mode, a directory not named `.git` is a directory at its destination. -/
def Mirrored (ctx : WalkCtx) (v : Visit) (fs : FS) : Prop :=
  match v.node with
  | .file data mode => fs (ctx.target ++ v.rel) = some (.file data mode)
  | .dir _ _ => v.name = ".git" ∨ ∃ m, fs (ctx.target ++ v.rel) = some (.dir m)

/-! ## The paths and entries of a mirror pass -/

/-- The resolved source path: the working directory joined with `SourcePath`. -/
def Syncer.sourcePath (s : Syncer) : Path := filepathJoin s.git.WorkDir s.cfg.SourcePath

/-- The resolved target path. -/
def Syncer.targetPath (s : Syncer) (env : Env) : Path := resolvePath env.cwd s.cfg.TargetPath

/-- The fixed data of the mirror pass of a syncer. -/
def Syncer.walkCtx (s : Syncer) (env : Env) : WalkCtx :=
  { env := env, root := s.sourcePath, target := s.targetPath env,
    targetName := s.cfg.TargetPath }

/-- The entries a mirror pass goes through, with their paths relative to the target:
the visited entries of a source directory, or a single source file under its base
name. -/
def Syncer.mirrorList (s : Syncer) (source : Option Tree) : List Visit :=
  match source with
  | none => []
  | some t =>
    if t.IsDir then Tree.visits [] (filepathBase s.sourcePath) t
    else [⟨[filepathBase s.sourcePath], filepathBase s.sourcePath, t⟩]

/-! ## Loading and validating the configuration (`internal/config/config.go`) -/

/-- The environment of the process: the value of each variable that is set. -/
abbrev Environ := String → Option String

/-- The call `os.Getenv(key)`: the empty string for a variable that is not set. -/
def osGetenv (environ : Environ) (key : String) : String := (environ key).getD ""

/-- The function `getEnvOrDefault`. -/
def getEnvOrDefault (environ : Environ) (key defaultValue : String) : String :=
  if osGetenv environ key ≠ "" then osGetenv environ key else defaultValue

/-- The function `config.LoadFromEnv`. -/
def LoadFromEnv (environ : Environ) : Config :=
  { RepoURL := osGetenv environ "GIT_REPO_URL",
    Branch := getEnvOrDefault environ "GIT_BRANCH" "main",
    SourcePath := getEnvOrDefault environ "GIT_SOURCE_PATH" "/",
    TargetPath := getEnvOrDefault environ "TARGET_PATH" "/data",
    SyncInterval := getEnvOrDefault environ "SYNC_INTERVAL" "*/5 * * * *",
    SyncOnce := decide (osGetenv environ "SYNC_ONCE" = "true"),
    Port := getEnvOrDefault environ "PORT" "8080" }

/-- The method `Config.Validate`: the error it returns, if any, and the configuration
after the call. -/
def Config.Validate (c : Config) : Option String × Config :=
  if c.RepoURL = "" then (some "GIT_REPO_URL is required", c)
  else if c.TargetPath = "" then (some "TARGET_PATH is required", c)
  else (none, c)

/-! ## The library calls of the git client -/

/-- The fields of `git.CloneOptions` that `Client.clone` sets. -/
structure CloneOptions where
  URL : String
  ReferenceName : String
  SingleBranch : Bool
  Depth : Nat
  deriving DecidableEq, Repr

/-- The fields of `git.PullOptions` that `Client.pull` sets. -/
structure PullOptions where
  ReferenceName : String
  SingleBranch : Bool
  deriving DecidableEq, Repr

/-- The function `plumbing.NewBranchReferenceName`. -/
def NewBranchReferenceName (name : String) : String := "refs/heads/" ++ name

/-- A call into the go-git library. -/
inductive GitOp
  | plainClone (path : Path) (isBare : Bool) (o : CloneOptions)
  | worktree
  | pull (o : PullOptions)
  | head
  deriving DecidableEq, Repr

/-- The library call `Client.clone` starts with. -/
def Client.cloneCall (c : Client) : GitOp :=
  .plainClone c.workDir false
    { URL := c.cfg.RepoURL, ReferenceName := NewBranchReferenceName c.cfg.Branch,
      SingleBranch := true, Depth := 1 }

/-- The pull `Client.pull` asks for. -/
def Client.pullCall (c : Client) : GitOp :=
  .pull { ReferenceName := NewBranchReferenceName c.cfg.Branch, SingleBranch := true }

/-- The library calls one `Client.Sync` makes, in order: it follows `Client.Sync`,
`clone`, `pull` and `getHeadCommit` call by call. -/
def Client.calls (c : Client) (g : GitCall) : List GitOp :=
  if c.repo = none then
    match g.clone with
    | .error _ => [c.cloneCall]
    | .ok _ => [c.cloneCall, .head]
  else
    match g.worktree with
    | some _ => [.worktree]
    | none =>
      match g.pull with
      | some err =>
        if err ≠ .alreadyUpToDate then [.worktree, c.pullCall]
        else [.worktree, c.pullCall, .head]
      | none => [.worktree, c.pullCall, .head]

/-- A sequence of calls of `Client.Sync` on one client: the client at the end. -/
def runClient : List GitCall → Client → Client
  | [], c => c
  | g :: gs, c => runClient gs (c.Sync g).2

/-- The pair `(string, error)` a Go caller of `Client.Sync` receives: every error
comes with the empty revision. -/
def goPair (r : Except String String) : String × Option String :=
  match r with
  | .error e => ("", some e)
  | .ok commit => (commit, none)

/-! ## The status snapshot (`internal/sync/syncer.go`) -/

/-- A value of the status map. -/
inductive StatusValue
  | bool (b : Bool)
  | time (t : Time)
  | string (s : String)
  | int64 (n : Int)
  deriving DecidableEq, Repr

/-- The method `Syncer.GetStatus`: the map it returns, as its entries in the order of
the map literal, and the syncer after the call. -/
def Syncer.GetStatus (s : Syncer) : List (String × StatusValue) × Syncer :=
  ([("healthy", .bool s.healthy),
    ("lastSync", .time s.lastSync),
    ("lastCommit", .string s.lastCommit),
    ("syncCount", .int64 s.syncCount),
    ("errorCount", .int64 s.errorCount),
    ("repoURL", .string s.cfg.RepoURL),
    ("branch", .string s.cfg.Branch),
    ("targetPath", .string s.cfg.TargetPath)], s)

/-- The method `Syncer.IsHealthy`: the value it returns and the syncer after the call. -/
def Syncer.IsHealthy (s : Syncer) : Bool × Syncer := (s.healthy, s)

/-! ## The program (`main.go`) -/

/-- What the outside world does while `main` starts. -/
structure Startup where
  -- the environment variables
  environ : Environ
  -- the outcome of os.MkdirTemp in git.NewClient
  mkdirTemp : Except String Path
  -- the cycle of the initial sync
  initial : Cycle
  -- the error of cron AddFunc, if any
  addFunc : Option String

/-- The process: it has exited with a status, or it is running with its syncer; in
both cases with what it has written to standard error. -/
inductive Process
  | exited (status : Nat) (stderr : List String)
  | running (syncer : Syncer) (fs : FS) (stderr : List String)

/-- The function `main` up to the start of the scheduler: the process after it. -/
def main (w : Startup) (fs : FS) : Process :=
  let cfg := LoadFromEnv w.environ
  match cfg.Validate with
  | (some err, _) => .exited 1 ["Configuration error: " ++ err ++ "\n"]
  | (none, cfg) =>
    match NewSyncer cfg w.mkdirTemp with
    | .error err => .exited 1 ["Failed to initialize syncer: " ++ err ++ "\n"]
    | .ok syncer =>
      match syncer.Sync w.initial fs with
      | (.error err, _, _) => .exited 1 ["Initial sync failed: " ++ err ++ "\n"]
      | (.panic _, _, _) => .exited 2 []
      | (.nil, syncer, fs) =>
        if cfg.SyncOnce then .exited 0 []
        else
          match w.addFunc with
          | some err => .exited 1 ["Failed to schedule sync: " ++ err ++ "\n"]
          | none => .running syncer fs []

/-- The job `main` hands to the scheduler, run for one cycle: an error of `Sync` is
written to standard error and dropped. -/
def scheduledSync (p : Process) (c : Cycle) : Process :=
  match p with
  | .exited status stderr => .exited status stderr
  | .running syncer fs stderr =>
    match syncer.Sync c fs with
    | (.error err, syncer, fs) => .running syncer fs (stderr ++ ["Sync failed: " ++ err ++ "\n"])
    | (.panic _, _, _) => .exited 2 stderr
    | (.nil, syncer, fs) => .running syncer fs stderr

/-- Whether a call of `Syncer.Sync` returned a nil error. -/
def SyncResult.isNil : SyncResult → Bool
  | .nil => true
  | _ => false

/-! ## Sample values -/

/-- A process without privilege, with umask 022, in which no system call fails by
accident. -/
def demoEnv : Env :=
  { cwd := ["app"], umask := 0o022, privileged := false, fault := fun _ => none,
    written := fun _ => 0 }

/-- A filesystem holding only the root directory. -/
def demoFS : FS := fun p => if p = [] then some (.dir 0o755) else none

/-- A configuration mirroring the subtree docs into /data/out. -/
def demoConfig : Config :=
  { RepoURL := "https://example.com/r.git", Branch := "main", SourcePath := "/docs",
    TargetPath := "/data/out", SyncInterval := "*/5 * * * *", SyncOnce := false, Port := "8080" }

/-- A source tree with a metadata directory, a subdirectory and two files. -/
def demoTree : Tree :=
  .dir 0o775
    (.cons ".git" (.dir 0o700 (.cons "HEAD" (.file [1] 0o644) .nil))
      (.cons "a" (.dir 0o700 (.cons "x" (.file [1, 2] 0o600) .nil))
        (.cons "b.txt" (.file [3] 0o444) .nil)))

/-- A commit hash. -/
def demoHash : Hash := ⟨List.replicate 20 171, rfl⟩

/-- A syncer as `NewSyncer` returns it. -/
def demoSyncer : Syncer :=
  { cfg := demoConfig, git := { cfg := demoConfig, workDir := ["tmp", "git-sync-work-1"], repo := none },
    lastSync := 0, lastCommit := "", syncCount := 0, errorCount := 0, healthy := false }

/-- A cycle in which the clone succeeds and the source is `demoTree`. -/
def demoCycle : Cycle :=
  { git := { clone := .ok ⟨1⟩, worktree := none, pull := none, head := .ok demoHash },
    source := some demoTree, env := demoEnv, now := 5 }

/-- A cycle in which the repository cannot be reached. -/
def demoCycleGitDown : Cycle :=
  { git := { clone := .error "repository not found", worktree := none, pull := none,
             head := .ok demoHash },
    source := none, env := demoEnv, now := 6 }

/-- A cycle in which the clone succeeds and the source path does not exist. -/
def demoCycleNoSource : Cycle :=
  { git := { clone := .ok ⟨1⟩, worktree := none, pull := none, head := .ok demoHash },
    source := none, env := demoEnv, now := 7 }

/-- A cycle on a client that has cloned: the pull finds the branch up to date. -/
def demoCyclePull : Cycle :=
  { git := { clone := .error "unused", worktree := none, pull := some .alreadyUpToDate,
             head := .ok demoHash },
    source := some demoTree, env := demoEnv, now := 9 }

/-- A filesystem in which the target directory exists and holds a file and a
directory of its own. -/
def demoFSOld : FS := fun p =>
  if p = [] ∨ p = ["data"] ∨ p = ["data", "out"] then some (.dir 0o755)
  else if p = ["data", "out", "old.txt"] then some (.file [7] 0o600)
  else if p = ["data", "out", "a"] then some (.dir 0o755)
  else none

/-- A configuration mirroring the single file b.txt into /data/out. -/
def demoConfigFile : Config := { demoConfig with SourcePath := "/docs/b.txt" }

/-- A syncer whose source is the single file b.txt. -/
def demoSyncerFile : Syncer :=
  { demoSyncer with cfg := demoConfigFile,
                    git := { demoSyncer.git with cfg := demoConfigFile } }

/-- A source tree without metadata directory: a subdirectory and two files. -/
def demoTreePlain : Tree :=
  .dir 0o775
    (.cons "a" (.dir 0o700 (.cons "x" (.file [1, 2] 0o600) .nil))
      (.cons "b.txt" (.file [3] 0o444) .nil))

/-- A process in which creating the file a/x below the target fails. -/
def demoEnvFull : Env :=
  { demoEnv with
    fault := fun op => if op = .create ["data", "out", "a", "x"] then some "disk full" else none }

/-- An environment that sets only the repository location. -/
def demoEnviron : Environ := fun key =>
  if key = "GIT_REPO_URL" then some "https://example.com/r.git" else none

/-- An environment that sets only the target path. -/
def demoEnvironNoRepo : Environ := fun key =>
  if key = "TARGET_PATH" then some "/data/out" else none

/-- A start of the process in which the first cycle finds the repository down. -/
def demoStartup : Startup :=
  { environ := demoEnviron, mkdirTemp := .ok ["tmp", "git-sync-work-1"],
    initial := demoCycleGitDown, addFunc := none }

/-- A syncer whose client has cloned the repository. -/
def demoSyncerCloned : Syncer := { demoSyncer with git := { demoSyncer.git with repo := some ⟨1⟩ } }

/-- Go-git outcomes with a local checkout that cannot be pulled into, while a
clone into a fresh directory would succeed. -/
def demoGitBroken : GitCall :=
  { clone := .ok ⟨2⟩, worktree := none, pull := some (.other "object not found"),
    head := .ok demoHash }

/-- Go-git outcomes in which the clone succeeds and reading HEAD fails. -/
def demoGitNoHead : GitCall :=
  { clone := .ok ⟨1⟩, worktree := none, pull := none, head := .error "reference not found" }

/-- A configuration whose source path climbs out of the working directory. -/
def demoConfigEscape : Config := { demoConfig with SourcePath := "../../etc" }

/-- A syncer like `demoSyncer` with another configured target path. -/
def demoSyncerTo (target : String) : Syncer :=
  { demoSyncer with cfg := { demoConfig with TargetPath := target },
                    git := { demoSyncer.git with cfg := { demoConfig with TargetPath := target } } }

/-- A syncer like `demoSyncerFile` with another configured target path. -/
def demoSyncerFileTo (target : String) : Syncer :=
  { demoSyncer with cfg := { demoConfigFile with TargetPath := target },
                    git := { demoSyncer.git with cfg := { demoConfigFile with TargetPath := target } } }

/-- A source tree without metadata directory whose files the owner may write. -/
def demoTreeOwn : Tree :=
  .dir 0o775
    (.cons "a" (.dir 0o700 (.cons "x" (.file [1, 2] 0o600) .nil))
      (.cons "b.txt" (.file [3] 0o644) .nil))

/-- A first cycle over the source tree `demoTreeOwn`. -/
def demoCycleOwn : Cycle := { demoCycle with source := some demoTreeOwn }

/-- A later cycle over the source tree `demoTreeOwn`, the branch unchanged. -/
def demoCyclePullOwn : Cycle := { demoCyclePull with source := some demoTreeOwn }

/-! # Theorems -/

/-! ## Counters, hashes and the git client -/

theorem wrapInt64_succ (x : Int) (hlo : -2 ^ 63 ≤ x) (hhi : x < 2 ^ 63 - 1) :
    wrapInt64 (x + 1) = x + 1 := by
  unfold wrapInt64
  omega

theorem hexDigit_utf8Size (n : Nat) (h : n < 16) : (hexDigit n).utf8Size = 1 := by
  interval_cases n <;> decide

theorem utf8ByteSize_go_ascii (cs : List Char) (h : ∀ c ∈ cs, c.utf8Size = 1) :
    String.utf8ByteSize.go cs = cs.length := by
  induction cs with
  | nil => rfl
  | cons c cs ih =>
    have hc := h c (List.mem_cons_self _ _)
    have := ih (fun d hd => h d (List.mem_cons_of_mem _ hd))
    simp only [String.utf8ByteSize.go, List.length_cons, this, hc]

theorem hexChars_length (bs : List Byte) :
    (bs.flatMap fun b => [hexDigit (b.val / 16), hexDigit (b.val % 16)]).length = 2 * bs.length := by
  induction bs with
  | nil => rfl
  | cons b bs ih =>
    rw [List.flatMap_cons, List.length_append, ih]
    simp only [List.length_cons, List.length_nil]
    omega

theorem Hash.hex_length (h : Hash) : h.hex.length = 40 := by
  simp only [Hash.hex, String.length, hexChars_length, h.size]

theorem Hash.hex_utf8ByteSize (h : Hash) : h.hex.utf8ByteSize = 40 := by
  have hsz : h.hex.utf8ByteSize = String.utf8ByteSize.go h.hex.data := rfl
  rw [hsz, utf8ByteSize_go_ascii]
  · exact h.hex_length
  · intro c hc
    simp only [Hash.hex, List.mem_flatMap, List.mem_cons, List.mem_singleton, List.not_mem_nil,
      or_false] at hc
    obtain ⟨b, _, hb⟩ := hc
    rcases hb with rfl | rfl
    · exact hexDigit_utf8Size _ (by omega)
    · exact hexDigit_utf8Size _ (by omega)

theorem Client.Sync_workDir (c : Client) (g : GitCall) : (c.Sync g).2.workDir = c.workDir := by
  unfold Client.Sync Client.clone Client.pull
  split <;> split <;> try rfl
  split
  · split <;> rfl
  · rfl

theorem Client.Sync_clientCfg (c : Client) (g : GitCall) : (c.Sync g).2.cfg = c.cfg := by
  unfold Client.Sync Client.clone Client.pull
  split <;> split <;> try rfl
  split
  · split <;> rfl
  · rfl

theorem Client.getHeadCommit_ok (c : Client) (g : GitCall) (r : String)
    (h : c.getHeadCommit g = .ok r) : ∃ ref : Hash, g.head = .ok ref ∧ r = ref.hex := by
  unfold Client.getHeadCommit at h
  split at h
  · cases h
  · next ref href => exact ⟨ref, href, by cases h; rfl⟩

theorem Client.Sync_ok (c : Client) (g : GitCall) (r : String) (h : (c.Sync g).1 = .ok r) :
    ∃ ref : Hash, g.head = .ok ref ∧ r = ref.hex := by
  unfold Client.Sync Client.clone Client.pull at h
  split at h
  · split at h
    · cases h
    · next repo _ => exact Client.getHeadCommit_ok ⟨c.cfg, c.workDir, some repo⟩ g r h
  · split at h
    · cases h
    · split at h
      · split at h
        · cases h
        · exact Client.getHeadCommit_ok c g r h
      · exact Client.getHeadCommit_ok c g r h

theorem Syncer.copyFiles_congr (s s1 : Syncer) (hc : s1.cfg = s.cfg)
    (hw : s1.git.workDir = s.git.workDir) (env : Env) (src : Option Tree) (fs : FS) :
    s1.copyFiles env src fs = s.copyFiles env src fs := by
  unfold Syncer.copyFiles Client.WorkDir
  rw [hc, hw]

theorem Syncer.Sync_eq_git_error (s : Syncer) (c : Cycle) (fs : FS) (e : String)
    (hgit : (s.git.Sync c.git).1 = .error e) :
    s.Sync c fs = (.error ("git sync failed: " ++ e),
      { s with git := (s.git.Sync c.git).2, errorCount := wrapInt64 (s.errorCount + 1),
               healthy := false }, fs) := by
  unfold Syncer.Sync
  rcases hS : s.git.Sync c.git with ⟨res, git1⟩
  rw [hS] at hgit
  simp only at hgit
  subst hgit
  rfl

theorem Syncer.Sync_eq_copy_error (s : Syncer) (c : Cycle) (fs : FS) (r e : String)
    (hgit : (s.git.Sync c.git).1 = .ok r)
    (hcopy : (s.copyFiles c.env c.source fs).1 = some e) :
    s.Sync c fs = (.error ("file copy failed: " ++ e),
      { s with git := (s.git.Sync c.git).2, errorCount := wrapInt64 (s.errorCount + 1),
               healthy := false }, (s.copyFiles c.env c.source fs).2) := by
  have hcf : (({ s with git := (s.git.Sync c.git).2 } : Syncer).copyFiles c.env c.source fs)
      = s.copyFiles c.env c.source fs :=
    Syncer.copyFiles_congr s { s with git := (s.git.Sync c.git).2 } rfl
      (Client.Sync_workDir s.git c.git) _ _ _
  unfold Syncer.Sync
  rcases hS : s.git.Sync c.git with ⟨res, git1⟩
  rw [hS] at hgit hcf
  simp only at hgit hcf
  subst hgit
  simp only [hcf]
  rcases hC : s.copyFiles c.env c.source fs with ⟨err, fs1⟩
  rw [hC] at hcopy
  simp only at hcopy
  subst hcopy
  rfl

theorem Syncer.Sync_eq_success (s : Syncer) (c : Cycle) (fs : FS) (r : String)
    (hgit : (s.git.Sync c.git).1 = .ok r)
    (hcopy : (s.copyFiles c.env c.source fs).1 = none) :
    s.Sync c fs = (.nil,
      { s with git := (s.git.Sync c.git).2, lastSync := c.now, lastCommit := r,
               syncCount := wrapInt64 (s.syncCount + 1), healthy := true },
      (s.copyFiles c.env c.source fs).2) := by
  obtain ⟨ref, _, hr⟩ := Client.Sync_ok s.git c.git r hgit
  have hlen : ¬ r.utf8ByteSize < 7 := by rw [hr, Hash.hex_utf8ByteSize]; omega
  have hcf : (({ s with git := (s.git.Sync c.git).2 } : Syncer).copyFiles c.env c.source fs)
      = s.copyFiles c.env c.source fs :=
    Syncer.copyFiles_congr s { s with git := (s.git.Sync c.git).2 } rfl
      (Client.Sync_workDir s.git c.git) _ _ _
  unfold Syncer.Sync
  rcases hS : s.git.Sync c.git with ⟨res, git1⟩
  rw [hS] at hgit hcf
  simp only at hgit hcf
  subst hgit
  simp only [hcf]
  rcases hC : s.copyFiles c.env c.source fs with ⟨err, fs1⟩
  rw [hC] at hcopy
  simp only at hcopy
  subst hcopy
  simp only [hlen, if_false]

/-- Every call of Sync ends in one of two ways. -/
theorem Syncer.Sync_cases (s : Syncer) (c : Cycle) (fs : FS) :
    (∃ e, (s.Sync c fs).1 = .error e ∧ (s.Sync c fs).2.1.healthy = false ∧
      (s.Sync c fs).2.1.errorCount = wrapInt64 (s.errorCount + 1) ∧
      (s.Sync c fs).2.1.syncCount = s.syncCount ∧
      (s.Sync c fs).2.1.lastCommit = s.lastCommit ∧ (s.Sync c fs).2.1.lastSync = s.lastSync) ∨
    ((s.Sync c fs).1 = .nil ∧ (s.Sync c fs).2.1.healthy = true ∧
      (s.Sync c fs).2.1.syncCount = wrapInt64 (s.syncCount + 1) ∧
      (s.Sync c fs).2.1.errorCount = s.errorCount ∧ (s.Sync c fs).2.1.lastSync = c.now ∧
      (s.git.Sync c.git).1 = .ok (s.Sync c fs).2.1.lastCommit) := by
  rcases hg : (s.git.Sync c.git).1 with e | r
  · left
    rw [Syncer.Sync_eq_git_error s c fs e hg]
    exact ⟨_, rfl, rfl, rfl, rfl, rfl, rfl⟩
  · rcases hc : (s.copyFiles c.env c.source fs).1 with _ | e
    · right
      rw [Syncer.Sync_eq_success s c fs r hg hc]
      exact ⟨rfl, rfl, rfl, rfl, rfl, rfl⟩
    · left
      rw [Syncer.Sync_eq_copy_error s c fs r e hg hc]
      exact ⟨_, rfl, rfl, rfl, rfl, rfl, rfl⟩

theorem Syncer.Sync_syncerCfg (s : Syncer) (c : Cycle) (fs : FS) : (s.Sync c fs).2.1.cfg = s.cfg := by
  rcases hg : (s.git.Sync c.git).1 with e | r
  · rw [Syncer.Sync_eq_git_error s c fs e hg]
  · rcases hc : (s.copyFiles c.env c.source fs).1 with _ | e
    · rw [Syncer.Sync_eq_success s c fs r hg hc]
    · rw [Syncer.Sync_eq_copy_error s c fs r e hg hc]

/-- After failing calls only, the error counter has counted them. -/
theorem runCycles_all_fail (cs : List Cycle) :
    ∀ (s : Syncer) (fs : FS), 0 ≤ s.errorCount → s.errorCount + cs.length < 2 ^ 63 →
      (∀ r ∈ (runCycles cs s fs).1, r ≠ SyncResult.nil) →
      (runCycles cs s fs).2.1.errorCount = s.errorCount + cs.length ∧
      (runCycles cs s fs).2.1.syncCount = s.syncCount ∧
      (cs ≠ [] → (runCycles cs s fs).2.1.healthy = false) := by
  induction cs with
  | nil => intro s fs _ _ _; simp [runCycles]
  | cons c cs ih =>
    intro s fs h0 hlt hall
    simp only [runCycles, List.mem_cons, forall_eq_or_imp] at hall ⊢
    simp only [List.length_cons, Nat.cast_add, Nat.cast_one] at hlt ⊢
    obtain ⟨hne, hrest⟩ := hall
    rcases Syncer.Sync_cases s c fs with ⟨e, _, hh, he, hsc, _, _⟩ | ⟨hnil, _⟩
    · have hw : wrapInt64 (s.errorCount + 1) = s.errorCount + 1 :=
        wrapInt64_succ _ (by omega) (by omega)
      rw [hw] at he
      obtain ⟨ih1, ih2, ih3⟩ := ih (s.Sync c fs).2.1 (s.Sync c fs).2.2 (by omega) (by omega) hrest
      refine ⟨by rw [ih1, he]; ring, by rw [ih2, hsc], fun _ => ?_⟩
      by_cases hcs : cs = []
      · subst hcs; simpa [runCycles] using hh
      · exact ih3 hcs
    · exact absurd hnil hne


/-! ## The outcome of one cycle -/

/-- C1: when the git client returns a revision `r` and `copyFiles` succeeds,
`Syncer.Sync` returns nil; the revision is a 40-character hash, and afterwards
`healthy` is true, `lastCommit` is `r`, `lastSync` is the current time, `syncCount`
has grown by exactly one and `errorCount` is unchanged.  The counter is a Go
`int64` below its largest value. -/
theorem Syncer.Sync_success (s : Syncer) (c : Cycle) (fs : FS) (r : String)
    (hgit : (s.git.Sync c.git).1 = .ok r)
    (hcopy : (s.copyFiles c.env c.source fs).1 = none)
    (hlo : -2 ^ 63 ≤ s.syncCount) (hhi : s.syncCount < 2 ^ 63 - 1) :
    r.length = 40 ∧ (s.Sync c fs).1 = .nil ∧ (s.Sync c fs).2.1.healthy = true ∧
    (s.Sync c fs).2.1.lastCommit = r ∧ (s.Sync c fs).2.1.lastSync = c.now ∧
    (s.Sync c fs).2.1.syncCount = s.syncCount + 1 ∧
    (s.Sync c fs).2.1.errorCount = s.errorCount := by
  obtain ⟨ref, _, hr⟩ := Client.Sync_ok s.git c.git r hgit
  rw [Syncer.Sync_eq_success s c fs r hgit hcopy]
  refine ⟨by rw [hr]; exact ref.hex_length, rfl, rfl, rfl, rfl, ?_, rfl⟩
  exact wrapInt64_succ _ hlo hhi

theorem Syncer.Sync_success_witness :
    (demoSyncer.git.Sync demoCycle.git).1 = .ok demoHash.hex ∧
    (demoSyncer.copyFiles demoCycle.env demoCycle.source demoFS).1 = none ∧
    (demoHash.hex.length = 40 ∧ (demoSyncer.Sync demoCycle demoFS).1 = .nil ∧
      (demoSyncer.Sync demoCycle demoFS).2.1.healthy = true ∧
      (demoSyncer.Sync demoCycle demoFS).2.1.lastCommit = demoHash.hex ∧
      (demoSyncer.Sync demoCycle demoFS).2.1.lastSync = demoCycle.now ∧
      (demoSyncer.Sync demoCycle demoFS).2.1.syncCount = demoSyncer.syncCount + 1 ∧
      (demoSyncer.Sync demoCycle demoFS).2.1.errorCount = demoSyncer.errorCount) :=
  ⟨rfl, by decide,
    Syncer.Sync_success demoSyncer demoCycle demoFS demoHash.hex rfl (by decide)
      (by decide) (by decide)⟩

/-- C2: when the git client returns an error, `Syncer.Sync` returns an error, the
mirror step does not run (the target filesystem after the call is the one before
it), `healthy` is false and `errorCount` has grown by exactly one; the success
counter, revision and time stay.  The counter is a Go `int64` below its largest
value. -/
theorem Syncer.Sync_git_failure (s : Syncer) (c : Cycle) (fs : FS) (e : String)
    (hgit : (s.git.Sync c.git).1 = .error e)
    (hlo : -2 ^ 63 ≤ s.errorCount) (hhi : s.errorCount < 2 ^ 63 - 1) :
    (s.Sync c fs).1 = .error ("git sync failed: " ++ e) ∧ (s.Sync c fs).2.2 = fs ∧
    (s.Sync c fs).2.1.healthy = false ∧ (s.Sync c fs).2.1.errorCount = s.errorCount + 1 ∧
    (s.Sync c fs).2.1.syncCount = s.syncCount ∧ (s.Sync c fs).2.1.lastCommit = s.lastCommit ∧
    (s.Sync c fs).2.1.lastSync = s.lastSync := by
  rw [Syncer.Sync_eq_git_error s c fs e hgit]
  exact ⟨rfl, rfl, rfl, wrapInt64_succ _ hlo hhi, rfl, rfl, rfl⟩

theorem Syncer.Sync_git_failure_witness :
    (demoSyncer.git.Sync demoCycleGitDown.git).1 = .error "clone failed: repository not found" ∧
    ((demoSyncer.Sync demoCycleGitDown demoFS).1
        = .error ("git sync failed: " ++ "clone failed: repository not found") ∧
      (demoSyncer.Sync demoCycleGitDown demoFS).2.2 = demoFS ∧
      (demoSyncer.Sync demoCycleGitDown demoFS).2.1.healthy = false ∧
      (demoSyncer.Sync demoCycleGitDown demoFS).2.1.errorCount = demoSyncer.errorCount + 1 ∧
      (demoSyncer.Sync demoCycleGitDown demoFS).2.1.syncCount = demoSyncer.syncCount ∧
      (demoSyncer.Sync demoCycleGitDown demoFS).2.1.lastCommit = demoSyncer.lastCommit ∧
      (demoSyncer.Sync demoCycleGitDown demoFS).2.1.lastSync = demoSyncer.lastSync) :=
  ⟨rfl, Syncer.Sync_git_failure demoSyncer demoCycleGitDown demoFS _ rfl (by decide) (by decide)⟩

/-- C3: when the git client returns a revision `r` and `copyFiles` returns an error,
`Syncer.Sync` returns an error, `healthy` is false, `errorCount` has grown by
exactly one, and `syncCount`, `lastCommit` and `lastSync` are what they were: `r`
is not recorded.  The counter is a Go `int64` below its largest value. -/
theorem Syncer.Sync_copy_failure (s : Syncer) (c : Cycle) (fs : FS) (r e : String)
    (hgit : (s.git.Sync c.git).1 = .ok r)
    (hcopy : (s.copyFiles c.env c.source fs).1 = some e)
    (hlo : -2 ^ 63 ≤ s.errorCount) (hhi : s.errorCount < 2 ^ 63 - 1) :
    (s.Sync c fs).1 = .error ("file copy failed: " ++ e) ∧
    (s.Sync c fs).2.1.healthy = false ∧ (s.Sync c fs).2.1.errorCount = s.errorCount + 1 ∧
    (s.Sync c fs).2.1.syncCount = s.syncCount ∧ (s.Sync c fs).2.1.lastCommit = s.lastCommit ∧
    (s.Sync c fs).2.1.lastSync = s.lastSync := by
  rw [Syncer.Sync_eq_copy_error s c fs r e hgit hcopy]
  exact ⟨rfl, rfl, wrapInt64_succ _ hlo hhi, rfl, rfl, rfl⟩

theorem Syncer.Sync_copy_failure_witness :
    (demoSyncer.git.Sync demoCycleNoSource.git).1 = .ok demoHash.hex ∧
    (demoSyncer.copyFiles demoCycleNoSource.env demoCycleNoSource.source demoFS).1
      = some "failed to stat source path: stat /tmp/git-sync-work-1/docs: no such file or directory" ∧
    ((demoSyncer.Sync demoCycleNoSource demoFS).1
        = .error ("file copy failed: " ++
            "failed to stat source path: stat /tmp/git-sync-work-1/docs: no such file or directory") ∧
      (demoSyncer.Sync demoCycleNoSource demoFS).2.1.healthy = false ∧
      (demoSyncer.Sync demoCycleNoSource demoFS).2.1.errorCount = demoSyncer.errorCount + 1 ∧
      (demoSyncer.Sync demoCycleNoSource demoFS).2.1.syncCount = demoSyncer.syncCount ∧
      (demoSyncer.Sync demoCycleNoSource demoFS).2.1.lastCommit = demoSyncer.lastCommit ∧
      (demoSyncer.Sync demoCycleNoSource demoFS).2.1.lastSync = demoSyncer.lastSync) :=
  ⟨rfl, by decide,
    Syncer.Sync_copy_failure demoSyncer demoCycleNoSource demoFS demoHash.hex _ rfl (by decide)
      (by decide) (by decide)⟩

/-- C4: a syncer returned by `NewSyncer` has `healthy` false and both counters zero;
after any sequence of `n` calls of `Sync` none of which returns nil (`n` below
2^63) it has `healthy` false, `syncCount` zero and `errorCount` `n`; and when the
next call returns nil, `healthy` is false before that call and true after it. -/
theorem NewSyncer_health (cfg : Config) (mkdirTemp : Except String Path) (s : Syncer)
    (hnew : NewSyncer cfg mkdirTemp = .ok s) :
    (s.healthy = false ∧ s.syncCount = 0 ∧ s.errorCount = 0) ∧
    (∀ (cs : List Cycle) (fs : FS), (cs.length : Int) < 2 ^ 63 →
      (∀ r ∈ (runCycles cs s fs).1, r ≠ SyncResult.nil) →
      (runCycles cs s fs).2.1.healthy = false ∧ (runCycles cs s fs).2.1.syncCount = 0 ∧
      (runCycles cs s fs).2.1.errorCount = cs.length) ∧
    (∀ (cs : List Cycle) (c : Cycle) (fs : FS), (cs.length : Int) < 2 ^ 63 →
      (∀ r ∈ (runCycles cs s fs).1, r ≠ SyncResult.nil) →
      ((runCycles cs s fs).2.1.Sync c (runCycles cs s fs).2.2).1 = SyncResult.nil →
      (runCycles cs s fs).2.1.healthy = false ∧
      ((runCycles cs s fs).2.1.Sync c (runCycles cs s fs).2.2).2.1.healthy = true) := by
  have hs : s.healthy = false ∧ s.syncCount = 0 ∧ s.errorCount = 0 := by
    unfold NewSyncer at hnew
    split at hnew
    · cases hnew
    · cases hnew; exact ⟨rfl, rfl, rfl⟩
  obtain ⟨hh, hsc, hec⟩ := hs
  have key : ∀ (cs : List Cycle) (fs : FS), (cs.length : Int) < 2 ^ 63 →
      (∀ r ∈ (runCycles cs s fs).1, r ≠ SyncResult.nil) →
      (runCycles cs s fs).2.1.healthy = false ∧ (runCycles cs s fs).2.1.syncCount = 0 ∧
      (runCycles cs s fs).2.1.errorCount = cs.length := by
    intro cs fs hlen hall
    obtain ⟨h1, h2, h3⟩ := runCycles_all_fail cs s fs (by omega) (by omega) hall
    refine ⟨?_, by rw [h2, hsc], by rw [h1, hec]; ring⟩
    by_cases hcs : cs = []
    · subst hcs; simpa [runCycles] using hh
    · exact h3 hcs
  refine ⟨⟨hh, hsc, hec⟩, key, ?_⟩
  intro cs c fs hlen hall hnil
  refine ⟨(key cs fs hlen hall).1, ?_⟩
  rcases Syncer.Sync_cases (runCycles cs s fs).2.1 c (runCycles cs s fs).2.2 with
    ⟨e, he, _⟩ | ⟨_, hT, _⟩
  · rw [he] at hnil; cases hnil
  · exact hT


theorem NewSyncer_health_witness :
    NewSyncer demoConfig (.ok ["tmp", "git-sync-work-1"]) = .ok demoSyncer ∧
    ((runCycles [demoCycleGitDown, demoCycleNoSource] demoSyncer demoFS).2.1.healthy = false ∧
      (runCycles [demoCycleGitDown, demoCycleNoSource] demoSyncer demoFS).2.1.syncCount = 0 ∧
      (runCycles [demoCycleGitDown, demoCycleNoSource] demoSyncer demoFS).2.1.errorCount
        = ([demoCycleGitDown, demoCycleNoSource].length : Int)) :=
  ⟨rfl, (NewSyncer_health demoConfig (.ok ["tmp", "git-sync-work-1"]) demoSyncer rfl).2.1
    [demoCycleGitDown, demoCycleNoSource] demoFS (by decide) (by decide)⟩

/-! ## The filesystem primitives -/

theorem FS.set_same (fs : FS) (p : Path) (e : Entry) : FS.set fs p e p = some e := by
  simp [FS.set]

theorem FS.set_other (fs : FS) (p q : Path) (e : Entry) (h : q ≠ p) : FS.set fs p e q = fs q := by
  simp [FS.set, h]

/-- What `os.Mkdir` does: nothing, or a new directory at a free path. -/
theorem osMkdir_spec (env : Env) (nm : String) (fs : FS) (p : Path) (perm : FileMode) :
    ((osMkdir env nm fs p perm).1 ≠ none ∧ (osMkdir env nm fs p perm).2 = fs) ∨
    ((osMkdir env nm fs p perm).1 = none ∧ fs p = none ∧
      (osMkdir env nm fs p perm).2 = FS.set fs p (.dir (maskMode env perm))) := by
  unfold osMkdir
  split
  · left; simp
  · split
    · left; simp
    · next hp =>
      split
      · left; simp
      · split
        · right; exact ⟨rfl, hp, rfl⟩
        · left; simp
        · left; simp

/-- What `os.MkdirAll` changes: it only adds directories, with the requested mode
minus the umask, at free paths on the way to its argument. -/
theorem mkdirAllRev_effect (env : Env) (perm : FileMode) (r : List String) :
    ∀ (rn : List String) (fs : FS) (q : Path),
      (mkdirAllRev env perm rn r fs).2 q = fs q ∨
      (fs q = none ∧ q <+: r.reverse ∧
        (mkdirAllRev env perm rn r fs).2 q = some (.dir (maskMode env perm))) := by
  induction r with
  | nil =>
    intro rn fs q
    unfold mkdirAllRev
    split
    · left; rfl
    · left; rfl
    · rcases osMkdir_spec env (joinSlash rn.reverse) fs [] perm with ⟨_, h⟩ | ⟨_, hp, h⟩
      · left; rw [h]
      · rw [h]
        by_cases hq : q = []
        · subst hq; right; exact ⟨hp, by simp, FS.set_same _ _ _⟩
        · left; exact FS.set_other _ _ _ _ hq
  | cons name up ih =>
    intro rn fs q
    unfold mkdirAllRev
    split
    · left; rfl
    · left; rfl
    · next hp =>
      rcases hrec : (if rn.tail = [] ∨ rn.tail = [""] then ((none : Option String), fs)
          else mkdirAllRev env perm rn.tail up fs) with ⟨err, fs1⟩
      have ih' : fs1 q = fs q ∨
          (fs q = none ∧ q <+: up.reverse ∧ fs1 q = some (.dir (maskMode env perm))) := by
        split at hrec
        · cases hrec; left; rfl
        · have := ih rn.tail fs q
          rw [hrec] at this
          exact this
      have hpre : up.reverse <+: (name :: up).reverse := by
        rw [List.reverse_cons]; exact List.prefix_append _ _
      cases err with
      | some e =>
        simp only
        rcases ih' with h | ⟨h1, h2, h3⟩
        · left; exact h
        · right; exact ⟨h1, h2.trans hpre, h3⟩
      | none =>
        simp only
        rcases osMkdir_spec env (joinSlash rn.reverse) fs1 (name :: up).reverse perm with
          ⟨_, h⟩ | ⟨_, hp1, h⟩
        · rw [h]
          rcases ih' with h | ⟨h1, h2, h3⟩
          · left; exact h
          · right; exact ⟨h1, h2.trans hpre, h3⟩
        · rw [h]
          by_cases hq : q = (name :: up).reverse
          · subst hq; right; exact ⟨hp, List.prefix_refl _, FS.set_same _ _ _⟩
          · rw [FS.set_other _ _ _ _ hq]
            rcases ih' with h | ⟨h1, h2, h3⟩
            · left; exact h
            · right; exact ⟨h1, h2.trans hpre, h3⟩

/-- After a successful `os.MkdirAll` its argument is a directory. -/
theorem mkdirAllRev_ok (env : Env) (perm : FileMode) (rn r : List String) (fs : FS)
    (h : (mkdirAllRev env perm rn r fs).1 = none) :
    ∃ m, (mkdirAllRev env perm rn r fs).2 r.reverse = some (.dir m) := by
  cases r with
  | nil =>
    unfold mkdirAllRev at h ⊢
    split at h
    · next m hm => exact ⟨m, by simpa using hm⟩
    · cases h
    · rcases osMkdir_spec env (joinSlash rn.reverse) fs [] perm with ⟨h1, _⟩ | ⟨_, _, h2⟩
      · exact absurd h h1
      · exact ⟨_, by rw [h2]; exact FS.set_same _ _ _⟩
  | cons name up =>
    unfold mkdirAllRev at h ⊢
    split at h
    · next m hm => exact ⟨m, by simpa using hm⟩
    · cases h
    · next hp =>
      rcases hrec : (if rn.tail = [] ∨ rn.tail = [""] then ((none : Option String), fs)
          else mkdirAllRev env perm rn.tail up fs) with ⟨err, fs1⟩
      rw [hrec] at h
      cases err with
      | some e => cases h
      | none =>
        simp only at h ⊢
        rcases osMkdir_spec env (joinSlash rn.reverse) fs1 (name :: up).reverse perm with
          ⟨h1, _⟩ | ⟨_, _, h2⟩
        · exact absurd h h1
        · exact ⟨_, by rw [h2]; exact FS.set_same _ _ _⟩

theorem FS.set_set (fs : FS) (p : Path) (a b : Entry) :
    FS.set (FS.set fs p a) p b = FS.set fs p b := by
  funext q
  simp only [FS.set]
  split <;> rfl

theorem FS.set_eq_self (fs : FS) (p : Path) (e : Entry) (h : fs p = some e) :
    FS.set fs p e = fs := by
  funext q
  simp only [FS.set]
  split
  · next hq => rw [hq, h]
  · rfl

/-- What `os.Create` does: nothing, or an empty file where no directory was. -/
theorem osCreate_spec (env : Env) (nm : String) (fs : FS) (p : Path) :
    ((osCreate env nm fs p).1 ≠ none ∧ (osCreate env nm fs p).2 = fs) ∨
    ((osCreate env nm fs p).1 = none ∧ (∀ m, fs p ≠ some (.dir m)) ∧
      ∃ m, (osCreate env nm fs p).2 = FS.set fs p (.file [] m)) := by
  unfold osCreate
  split
  · left; simp
  · split
    · left; simp
    · next d m hp =>
      split
      · right; exact ⟨rfl, by simp [hp], m, rfl⟩
      · left; simp
    · next hp =>
      split
      · left; simp
      · split
        · right; exact ⟨rfl, by simp [hp], _, rfl⟩
        · left; simp
        · left; simp

theorem writeData_set (fs : FS) (p : Path) (d0 d : List Byte) (m : FileMode) :
    writeData (FS.set fs p (.file d0 m)) p d = FS.set fs p (.file d m) := by
  unfold writeData
  rw [FS.set_same]
  exact FS.set_set _ _ _ _

/-- What `copyFile` does to the filesystem: nothing, or it leaves a file at the
destination where no directory was; when it succeeds that file has the bytes and
the mode of the source file. -/
theorem copyFile_spec (env : Env) (sn : String) (src : Path) (node : Tree) (dn : String)
    (dst : Path) (fs : FS) :
    ((copyFile env sn src node dn dst fs).1 ≠ none ∧
      (copyFile env sn src node dn dst fs).2 = fs) ∨
    ((∀ m, fs dst ≠ some (.dir m)) ∧
      ∃ d m, (copyFile env sn src node dn dst fs).2 = FS.set fs dst (.file d m) ∧
        ((copyFile env sn src node dn dst fs).1 = none → node = .file d m)) := by
  unfold copyFile
  split
  · left; simp
  · rcases osCreate_spec env dn fs dst with ⟨h1, h2⟩ | ⟨h1, hnd, m0, h2⟩
    · left
      rcases hc : osCreate env dn fs dst with ⟨err, fs1⟩
      rw [hc] at h1 h2
      simp only at h1 h2
      cases err with
      | none => exact absurd rfl h1
      | some e => simp [h2]
    · right
      refine ⟨hnd, ?_⟩
      rcases hc : osCreate env dn fs dst with ⟨err, fs1⟩
      rw [hc] at h1 h2
      simp only at h1 h2
      subst h1 h2
      simp only
      cases node with
      | dir m kids => exact ⟨[], m0, rfl, by simp⟩
      | file data mode =>
        simp only
        split
        · exact ⟨_, m0, writeData_set _ _ _ _ _, by simp⟩
        · rw [writeData_set]
          cases hst : env.fault (.stat src) with
          | some e => simp only [osStat, hst]; exact ⟨data, m0, rfl, by simp⟩
          | none =>
            simp only [osStat, hst, Tree.Mode]
            unfold osChmod
            split
            · exact ⟨data, m0, rfl, by simp⟩
            · rw [FS.set_same]
              exact ⟨data, mode, FS.set_set _ _ _ _, fun _ => rfl⟩

/-! ## Path strings as the kernel resolves them -/

/-- Cleaning elements none of which is empty, a dot or two dots pushes them all. -/
theorem foldl_cleanStep_plain (wd : List String)
    (hwd : ∀ e ∈ wd, e ≠ "" ∧ e ≠ "." ∧ e ≠ "..") (acc : List String) :
    wd.foldl cleanStep acc = wd.reverse ++ acc := by
  induction wd generalizing acc with
  | nil => rfl
  | cons e es ih =>
    obtain ⟨h1, h2, h3⟩ := hwd e (List.mem_cons_self _ _)
    have hstep : cleanStep acc e = e :: acc := by
      unfold cleanStep
      rw [if_neg (by rintro (h | h); exact h1 h; exact h2 h), if_neg h3]
    rw [List.foldl_cons, hstep, ih (fun x hx => hwd x (List.mem_cons_of_mem _ hx))]
    simp

/-- Cleaning elements none of which is two dots never pops what was there. -/
theorem foldl_cleanStep_suffix (elems : List String) (h : ".." ∉ elems) (acc : List String) :
    acc <:+ elems.foldl cleanStep acc := by
  induction elems generalizing acc with
  | nil => exact List.suffix_refl acc
  | cons e es ih =>
    have he : e ≠ ".." := fun hh => h (by rw [hh]; exact List.mem_cons_self _ _)
    have hes : ".." ∉ es := fun hh => h (List.mem_cons_of_mem _ hh)
    rw [List.foldl_cons]
    have hstep : acc <:+ cleanStep acc e := by
      unfold cleanStep
      by_cases h1 : e = "" ∨ e = "."
      · rw [if_pos h1]
      · rw [if_neg h1, if_neg he]
        exact List.suffix_cons e acc
    exact hstep.trans (ih hes _)


theorem cleanStep_dotdot (acc : List String) : cleanStep acc ".." = acc.tail := by
  unfold cleanStep
  rw [if_neg (by decide), if_pos rfl]

theorem cleanStep_skip (acc : List String) (e : String) (h : e = "" ∨ e = ".") :
    cleanStep acc e = acc := by
  unfold cleanStep
  rw [if_pos h]

theorem cleanStep_push (acc : List String) (e : String) (h1 : ¬ (e = "" ∨ e = "."))
    (h2 : e ≠ "..") : cleanStep acc e = e :: acc := by
  unfold cleanStep
  rw [if_neg h1, if_neg h2]

/-- A lookup state agrees with the filesystem and stands where lexical cleaning
stands: an entry found is the entry there, a free place holds nothing. -/
theorem lookupStep_spec (fs : FS) (st : Lookup) (e : String) (acc : List String)
    (hf : ∀ p x, st = .found p x → fs p = some x ∧ p.reverse = acc)
    (hn : ∀ p, st = .free p → fs p = none ∧ p.reverse = acc) :
    (∀ p x, lookupStep fs st e = .found p x → fs p = some x ∧ p.reverse = cleanStep acc e) ∧
    (∀ p, lookupStep fs st e = .free p → fs p = none ∧ p.reverse = cleanStep acc e) := by
  cases st with
  | found p0 x0 =>
    obtain ⟨hfs0, h0⟩ := hf p0 x0 rfl
    cases x0 with
    | file d m =>
      constructor
      · intro p x h; simp [lookupStep] at h
      · intro p h; simp [lookupStep] at h
    | dir m =>
      unfold lookupStep
      simp only
      split
      · next hskip =>
        rw [cleanStep_skip acc e hskip]
        constructor
        · intro p x h; cases h; exact ⟨hfs0, h0⟩
        · intro p h; cases h
      · next hskip =>
        split
        · next hdd =>
          rw [hdd, cleanStep_dotdot, ← h0]
          split
          · next e1 he1 =>
            constructor
            · intro p x h; cases h; exact ⟨he1, by simp⟩
            · intro p h; cases h
          · constructor
            · intro p x h; cases h
            · intro p h; cases h
        · next hdd =>
          rw [cleanStep_push acc e hskip hdd, ← h0]
          split
          · next e1 he1 =>
            constructor
            · intro p x h; cases h; exact ⟨he1, by simp⟩
            · intro p h; cases h
          · next he1 =>
            constructor
            · intro p x h; cases h
            · intro p h; cases h; exact ⟨he1, by simp⟩
  | free p0 =>
    obtain ⟨hfs0, h0⟩ := hn p0 rfl
    unfold lookupStep
    simp only
    split
    · next he =>
      rw [cleanStep_skip acc e (Or.inl he)]
      constructor
      · intro p x h; cases h
      · intro p h; cases h; exact ⟨hfs0, h0⟩
    · constructor
      · intro p x h; cases h
      · intro p h; cases h
  | enoent =>
    constructor
    · intro p x h; cases h
    · intro p h; cases h
  | enotdir =>
    constructor
    · intro p x h; cases h
    · intro p h; cases h

theorem foldl_lookupStep_spec (fs : FS) (elems : List String) :
    ∀ (st : Lookup) (acc : List String),
      (∀ p x, st = .found p x → fs p = some x ∧ p.reverse = acc) →
      (∀ p, st = .free p → fs p = none ∧ p.reverse = acc) →
      (∀ p x, elems.foldl (lookupStep fs) st = .found p x →
        fs p = some x ∧ p.reverse = elems.foldl cleanStep acc) ∧
      (∀ p, elems.foldl (lookupStep fs) st = .free p →
        fs p = none ∧ p.reverse = elems.foldl cleanStep acc) := by
  induction elems with
  | nil => intro st acc hf hn; exact ⟨hf, hn⟩
  | cons e es ih =>
    intro st acc hf hn
    rw [List.foldl_cons, List.foldl_cons]
    have hv := lookupStep_spec fs st e acc hf hn
    exact ih _ _ hv.1 hv.2

/-- The lookup of a path string that is not empty. -/
theorem lookup_cons (env : Env) (fs : FS) (first : String) (rest : List String)
    (h : ¬ (first = "" ∧ rest = [])) :
    lookup env fs (first :: rest)
      = match fs (if first = "" then [] else cleanPath env.cwd) with
        | none => Lookup.enoent
        | some e => (first :: rest).foldl (lookupStep fs)
            (.found (if first = "" then [] else cleanPath env.cwd) e) := by
  unfold lookup
  split
  · next h1 => cases h1
  · next h1 => cases h1; exact absurd ⟨rfl, rfl⟩ h
  · next h1 => cases h1; rfl

theorem lookup_empty (env : Env) (fs : FS) : lookup env fs [""] = .enoent := rfl

theorem lookup_nil (env : Env) (fs : FS) : lookup env fs [] = .enoent := rfl

theorem lexPath_eq (env : Env) (first : String) (rest : List String) :
    ((first :: rest).foldl cleanStep
        (if first = "" then [] else cleanPath env.cwd).reverse).reverse
      = lexPath env (first :: rest) := by
  unfold lexPath
  by_cases hf : first = ""
  · simp [hf, cleanPath]
  · have : (first :: rest).head? ≠ some "" := by simpa using hf
    rw [if_neg hf, if_neg this]
    simp [cleanPath, List.foldl_append]

/-- Where a lookup ends, at an entry or at a free place, is the cleaned path of the
elements, and the filesystem holds there what the lookup says. -/
theorem lookup_spec (env : Env) (fs : FS) (elems : List String) :
    (∀ p x, lookup env fs elems = .found p x → fs p = some x ∧ p = lexPath env elems) ∧
    (∀ p, lookup env fs elems = .free p → fs p = none ∧ p = lexPath env elems) := by
  cases elems with
  | nil =>
    constructor
    · intro p x h; cases h
    · intro p h; cases h
  | cons first rest =>
    by_cases hone : first = "" ∧ rest = []
    · obtain ⟨h1, h2⟩ := hone
      subst h1 h2
      constructor
      · intro p x h; cases h
      · intro p h; cases h
    · rw [lookup_cons env fs first rest hone]
      rcases hb : fs (if first = "" then [] else cleanPath env.cwd) with _ | e0
      · constructor
        · intro p x h; cases h
        · intro p h; cases h
      · simp only
        have := foldl_lookupStep_spec fs (first :: rest)
          (.found (if first = "" then [] else cleanPath env.cwd) e0)
          (if first = "" then [] else cleanPath env.cwd).reverse
          (fun p x h => by cases h; exact ⟨hb, rfl⟩) (fun p h => by cases h)
        constructor
        · intro p x h
          obtain ⟨h1, h2⟩ := this.1 p x h
          exact ⟨h1, by rw [← lexPath_eq, ← h2, List.reverse_reverse]⟩
        · intro p h
          obtain ⟨h1, h2⟩ := this.2 p h
          exact ⟨h1, by rw [← lexPath_eq, ← h2, List.reverse_reverse]⟩
/-- A lookup that has left the directories never comes back to one. -/
theorem foldl_lookupStep_dead (fs : FS) (elems : List String) :
    ∀ st : Lookup, (∀ p m, st ≠ .found p (.dir m)) →
      ∀ p m, elems.foldl (lookupStep fs) st ≠ .found p (.dir m) := by
  induction elems with
  | nil => intro st h; exact h
  | cons e es ih =>
    intro st h
    rw [List.foldl_cons]
    apply ih
    intro p m
    cases st with
    | found p0 x0 =>
      cases x0 with
      | file d m0 => simp [lookupStep]
      | dir m0 => exact absurd rfl (h p0 m0)
    | free p0 =>
      unfold lookupStep
      simp only
      split <;> simp
    | enoent => simp [lookupStep]
    | enotdir => simp [lookupStep]

/-- A lookup that ends at a directory ends there in every filesystem that keeps the
directories. -/
theorem foldl_lookupStep_keeps (fs fs2 : FS)
    (hk : ∀ q m, fs q = some (.dir m) → fs2 q = some (.dir m)) (p : Path) (m : FileMode)
    (elems : List String) :
    ∀ st : Lookup, elems.foldl (lookupStep fs) st = .found p (.dir m) →
      elems.foldl (lookupStep fs2) st = .found p (.dir m) := by
  induction elems with
  | nil => intro st h; exact h
  | cons e es ih =>
    intro st h
    rw [List.foldl_cons] at h ⊢
    have hdir : ∃ q mq, lookupStep fs st e = .found q (.dir mq) := by
      by_contra hc
      exact foldl_lookupStep_dead fs es _ (fun q mq hq => hc ⟨q, mq, hq⟩) p m h
    obtain ⟨q, mq, hq⟩ := hdir
    have hsame : lookupStep fs2 st e = .found q (.dir mq) := by
      cases st with
      | found p0 x0 =>
        cases x0 with
        | file d m0 => simp [lookupStep] at hq
        | dir m0 =>
          unfold lookupStep at hq ⊢
          simp only at hq ⊢
          split
          · next hskip => rw [if_pos hskip] at hq; exact hq
          · next hskip =>
            rw [if_neg hskip] at hq
            split
            · next hdd =>
              rw [if_pos hdd] at hq
              split at hq
              · next e1 he1 =>
                cases hq
                rw [hk _ _ he1]
              · cases hq
            · next hdd =>
              rw [if_neg hdd] at hq
              split at hq
              · next e1 he1 =>
                cases hq
                rw [hk _ _ he1]
              · cases hq
      | free p0 =>
        unfold lookupStep at hq
        simp only at hq
        split at hq <;> cases hq
      | enoent => simp [lookupStep] at hq
      | enotdir => simp [lookupStep] at hq
    rw [hq] at h
    rw [hsame]
    exact ih _ h

theorem lookup_keeps (env : Env) (fs fs2 : FS)
    (hk : ∀ q m, fs q = some (.dir m) → fs2 q = some (.dir m)) (elems : List String)
    (p : Path) (m : FileMode) (h : lookup env fs elems = .found p (.dir m)) :
    lookup env fs2 elems = .found p (.dir m) := by
  cases elems with
  | nil => cases h
  | cons first rest =>
    by_cases hone : first = "" ∧ rest = []
    · obtain ⟨h1, h2⟩ := hone
      subst h1 h2
      cases h
    · rw [lookup_cons env fs first rest hone] at h
      rw [lookup_cons env fs2 first rest hone]
      rcases hb : fs (if first = "" then [] else cleanPath env.cwd) with _ | e0
      · rw [hb] at h; cases h
      · rw [hb] at h
        simp only at h
        cases e0 with
        | file d m0 =>
          exact absurd h (foldl_lookupStep_dead fs _ _ (by simp) p m)
        | dir m0 =>
          rw [hk _ _ hb]
          exact foldl_lookupStep_keeps fs fs2 hk p m _ _ h

/-- After a free place no lookup ends anywhere else. -/
theorem foldl_lookupStep_free (fs : FS) (q : Path) (elems : List String) :
    elems.foldl (lookupStep fs) (.free q) = .free q ∨
    elems.foldl (lookupStep fs) (.free q) = .enoent := by
  induction elems with
  | nil => left; rfl
  | cons e es ih =>
    rw [List.foldl_cons]
    unfold lookupStep
    simp only
    split
    · exact ih
    · right
      have : ∀ l : List String, l.foldl (lookupStep fs) .enoent = .enoent := by
        intro l
        induction l with
        | nil => rfl
        | cons a l iha => rw [List.foldl_cons]; exact iha
      exact this es

/-- Once a directory has been made at the free place a lookup ended at, the lookup
ends at that directory. -/
theorem foldl_lookupStep_set (fs : FS) (p : Path) (d : Entry) (hp : fs p = none)
    (hd : ∃ m, d = .dir m) (elems : List String) :
    ∀ st st2 : Lookup,
      ((st2 = st ∧ ∃ q x, st = .found q x ∧ fs q = some x) ∨
        (st = .free p ∧ st2 = .found p d)) →
      elems.foldl (lookupStep fs) st = .free p →
      elems.foldl (lookupStep (FS.set fs p d)) st2 = .found p d := by
  obtain ⟨md, hmd⟩ := hd
  subst hmd
  induction elems with
  | nil =>
    intro st st2 hrel h
    rcases hrel with ⟨_, q, x, hst, _⟩ | ⟨_, h2⟩
    · rw [List.foldl_nil] at h; rw [h] at hst; cases hst
    · exact h2
  | cons e es ih =>
    intro st st2 hrel h
    rw [List.foldl_cons] at h ⊢
    rcases hrel with ⟨h2, q, x, hst, hq⟩ | ⟨h1, h2⟩
    · subst h2 hst
      have hqp : q ≠ p := fun hh => by rw [hh, hp] at hq; cases hq
      cases x with
      | file dd m0 =>
        have : lookupStep fs (.found q (.file dd m0)) e = .enotdir := rfl
        rw [this] at h
        have hdead : ∀ l : List String, l.foldl (lookupStep fs) .enotdir = .enotdir := by
          intro l
          induction l with
          | nil => rfl
          | cons a l iha => rw [List.foldl_cons]; exact iha
        rw [hdead] at h
        cases h
      | dir m0 =>
        by_cases hskip : e = "" ∨ e = "."
        · have e1 : lookupStep fs (.found q (.dir m0)) e = .found q (.dir m0) := by
            simp [lookupStep, hskip]
          have e2 : lookupStep (FS.set fs p (.dir md)) (.found q (.dir m0)) e
              = .found q (.dir m0) := by
            simp [lookupStep, hskip]
          rw [e1] at h
          rw [e2]
          exact ih _ _ (Or.inl ⟨rfl, q, _, rfl, hq⟩) h
        · by_cases hdd : e = ".."
          · rcases hup : fs q.dropLast with _ | e1
            · have e1' : lookupStep fs (.found q (.dir m0)) e = .enoent := by
                simp [lookupStep, hskip, hdd, hup]
              rw [e1'] at h
              have hdead : ∀ l : List String, l.foldl (lookupStep fs) .enoent = .enoent := by
                intro l
                induction l with
                | nil => rfl
                | cons a l iha => rw [List.foldl_cons]; exact iha
              rw [hdead] at h
              cases h
            · have hne : q.dropLast ≠ p := fun hh => by rw [hh, hp] at hup; cases hup
              have e1' : lookupStep fs (.found q (.dir m0)) e = .found q.dropLast e1 := by
                simp [lookupStep, hskip, hdd, hup]
              have e2 : lookupStep (FS.set fs p (.dir md)) (.found q (.dir m0)) e
                  = .found q.dropLast e1 := by
                simp [lookupStep, hskip, hdd, FS.set, hne, hup]
              rw [e1'] at h
              rw [e2]
              exact ih _ _ (Or.inl ⟨rfl, _, _, rfl, hup⟩) h
          · rcases hdown : fs (q ++ [e]) with _ | e1
            · have e1' : lookupStep fs (.found q (.dir m0)) e = .free (q ++ [e]) := by
                simp [lookupStep, hskip, hdd, hdown]
              rw [e1'] at h
              by_cases hqe : q ++ [e] = p
              · have e2 : lookupStep (FS.set fs p (.dir md)) (.found q (.dir m0)) e
                    = .found p (.dir md) := by
                  simp [lookupStep, hskip, hdd, FS.set, hqe]
                rw [e2]
                rw [hqe] at h
                exact ih _ _ (Or.inr ⟨rfl, rfl⟩) h
              · rcases foldl_lookupStep_free fs (q ++ [e]) es with hf | hf
                · rw [hf] at h; cases h; exact absurd rfl hqe
                · rw [hf] at h; cases h
            · have hne : q ++ [e] ≠ p := fun hh => by rw [hh, hp] at hdown; cases hdown
              have e1' : lookupStep fs (.found q (.dir m0)) e = .found (q ++ [e]) e1 := by
                simp [lookupStep, hskip, hdd, hdown]
              have e2 : lookupStep (FS.set fs p (.dir md)) (.found q (.dir m0)) e
                  = .found (q ++ [e]) e1 := by
                simp [lookupStep, hskip, hdd, FS.set, hne, hdown]
              rw [e1'] at h
              rw [e2]
              exact ih _ _ (Or.inl ⟨rfl, _, _, rfl, hdown⟩) h
    · subst h1 h2
      by_cases he : e = ""
      · have e1 : lookupStep fs (.free p) e = .free p := by simp [lookupStep, he]
        have e2 : lookupStep (FS.set fs p (.dir md)) (.found p (.dir md)) e
            = .found p (.dir md) := by
          simp [lookupStep, he]
        rw [e1] at h
        rw [e2]
        exact ih _ _ (Or.inr ⟨rfl, rfl⟩) h
      · have e1 : lookupStep fs (.free p) e = .enoent := by simp [lookupStep, he]
        rw [e1] at h
        have hdead : ∀ l : List String, l.foldl (lookupStep fs) .enoent = .enoent := by
          intro l
          induction l with
          | nil => rfl
          | cons a l iha => rw [List.foldl_cons]; exact iha
        rw [hdead] at h
        cases h

theorem lookup_set (env : Env) (fs : FS) (elems : List String) (p : Path) (m : FileMode)
    (h : lookup env fs elems = .free p) :
    lookup env (FS.set fs p (.dir m)) elems = .found p (.dir m) := by
  have hp : fs p = none := ((lookup_spec env fs elems).2 p h).1
  cases elems with
  | nil => cases h
  | cons first rest =>
    by_cases hone : first = "" ∧ rest = []
    · obtain ⟨h1, h2⟩ := hone
      subst h1 h2
      cases h
    · rw [lookup_cons env fs first rest hone] at h
      rw [lookup_cons env _ first rest hone]
      rcases hb : fs (if first = "" then [] else cleanPath env.cwd) with _ | e0
      · rw [hb] at h; cases h
      · rw [hb] at h
        simp only at h
        have hne : (if first = "" then [] else cleanPath env.cwd) ≠ p :=
          fun hh => by rw [hh, hp] at hb; cases hb
        have hb2 : FS.set fs p (.dir m) (if first = "" then [] else cleanPath env.cwd)
            = some e0 := by
          rw [FS.set_other _ _ _ _ hne, hb]
        rw [hb2]
        exact foldl_lookupStep_set fs p (.dir m) hp ⟨m, rfl⟩ _ _ _
          (Or.inl ⟨rfl, _, _, rfl, hb⟩) h
/-! ## `os.MkdirAll` on a path string as configured -/

/-- What `os.Mkdir` on a path string does: nothing, or a new directory at the free
place the string names. -/
theorem osMkdirAt_spec (env : Env) (fs : FS) (elems : List String) (perm : FileMode) :
    ((osMkdirAt env fs elems perm).1 ≠ none ∧ (osMkdirAt env fs elems perm).2 = fs) ∨
    ((osMkdirAt env fs elems perm).1 = none ∧ lookup env fs elems = .free (lexPath env elems) ∧
      fs (lexPath env elems) = none ∧
      (osMkdirAt env fs elems perm).2
        = FS.set fs (lexPath env elems) (.dir (maskMode env perm))) := by
  unfold osMkdirAt
  rcases hl : lookup env fs elems with ⟨p, x⟩ | p | _ | _
  · simp only
    split
    · left; simp
    · left; simp
  · obtain ⟨hp, hlex⟩ := (lookup_spec env fs elems).2 p hl
    subst hlex
    simp only
    split
    · left; simp
    · right; exact ⟨rfl, trivial, hp, rfl⟩
  · left; simp
  · left; simp

/-- The last step of `os.MkdirAll` changes what `Mkdir` changes, and after its
success the path string resolves to a directory. -/
theorem mkdirOrDir_spec (env : Env) (fs : FS) (elems : List String) (perm : FileMode) :
    (mkdirOrDir env fs elems perm).2 = (osMkdirAt env fs elems perm).2 ∧
    ((mkdirOrDir env fs elems perm).1 = none →
      ∃ m, lookup env (mkdirOrDir env fs elems perm).2 elems
        = .found (lexPath env elems) (.dir m)) := by
  unfold mkdirOrDir
  rcases osMkdirAt_spec env fs elems perm with ⟨h1, h2⟩ | ⟨h1, hlk, _, h2⟩
  · rcases hmk : osMkdirAt env fs elems perm with ⟨xe, xf⟩
    rw [hmk] at h1 h2
    simp only at h1 h2
    cases xe with
    | none => exact absurd rfl h1
    | some e =>
      simp only
      rcases hl2 : lookup env xf elems with ⟨p2, x2⟩ | p2 | _ | _
      · cases x2 with
        | dir m =>
          simp only
          obtain ⟨_, hlex⟩ := (lookup_spec env xf elems).1 p2 _ hl2
          exact ⟨trivial, fun _ => ⟨m, by rw [hl2, hlex]⟩⟩
        | file d m => simp
      all_goals simp
  · rcases hmk : osMkdirAt env fs elems perm with ⟨xe, xf⟩
    rw [hmk] at h1 h2
    simp only at h1 h2
    subst h1 h2
    simp only
    exact ⟨trivial, fun _ => ⟨_, lookup_set env fs elems _ _ hlk⟩⟩

/-- What `os.MkdirAll` on a path string changes, given what making the parent has
changed: it only adds directories, with the requested mode minus the umask, at
free places that a leading part of the string names. -/
theorem mkdirAllOne_effect (env : Env) (perm : FileMode) (r : List String)
    (parent : Option String × FS) (fs : FS) (q : Path)
    (hpar : parent.2 q = fs q ∨
      (fs q = none ∧ parent.2 q = some (.dir (maskMode env perm)) ∧
        ∃ r1, r1 <:+ r ∧ r1 ≠ [] ∧ q = lexPath env r1.reverse)) :
    (mkdirAllOne env perm r parent fs).2 q = fs q ∨
    (fs q = none ∧ (mkdirAllOne env perm r parent fs).2 q = some (.dir (maskMode env perm)) ∧
      ∃ r1, r1 <:+ r ∧ r1 ≠ [] ∧ q = lexPath env r1.reverse) := by
  unfold mkdirAllOne
  split
  · left; rfl
  · left; rfl
  · rcases parent with ⟨perr, fs1⟩
    simp only at hpar
    cases perr with
    | some e => exact hpar
    | none =>
      simp only
      rw [(mkdirOrDir_spec env fs1 r.reverse perm).1]
      rcases osMkdirAt_spec env fs1 r.reverse perm with ⟨_, h2⟩ | ⟨_, hl, hfree, h2⟩
      · rw [h2]
        exact hpar
      · rw [h2]
        have hne : r ≠ [] := by
          intro hr
          subst hr
          simp [lookup_nil] at hl
        by_cases hq : q = lexPath env r.reverse
        · subst hq
          rw [FS.set_same]
          rcases hpar with h | ⟨h, h3, _⟩
          · right
            exact ⟨by rw [← h]; exact hfree, rfl, r, List.suffix_refl r, hne, rfl⟩
          · rw [hfree] at h3; cases h3
        · rw [FS.set_other _ _ _ _ hq]
          exact hpar

theorem ensureParent_effect (env : Env) (perm : FileMode) (r : List String) :
    ∀ (fs : FS) (q : Path),
      (ensureParent env perm r fs).2 q = fs q ∨
      (fs q = none ∧ (ensureParent env perm r fs).2 q = some (.dir (maskMode env perm)) ∧
        ∃ r1, r1 <:+ r ∧ r1 ≠ [] ∧ q = lexPath env r1.reverse) := by
  induction r with
  | nil => intro fs q; left; rfl
  | cons e rest ih =>
    intro fs q
    have lift : ∀ fs1 : FS,
        (fs1 q = fs q ∨ (fs q = none ∧ fs1 q = some (.dir (maskMode env perm)) ∧
          ∃ r1, r1 <:+ rest ∧ r1 ≠ [] ∧ q = lexPath env r1.reverse)) →
        (fs1 q = fs q ∨ (fs q = none ∧ fs1 q = some (.dir (maskMode env perm)) ∧
          ∃ r1, r1 <:+ e :: rest ∧ r1 ≠ [] ∧ q = lexPath env r1.reverse)) := by
      rintro fs1 (h | ⟨h1, h2, r1, h3, h4, h5⟩)
      · left; exact h
      · right; exact ⟨h1, h2, r1, h3.trans (List.suffix_cons e rest), h4, h5⟩
    unfold ensureParent
    split
    · exact lift _ (ih fs q)
    · split
      · left; rfl
      · exact lift _ (mkdirAllOne_effect env perm rest _ fs q (ih fs q))

/-- What `os.MkdirAll` of the configured string changes: it only adds directories,
with the requested mode minus the umask, at free places that a leading part of the
string names. -/
theorem osMkdirAllStr_effect (env : Env) (fs : FS) (name : String) (perm : FileMode)
    (q : Path) :
    (osMkdirAllStr env fs name perm).2 q = fs q ∨
    (fs q = none ∧ (osMkdirAllStr env fs name perm).2 q = some (.dir (maskMode env perm)) ∧
      ∃ pre, pre <+: pathElems name ∧ pre ≠ [] ∧ q = lexPath env pre) := by
  unfold osMkdirAllStr
  rcases mkdirAllOne_effect env perm (pathElems name).reverse _ fs q
      (ensureParent_effect env perm (pathElems name).reverse fs q) with
    h | ⟨h1, h2, r1, h3, h4, h5⟩
  · left; exact h
  · right
    refine ⟨h1, h2, r1.reverse, ?_, by simpa using h4, h5⟩
    have := List.reverse_prefix.mpr h3
    rwa [List.reverse_reverse] at this

/-- After a successful `os.MkdirAll` the path string resolves to a directory. -/
theorem mkdirAllOne_ok (env : Env) (perm : FileMode) (r : List String)
    (parent : Option String × FS) (fs : FS)
    (h : (mkdirAllOne env perm r parent fs).1 = none) :
    ∃ m, lookup env (mkdirAllOne env perm r parent fs).2 r.reverse
      = .found (lexPath env r.reverse) (.dir m) := by
  unfold mkdirAllOne at h ⊢
  rcases hl : lookup env fs r.reverse with ⟨p, x⟩ | p | _ | _
  · cases x with
    | dir m =>
      simp only
      obtain ⟨_, hlex⟩ := (lookup_spec env fs r.reverse).1 p _ hl
      exact ⟨m, by rw [hl, hlex]⟩
    | file d m =>
      rw [hl] at h
      simp at h
  all_goals
    rw [hl] at h
    simp only at h ⊢
    rcases parent with ⟨perr, fs1⟩
    cases perr with
    | some e => simp at h
    | none =>
      simp only at h ⊢
      exact (mkdirOrDir_spec env fs1 r.reverse perm).2 h

theorem osMkdirAllStr_ok (env : Env) (fs : FS) (name : String) (perm : FileMode)
    (h : (osMkdirAllStr env fs name perm).1 = none) :
    ∃ m, lookup env (osMkdirAllStr env fs name perm).2 (pathElems name)
      = .found (lexPath env (pathElems name)) (.dir m) := by
  unfold osMkdirAllStr at h ⊢
  obtain ⟨m, hm⟩ := mkdirAllOne_ok env perm _ _ fs h
  rw [List.reverse_reverse] at hm
  exact ⟨m, hm⟩

/-- On a path string that resolves to a directory `os.MkdirAll` changes nothing. -/
theorem osMkdirAllStr_of_dir (env : Env) (fs : FS) (name : String) (perm : FileMode)
    (p : Path) (m : FileMode) (h : lookup env fs (pathElems name) = .found p (.dir m)) :
    osMkdirAllStr env fs name perm = (none, fs) := by
  unfold osMkdirAllStr mkdirAllOne
  rw [List.reverse_reverse, h]
/-! ## The cleaned path of the configured string -/

theorem splitSlash_head (cs cur : List Char) (h : cur ≠ []) :
    (splitSlash cs cur).head? ≠ some "" := by
  induction cs generalizing cur with
  | nil =>
    unfold splitSlash
    simp only [List.head?_cons, ne_eq, Option.some.injEq]
    intro hh
    have := congrArg String.data hh
    simp at this
    exact h this
  | cons c cs ih =>
    unfold splitSlash
    split
    · simp only [List.head?_cons, ne_eq, Option.some.injEq]
      intro hh
      have := congrArg String.data hh
      simp at this
      exact h this
    · exact ih (c :: cur) (by simp)

theorem splitSlash_ne_nil (cs cur : List Char) : splitSlash cs cur ≠ [] := by
  induction cs generalizing cur with
  | nil => simp [splitSlash]
  | cons c cs ih =>
    unfold splitSlash
    split
    · simp
    · exact ih _

theorem pathElems_ne_nil (s : String) : pathElems s ≠ [] := splitSlash_ne_nil _ _

theorem pathElems_head (s : String) (hs : s ≠ "") :
    (pathElems s).head? = some "" ↔ s.data.head? = some '/' := by
  unfold pathElems
  rcases hd : s.data with _ | ⟨c, cs⟩
  · exfalso
    apply hs
    cases s
    simp only at hd
    subst hd
    rfl
  · unfold splitSlash
    by_cases hc : c = '/'
    · simp [hc]
    · rw [if_neg hc]
      constructor
      · intro h
        exact absurd h (splitSlash_head cs [c] (by simp))
      · intro h
        simp at h
        exact absurd h hc

/-- The cleaned path of a configured string that is not empty is the path it
resolves to. -/
theorem lexPath_pathElems (env : Env) (s : String) (hs : s ≠ "") :
    lexPath env (pathElems s) = resolvePath env.cwd s := by
  unfold lexPath resolvePath
  by_cases h : s.data.head? = some '/'
  · rw [if_pos h, if_pos ((pathElems_head s hs).mpr h)]
  · rw [if_neg h, if_neg (fun hh => h ((pathElems_head s hs).mp hh))]

/-- Without two dots among the elements, a leading part of a path string names a
path on the way to the one the whole string names. -/
theorem lexPath_prefix (env : Env) (pre elems : List String) (hpre : pre <+: elems)
    (hne : pre ≠ []) (hdd : ".." ∉ elems) : lexPath env pre <+: lexPath env elems := by
  obtain ⟨post, rfl⟩ := hpre
  have hpost : ".." ∉ post := fun h => hdd (List.mem_append_right _ h)
  have hhead : (pre ++ post).head? = pre.head? := by
    cases pre with
    | nil => exact absurd rfl hne
    | cons a l => rfl
  unfold lexPath cleanPath
  rw [hhead]
  split
  · rw [List.foldl_append]
    have := List.reverse_prefix.mpr (foldl_cleanStep_suffix post hpost (pre.foldl cleanStep []))
    exact this
  · simp only [List.foldl_append]
    exact List.reverse_prefix.mpr (foldl_cleanStep_suffix post hpost _)

/-- After a successful `os.MkdirAll` of the configured string the resolved target
path is a directory, and the string resolves to it. -/
theorem osMkdirAllStr_target (env : Env) (fs : FS) (name : String) (perm : FileMode)
    (h : (osMkdirAllStr env fs name perm).1 = none) :
    name ≠ "" ∧
    ∃ m, lookup env (osMkdirAllStr env fs name perm).2 (pathElems name)
        = .found (resolvePath env.cwd name) (.dir m) ∧
      (osMkdirAllStr env fs name perm).2 (resolvePath env.cwd name) = some (.dir m) := by
  obtain ⟨m, hm⟩ := osMkdirAllStr_ok env fs name perm h
  have hne : name ≠ "" := by
    intro hn
    subst hn
    have : pathElems "" = [""] := rfl
    rw [this, lookup_empty] at hm
    cases hm
  rw [lexPath_pathElems env name hne] at hm
  exact ⟨hne, m, hm, ((lookup_spec env _ _).1 _ _ hm).1⟩

/-- What `os.MkdirAll` of a configured string without two dots among its elements
changes: it only adds directories at free paths on the way to the resolved target. -/
theorem osMkdirAllStr_effect_plain (env : Env) (fs : FS) (name : String) (perm : FileMode)
    (hdd : ".." ∉ pathElems name) (q : Path) :
    (osMkdirAllStr env fs name perm).2 q = fs q ∨
    (fs q = none ∧ q <+: resolvePath env.cwd name ∧
      (osMkdirAllStr env fs name perm).2 q = some (.dir (maskMode env perm))) := by
  rcases osMkdirAllStr_effect env fs name perm q with h | ⟨h1, h2, pre, hp1, hp2, hp3⟩
  · left; exact h
  · right
    refine ⟨h1, ?_, h2⟩
    by_cases hn : name = ""
    · subst hn
      have he : pathElems "" = [""] := rfl
      rw [he] at hp1
      have : pre = [""] := by
        rcases pre with _ | ⟨a, l⟩
        · exact absurd rfl hp2
        · obtain ⟨t, ht⟩ := hp1
          simp only [List.cons_append, List.cons.injEq] at ht
          obtain ⟨ha, hl⟩ := ht
          have hl' : l = [] := (List.append_eq_nil.mp hl).1
          rw [ha, hl']
      rw [hp3, this]
      have : lexPath env [""] = [] := by simp [lexPath, cleanPath, cleanStep]
      rw [this]
      exact List.nil_prefix
    · rw [hp3, ← lexPath_pathElems env name hn]
      exact lexPath_prefix env pre _ hp1 hp2 hdd

/-! ## One step of the mirror -/

/-- What `os.MkdirAll` leaves at its argument when it succeeds. -/
theorem osMkdirAll_ok (env : Env) (nm : String) (fs : FS) (p : Path) (perm : FileMode)
    (h : (osMkdirAll env nm fs p perm).1 = none) :
    (∃ m, (osMkdirAll env nm fs p perm).2 p = some (.dir m)) ∧
    (fs p = none → (osMkdirAll env nm fs p perm).2 p = some (.dir (maskMode env perm))) := by
  unfold osMkdirAll at h ⊢
  obtain ⟨m, hm⟩ := mkdirAllRev_ok env perm _ p.reverse fs h
  rw [List.reverse_reverse] at hm
  refine ⟨⟨m, hm⟩, fun hp => ?_⟩
  rcases mkdirAllRev_effect env perm p.reverse (pathElems nm).reverse fs p with
    h1 | ⟨_, _, h3⟩
  · rw [h1, hp] at hm; cases hm
  · exact h3

theorem osMkdirAll_effect (env : Env) (nm : String) (fs : FS) (p : Path) (perm : FileMode)
    (q : Path) :
    (osMkdirAll env nm fs p perm).2 q = fs q ∨
    (fs q = none ∧ q <+: p ∧
      (osMkdirAll env nm fs p perm).2 q = some (.dir (maskMode env perm))) := by
  have := mkdirAllRev_effect env perm p.reverse (pathElems nm).reverse fs q
  rw [List.reverse_reverse] at this
  exact this

/-- An existing directory makes `os.MkdirAll` a successful no-op. -/
theorem osMkdirAll_of_dir (env : Env) (nm : String) (fs : FS) (p : Path) (perm m : FileMode)
    (h : fs p = some (.dir m)) : osMkdirAll env nm fs p perm = (none, fs) := by
  unfold osMkdirAll
  cases hr : p.reverse with
  | nil =>
    have hp : p = [] := by simpa using hr
    subst hp
    unfold mkdirAllRev
    rw [h]
  | cons name up =>
    have hp : (name :: up).reverse = p := by rw [← hr, List.reverse_reverse]
    unfold mkdirAllRev
    rw [hp, h]

theorem walkFn_err (ctx : WalkCtx) (rel : Path) (name : String) (info : Tree) (e : String)
    (fs : FS) : walkFn ctx rel name info (some e) fs = (some (.err e), fs) := rfl

theorem walkFn_skip (ctx : WalkCtx) (rel : Path) (name : String) (info : Tree) (fs : FS)
    (hd : info.IsDir = true) (hn : name = ".git") :
    walkFn ctx rel name info none fs = (some .skipDir, fs) := by
  simp [walkFn, hd, hn]

theorem walkFn_dir (ctx : WalkCtx) (rel : Path) (name : String) (info : Tree) (fs : FS)
    (hd : info.IsDir = true) (hn : name ≠ ".git") :
    walkFn ctx rel name info none fs
      = walkResult (osMkdirAll ctx.env (joinName ctx.targetName rel) fs (ctx.target ++ rel) info.Mode) := by
  simp [walkFn, hd, hn]

theorem walkFn_file (ctx : WalkCtx) (rel : Path) (name : String) (info : Tree) (fs : FS)
    (hd : info.IsDir = false) :
    walkFn ctx rel name info none fs
      = walkResult (copyFile ctx.env (pathString (ctx.root ++ rel)) (ctx.root ++ rel) info (joinName ctx.targetName rel) (ctx.target ++ rel) fs) := by
  simp [walkFn, hd]

/-- The four ways a step can go. -/
theorem visitOne_cases (ctx : WalkCtx) (v : Visit) (fs : FS) :
    (∃ e, visitOne ctx v fs = (some (.err e), fs)) ∨
    (v.node.IsDir = true ∧ v.name = ".git" ∧ visitOne ctx v fs = (some .skipDir, fs)) ∨
    (v.node.IsDir = true ∧ v.name ≠ ".git" ∧
      visitOne ctx v fs = walkResult (osMkdirAll ctx.env (joinName ctx.targetName v.rel) fs (ctx.target ++ v.rel) v.node.Mode)) ∨
    (v.node.IsDir = false ∧
      visitOne ctx v fs
        = walkResult (copyFile ctx.env (pathString (ctx.root ++ v.rel)) (ctx.root ++ v.rel) v.node (joinName ctx.targetName v.rel) (ctx.target ++ v.rel) fs)) := by
  unfold visitOne
  cases hl : ctx.env.fault (.lstat (ctx.root ++ v.rel)) with
  | some e => left; exact ⟨e, rfl⟩
  | none =>
    simp only
    cases hd : v.node.IsDir with
    | false =>
      right; right; right
      simp only [Bool.false_eq_true, if_false]
      exact ⟨trivial, walkFn_file ctx _ _ _ _ hd⟩
    | true =>
      simp only [if_true]
      cases hr : ctx.env.fault (.readdir (ctx.root ++ v.rel)) with
      | some e => left; exact ⟨e, rfl⟩
      | none =>
        by_cases hn : v.name = ".git"
        · right; left; exact ⟨trivial, hn, walkFn_skip ctx _ _ _ _ hd hn⟩
        · right; right; left; exact ⟨trivial, hn, walkFn_dir ctx _ _ _ _ hd hn⟩

/-- The walk function on a path: it is unchanged or changed as `Changed` says. -/
theorem visitOne_effect (ctx : WalkCtx) (v : Visit) (fs : FS) (q : Path) :
    (visitOne ctx v fs).2 q = fs q ∨ Changed ctx v fs (visitOne ctx v fs).2 q := by
  rcases visitOne_cases ctx v fs with ⟨e, h⟩ | ⟨_, _, h⟩ | ⟨hd, hn, h⟩ | ⟨hd, h⟩
  · left; rw [h]
  · left; rw [h]
  · rw [h]
    simp only [walkResult]
    rcases osMkdirAll_effect ctx.env _ fs (ctx.target ++ v.rel) v.node.Mode q with h1 | ⟨h1, h2, h3⟩
    · left; exact h1
    · right; right; exact ⟨hd, hn, h1, h2, h3⟩
  · rw [h]
    simp only [walkResult]
    rcases copyFile_spec ctx.env _ (ctx.root ++ v.rel) v.node _ (ctx.target ++ v.rel) fs with
      ⟨_, h1⟩ | ⟨hnd, d, m, h1, _⟩
    · left; rw [h1]
    · by_cases hq : q = ctx.target ++ v.rel
      · right; left
        refine ⟨hd, hq, ?_, d, m, ?_⟩
        · rw [hq]; exact hnd
        · rw [h1, hq]; exact FS.set_same _ _ _
      · left; rw [h1]; exact FS.set_other _ _ _ _ hq

/-- After a step that reports no error the entry is mirrored, and a directory the
step had to make has the entry's mode minus the umask. -/
theorem visitOne_post (ctx : WalkCtx) (v : Visit) (fs : FS)
    (h : ∀ e, (visitOne ctx v fs).1 ≠ some (.err e)) :
    Mirrored ctx v (visitOne ctx v fs).2 ∧
    (v.node.IsDir = true → v.name ≠ ".git" → fs (ctx.target ++ v.rel) = none →
      (visitOne ctx v fs).2 (ctx.target ++ v.rel)
        = some (.dir (maskMode ctx.env v.node.Mode))) := by
  rcases visitOne_cases ctx v fs with ⟨e, he⟩ | ⟨hd, hn, he⟩ | ⟨hd, hn, he⟩ | ⟨hd, he⟩
  · exact absurd (by rw [he]) (h e)
  · constructor
    · unfold Mirrored
      cases hnode : v.node with
      | file d m => rw [hnode] at hd; cases hd
      | dir m kids => exact Or.inl hn
    · intro _ hne; exact absurd hn hne
  · rw [he] at h ⊢
    simp only [walkResult] at h ⊢
    cases hres : (osMkdirAll ctx.env (joinName ctx.targetName v.rel) fs (ctx.target ++ v.rel) v.node.Mode).1 with
    | some e => rw [hres] at h; exact absurd rfl (h e)
    | none =>
      have hok := osMkdirAll_ok ctx.env _ fs (ctx.target ++ v.rel) v.node.Mode hres
      constructor
      · unfold Mirrored
        cases hnode : v.node with
        | file d m => rw [hnode] at hd; cases hd
        | dir m kids => rw [hnode] at hok; exact Or.inr hok.1
      · intro _ _ hp; exact hok.2 hp
  · rw [he] at h ⊢
    simp only [walkResult] at h ⊢
    cases hres : (copyFile ctx.env (pathString (ctx.root ++ v.rel)) (ctx.root ++ v.rel) v.node (joinName ctx.targetName v.rel) (ctx.target ++ v.rel) fs).1 with
    | some e => rw [hres] at h; exact absurd rfl (h e)
    | none =>
      rcases copyFile_spec ctx.env _ (ctx.root ++ v.rel) v.node _ (ctx.target ++ v.rel) fs with
        ⟨h1, _⟩ | ⟨_, d, m, h2, h3⟩
      · exact absurd hres h1
      · have hnode := h3 hres
        constructor
        · unfold Mirrored
          rw [h2]
          rw [hnode]
          exact FS.set_same _ _ _
        · intro hdir; rw [hd] at hdir; cases hdir

/-- A step that reports no error on an entry already mirrored changes nothing. -/
theorem visitOne_idem (ctx : WalkCtx) (v : Visit) (fs : FS) (hm : Mirrored ctx v fs)
    (h : ∀ e, (visitOne ctx v fs).1 ≠ some (.err e)) : (visitOne ctx v fs).2 = fs := by
  rcases visitOne_cases ctx v fs with ⟨e, he⟩ | ⟨hd, hn, he⟩ | ⟨hd, hn, he⟩ | ⟨hd, he⟩
  · rw [he]
  · rw [he]
  · rw [he]
    simp only [walkResult]
    unfold Mirrored at hm
    cases hnode : v.node with
    | file d m => rw [hnode] at hd; cases hd
    | dir m kids =>
      rw [hnode] at hm
      simp only at hm
      rcases hm with hm | ⟨m', hm'⟩
      · exact absurd hm hn
      · rw [osMkdirAll_of_dir ctx.env _ fs (ctx.target ++ v.rel) _ m' hm']
  · rw [he] at h ⊢
    simp only [walkResult] at h ⊢
    cases hres : (copyFile ctx.env (pathString (ctx.root ++ v.rel)) (ctx.root ++ v.rel) v.node (joinName ctx.targetName v.rel) (ctx.target ++ v.rel) fs).1 with
    | some e => rw [hres] at h; exact absurd rfl (h e)
    | none =>
      rcases copyFile_spec ctx.env _ (ctx.root ++ v.rel) v.node _ (ctx.target ++ v.rel) fs with
        ⟨h1, _⟩ | ⟨_, d, m, h2, h3⟩
      · exact absurd hres h1
      · have hnode := h3 hres
        unfold Mirrored at hm
        rw [hnode] at hm
        simp only at hm
        rw [h2]
        exact FS.set_eq_self _ _ _ hm

/-! ## A run of the walk function over a list of entries -/

theorem runVisits_cons_err (ctx : WalkCtx) (v : Visit) (vs : List Visit) (fs : FS) (e : String)
    (h : (visitOne ctx v fs).1 = some (.err e)) :
    runVisits ctx (v :: vs) fs = (some e, (visitOne ctx v fs).2) := by
  rcases hv : visitOne ctx v fs with ⟨r, fs1⟩
  rw [hv] at h
  simp only at h
  subst h
  simp only [runVisits, hv]

theorem runVisits_cons_ok (ctx : WalkCtx) (v : Visit) (vs : List Visit) (fs : FS)
    (h : ∀ e, (visitOne ctx v fs).1 ≠ some (.err e)) :
    runVisits ctx (v :: vs) fs = runVisits ctx vs (visitOne ctx v fs).2 := by
  rcases hv : visitOne ctx v fs with ⟨r, fs1⟩
  rw [hv] at h
  simp only at h
  cases r with
  | none => simp only [runVisits, hv]
  | some w =>
    cases w with
    | skipDir => simp only [runVisits, hv]
    | err e => exact absurd rfl (h e)

/-- A step either reports an error or does not. -/
theorem visitOne_err_or (ctx : WalkCtx) (v : Visit) (fs : FS) :
    (∃ e, (visitOne ctx v fs).1 = some (.err e)) ∨ (∀ e, (visitOne ctx v fs).1 ≠ some (.err e)) := by
  rcases (visitOne ctx v fs).1 with _ | w
  · right; intro e h; cases h
  · cases w with
    | skipDir => right; intro e h; cases h
    | err e => left; exact ⟨e, rfl⟩

theorem runVisits_append (ctx : WalkCtx) (a b : List Visit) :
    ∀ fs, runVisits ctx (a ++ b) fs =
      (match runVisits ctx a fs with
       | (some e, fs1) => (some e, fs1)
       | (none, fs1) => runVisits ctx b fs1) := by
  induction a with
  | nil => intro fs; rfl
  | cons v vs ih =>
    intro fs
    rw [List.cons_append]
    rcases visitOne_err_or ctx v fs with ⟨e, he⟩ | hok
    · rw [runVisits_cons_err ctx v _ fs e he, runVisits_cons_err ctx v _ fs e he]
    · rw [runVisits_cons_ok ctx v _ fs hok, runVisits_cons_ok ctx v _ fs hok]
      exact ih _

theorem Changed_of_eq (ctx : WalkCtx) (v : Visit) (fs fs0 fs1 : FS) (q : Path)
    (h : fs q = fs0 q) (hc : Changed ctx v fs fs1 q) : Changed ctx v fs0 fs1 q := by
  unfold Changed at hc ⊢
  rw [h] at hc
  exact hc

theorem Changed_of_eq_right (ctx : WalkCtx) (v : Visit) (fs fs1 fs2 : FS) (q : Path)
    (h : fs2 q = fs1 q) (hc : Changed ctx v fs fs1 q) : Changed ctx v fs fs2 q := by
  unfold Changed at hc ⊢
  rw [h]
  exact hc

/-- Two changes in a row are one change. -/
theorem Changed_trans (ctx : WalkCtx) (u w : Visit) (fs fs1 fs2 : FS) (q : Path)
    (h1 : Changed ctx u fs fs1 q) (h2 : Changed ctx w fs1 fs2 q) : Changed ctx w fs fs2 q := by
  unfold Changed at h1 h2 ⊢
  rcases h1 with ⟨_, _, hnd, d, m, hf⟩ | ⟨_, _, _, _, hdir⟩
  · rcases h2 with ⟨a, b, _, c⟩ | ⟨_, _, hn, _⟩
    · exact Or.inl ⟨a, b, hnd, c⟩
    · rw [hf] at hn; cases hn
  · rcases h2 with ⟨_, _, hnd, _⟩ | ⟨_, _, hn, _⟩
    · exact absurd hdir (hnd _)
    · rw [hdir] at hn; cases hn

/-- Every path is unchanged by a run or changed by the step of one of its entries. -/
theorem runVisits_effect (ctx : WalkCtx) (vs : List Visit) :
    ∀ (fs : FS) (q : Path), (runVisits ctx vs fs).2 q = fs q ∨
      ∃ v ∈ vs, Changed ctx v fs (runVisits ctx vs fs).2 q := by
  induction vs with
  | nil => intro fs q; left; rfl
  | cons u rest ih =>
    intro fs q
    rcases visitOne_err_or ctx u fs with ⟨e, he⟩ | hok
    · rw [runVisits_cons_err ctx u _ fs e he]
      rcases visitOne_effect ctx u fs q with h | h
      · left; exact h
      · right; exact ⟨u, List.mem_cons_self _ _, h⟩
    · rw [runVisits_cons_ok ctx u _ fs hok]
      rcases visitOne_effect ctx u fs q with h1 | h1
      · rcases ih (visitOne ctx u fs).2 q with h2 | ⟨w, hw, h2⟩
        · left; rw [h2, h1]
        · right; exact ⟨w, List.mem_cons_of_mem _ hw, Changed_of_eq ctx w _ _ _ q h1 h2⟩
      · rcases ih (visitOne ctx u fs).2 q with h2 | ⟨w, hw, h2⟩
        · right; exact ⟨u, List.mem_cons_self _ _, Changed_of_eq_right ctx u _ _ _ q h2 h1⟩
        · right; exact ⟨w, List.mem_cons_of_mem _ hw, Changed_trans ctx u w _ _ _ q h1 h2⟩

/-- What a change leaves behind is never nothing, and a directory stays as it is. -/
theorem Changed_keeps (ctx : WalkCtx) (v : Visit) (fs fs1 : FS) (q : Path)
    (h : Changed ctx v fs fs1 q) :
    (∀ m, fs q ≠ some (.dir m)) ∧ fs1 q ≠ none ∧ (fs q ≠ none → ∃ d m, fs1 q = some (.file d m)) := by
  unfold Changed at h
  rcases h with ⟨_, _, hnd, d, m, hf⟩ | ⟨_, _, hn, _, hdir⟩
  · exact ⟨hnd, by rw [hf]; simp, fun _ => ⟨d, m, hf⟩⟩
  · exact ⟨by rw [hn]; simp, by rw [hdir]; simp, fun h => absurd hn h⟩

/-- A mirrored entry stays mirrored under a run whose entries have other paths. -/
theorem Mirrored_runVisits (ctx : WalkCtx) (u : Visit) (vs : List Visit) (fs : FS)
    (hm : Mirrored ctx u fs) (hne : ∀ w ∈ vs, w.rel ≠ u.rel) :
    Mirrored ctx u (runVisits ctx vs fs).2 := by
  unfold Mirrored at hm ⊢
  cases hnode : u.node with
  | file d m =>
    rw [hnode] at hm
    simp only at hm ⊢
    rcases runVisits_effect ctx vs fs (ctx.target ++ u.rel) with h | ⟨w, hw, hc⟩
    · rw [h, hm]
    · exfalso
      unfold Changed at hc
      rcases hc with ⟨_, hq, _⟩ | ⟨_, _, hn, _⟩
      · exact hne w hw (List.append_cancel_left hq).symm
      · rw [hm] at hn; cases hn
  | dir m kids =>
    rw [hnode] at hm
    simp only at hm ⊢
    rcases hm with hm | ⟨m', hm'⟩
    · exact Or.inl hm
    · right
      rcases runVisits_effect ctx vs fs (ctx.target ++ u.rel) with h | ⟨w, hw, hc⟩
      · exact ⟨m', by rw [h, hm']⟩
      · exact absurd hm' ((Changed_keeps ctx w _ _ _ hc).1 m')

/-- After a run without error over entries none of which lies on the way to an
earlier one, every entry is mirrored, and a directory that was not there before has
the entry's mode minus the umask. -/
theorem runVisits_post (ctx : WalkCtx) (vs : List Visit) :
    ∀ (fs : FS), vs.Pairwise (fun u w => ¬ w.rel <+: u.rel) → (runVisits ctx vs fs).1 = none →
      ∀ v ∈ vs, Mirrored ctx v (runVisits ctx vs fs).2 ∧
        (v.node.IsDir = true → v.name ≠ ".git" → fs (ctx.target ++ v.rel) = none →
          (runVisits ctx vs fs).2 (ctx.target ++ v.rel)
            = some (.dir (maskMode ctx.env v.node.Mode))) := by
  induction vs with
  | nil => intro fs _ _ v hv; cases hv
  | cons u rest ih =>
    intro fs hpw hok v hv
    rw [List.pairwise_cons] at hpw
    obtain ⟨hu, hrest⟩ := hpw
    rcases visitOne_err_or ctx u fs with ⟨e, he⟩ | hstep
    · rw [runVisits_cons_err ctx u _ fs e he] at hok; cases hok
    · rw [runVisits_cons_ok ctx u _ fs hstep] at hok ⊢
      have hpost := visitOne_post ctx u fs hstep
      rcases List.mem_cons.mp hv with rfl | hv'
      · have hne : ∀ w ∈ rest, w.rel ≠ v.rel := fun w hw heq =>
          hu w hw (by rw [heq])
        refine ⟨Mirrored_runVisits ctx v rest _ hpost.1 hne, fun hd hn hp => ?_⟩
        have h1 := hpost.2 hd hn hp
        rcases runVisits_effect ctx rest (visitOne ctx v fs).2 (ctx.target ++ v.rel) with
          h | ⟨w, _, hc⟩
        · rw [h, h1]
        · exact absurd h1 ((Changed_keeps ctx w _ _ _ hc).1 _)
      · obtain ⟨ih1, ih2⟩ := ih (visitOne ctx u fs).2 hrest hok v hv'
        refine ⟨ih1, fun hd hn hp => ih2 hd hn ?_⟩
        rcases visitOne_effect ctx u fs (ctx.target ++ v.rel) with h | hc
        · rw [h, hp]
        · exfalso
          unfold Changed at hc
          rcases hc with ⟨_, hq, _⟩ | ⟨_, _, _, hpre, _⟩
          · exact hu v hv' (by rw [List.append_cancel_left hq])
          · exact hu v hv' ((List.prefix_append_right_inj _).mp hpre)

/-- A run without error over entries that are all mirrored changes nothing. -/
theorem runVisits_idem (ctx : WalkCtx) (vs : List Visit) (fs : FS)
    (hm : ∀ v ∈ vs, Mirrored ctx v fs) (hok : (runVisits ctx vs fs).1 = none) :
    (runVisits ctx vs fs).2 = fs := by
  induction vs with
  | nil => rfl
  | cons u rest ih =>
    rcases visitOne_err_or ctx u fs with ⟨e, he⟩ | hstep
    · rw [runVisits_cons_err ctx u _ fs e he] at hok; cases hok
    · rw [runVisits_cons_ok ctx u _ fs hstep] at hok ⊢
      have h1 := visitOne_idem ctx u fs (hm u (List.mem_cons_self _ _)) hstep
      rw [h1] at hok ⊢
      exact ih (fun v hv => hm v (List.mem_cons_of_mem _ hv)) hok

/-! ## The walk is a run over the visited entries -/

theorem Tree.visits_head (rel : Path) (name : String) (t : Tree) :
    ∃ tl, Tree.visits rel name t = ⟨rel, name, t⟩ :: tl := by
  cases t with
  | file d m => exact ⟨[], by simp [Tree.visits]⟩
  | dir m kids =>
    exact ⟨(if name = ".git" then [] else Forest.visits rel kids), by rw [Tree.visits]⟩

theorem Tree.entries_head (rel : Path) (name : String) (t : Tree) :
    ∃ tl, Tree.entries rel name t = ⟨rel, name, t⟩ :: tl := by
  cases t with
  | file d m => exact ⟨[], by simp [Tree.entries]⟩
  | dir m kids => exact ⟨Forest.entries rel kids, by rw [Tree.entries]⟩

theorem collapse_walkResult (r : Option String × FS) : collapse (walkResult r) = r := by
  rcases r with ⟨e, fs⟩
  cases e <;> rfl

theorem walkResult_ne_skip (r : Option String × FS) : (walkResult r).1 ≠ some .skipDir := by
  rcases r with ⟨e, fs⟩
  cases e <;> simp [walkResult]

theorem runVisits_single (ctx : WalkCtx) (v : Visit) (fs : FS) :
    runVisits ctx [v] fs = collapse (visitOne ctx v fs) := by
  rcases hv : visitOne ctx v fs with ⟨r, fs1⟩
  cases r with
  | none => simp only [runVisits, hv, collapse]
  | some w => cases w <;> simp only [runVisits, hv, collapse]

mutual
/-- The recursion `walk` is the run of the walk function over the visited entries. -/
theorem walk_flat : ∀ (t : Tree) (ctx : WalkCtx) (rel : Path) (name : String) (fs : FS),
    ctx.env.fault (.lstat (ctx.root ++ rel)) = none →
    ((walk ctx rel name t fs).1 = some .skipDir → t.IsDir = true) ∧
    collapse (walk ctx rel name t fs) = runVisits ctx (Tree.visits rel name t) fs
  | .file d m, ctx, rel, name, fs, hl => by
    have hv : visitOne ctx ⟨rel, name, .file d m⟩ fs = walk ctx rel name (.file d m) fs := by
      simp only [visitOne, hl, walk, Tree.IsDir, Bool.false_eq_true, if_false]
    constructor
    · intro h
      rw [walk, walkFn_file ctx rel name (Tree.file d m) fs rfl] at h
      exact absurd h (walkResult_ne_skip _)
    · rw [Tree.visits, runVisits_single, hv]
  | .dir m kids, ctx, rel, name, fs, hl => by
    refine ⟨fun _ => rfl, ?_⟩
    have hv : visitOne ctx ⟨rel, name, .dir m kids⟩ fs
        = walkFn ctx rel name (.dir m kids) (ctx.env.fault (.readdir (ctx.root ++ rel))) fs := by
      simp only [visitOne, hl, Tree.IsDir, if_true]
    rw [Tree.visits, walk]
    cases hr : ctx.env.fault (.readdir (ctx.root ++ rel)) with
    | some e =>
      rw [hr] at hv
      simp only [walkFn_err]
      rw [runVisits_cons_err ctx _ _ fs e (by rw [hv, walkFn_err])]
      rw [hv, walkFn_err]
      rfl
    | none =>
      rw [hr] at hv
      simp only
      by_cases hn : name = ".git"
      · subst hn
        rw [walkFn_skip ctx rel ".git" (Tree.dir m kids) fs rfl rfl] at hv ⊢
        simp only [if_true]
        rw [runVisits_single, hv]
      · rw [walkFn_dir ctx rel name (Tree.dir m kids) fs rfl hn] at hv ⊢
        simp only [hn, if_false]
        rcases hm : osMkdirAll ctx.env (joinName ctx.targetName rel) fs (ctx.target ++ rel) (Tree.dir m kids).Mode with ⟨e, fs1⟩
        rw [hm] at hv
        cases e with
        | some e =>
          simp only [walkResult, Option.map_some']
          rw [runVisits_cons_err ctx _ _ fs e (by rw [hv]; rfl), hv]
          rfl
        | none =>
          simp only [walkResult, Option.map_none']
          rw [runVisits_cons_ok ctx _ _ fs (by rw [hv]; intro e h; cases h), hv]
          exact (walkNames_flat kids ctx rel fs1).2
/-- The loop `walkNames` is the run of the walk function over the visited entries. -/
theorem walkNames_flat : ∀ (f : Forest) (ctx : WalkCtx) (rel : Path) (fs : FS),
    (walkNames ctx rel f fs).1 ≠ some .skipDir ∧
    collapse (walkNames ctx rel f fs) = runVisits ctx (Forest.visits rel f) fs
  | .nil, ctx, rel, fs => by
    simp [walkNames, Forest.visits, runVisits, collapse]
  | .cons name t rest, ctx, rel, fs => by
    rw [Forest.visits, runVisits_append, walkNames]
    cases hl : ctx.env.fault (.lstat (ctx.root ++ (rel ++ [name]))) with
    | some e =>
      simp only [walkFn_err]
      obtain ⟨tl, htl⟩ := Tree.visits_head (rel ++ [name]) name t
      have hv : visitOne ctx ⟨rel ++ [name], name, t⟩ fs = (some (.err e), fs) := by
        simp only [visitOne, hl, walkFn_err]
      rw [htl, runVisits_cons_err ctx _ _ fs e (by rw [hv])]
      rw [hv]
      exact ⟨by simp, rfl⟩
    | none =>
      simp only
      obtain ⟨hskip, hflat⟩ := walk_flat t ctx (rel ++ [name]) name fs hl
      rw [← hflat]
      rcases hw : walk ctx (rel ++ [name]) name t fs with ⟨r, fs1⟩
      rw [hw] at hskip
      cases r with
      | none =>
        simp only [collapse]
        exact walkNames_flat rest ctx rel fs1
      | some e1 =>
        cases e1 with
        | skipDir =>
          have hd : t.IsDir = true := hskip rfl
          simp only [hd, collapse]
          simpa using walkNames_flat rest ctx rel fs1
        | err e =>
          simp only [collapse]
          simp
end

/-- The function `filepath.Walk` is the run of the walk function over the visited
entries of the root. -/
theorem filepathWalk_eq (ctx : WalkCtx) (t : Tree) (fs : FS) :
    filepathWalk ctx t fs = runVisits ctx (Tree.visits [] (filepathBase ctx.root) t) fs := by
  have hfold : ∀ r, (match r with
      | (none, fs1) => ((none, fs1) : Option String × FS)
      | (some WalkErr.skipDir, fs1) => (none, fs1)
      | (some (WalkErr.err e), fs1) => (some e, fs1)) = collapse r := by
    intro r; rfl
  unfold filepathWalk
  simp only [hfold]
  cases hl : ctx.env.fault (.lstat ctx.root) with
  | some e =>
    simp only [walkFn_err]
    obtain ⟨tl, htl⟩ := Tree.visits_head [] (filepathBase ctx.root) t
    have hv : visitOne ctx ⟨[], filepathBase ctx.root, t⟩ fs = (some (.err e), fs) := by
      simp only [visitOne, List.append_nil, hl, walkFn_err]
    rw [htl, runVisits_cons_err ctx _ _ fs e (by rw [hv]), hv]
    try rfl
  | none =>
    simp only
    exact (walk_flat t ctx [] (filepathBase ctx.root) fs (by simpa using hl)).2

/-! ## The shape of the entries of a tree -/

mutual
/-- An entry of a tree is its root or lies strictly below it, named by its last element. -/
theorem Tree.entries_shape : ∀ (t : Tree) (rel : Path) (name : String) (v : Visit),
    v ∈ Tree.entries rel name t →
    v = ⟨rel, name, t⟩ ∨ ∃ n p, v.rel = rel ++ n :: p ∧ (n :: p).getLast? = some v.name
  | .file d m, rel, name, v, hv => by
    left; simpa [Tree.entries] using hv
  | .dir m kids, rel, name, v, hv => by
    rw [Tree.entries, List.mem_cons] at hv
    rcases hv with h | h
    · left; exact h
    · right
      obtain ⟨n, _, p, h1, h2⟩ := Forest.listing_entries_shape kids rel v h
      exact ⟨n, p, h1, h2⟩
/-- An entry below a listing starts with one of its names. -/
theorem Forest.listing_entries_shape : ∀ (f : Forest) (rel : Path) (v : Visit),
    v ∈ Forest.entries rel f →
    ∃ n ∈ Forest.names f, ∃ p, v.rel = rel ++ n :: p ∧ (n :: p).getLast? = some v.name
  | .nil, rel, v, hv => by simp [Forest.entries] at hv
  | .cons name t rest, rel, v, hv => by
    rw [Forest.entries, List.mem_append] at hv
    rcases hv with h | h
    · refine ⟨name, by simp [Forest.names], ?_⟩
      rcases Tree.entries_shape t (rel ++ [name]) name v h with h1 | ⟨n, p, h1, h2⟩
      · subst h1; exact ⟨[], by simp, by simp⟩
      · refine ⟨n :: p, by rw [h1]; simp, ?_⟩
        rw [List.getLast?_cons_cons]; exact h2
    · obtain ⟨n, hn, p, h1, h2⟩ := Forest.listing_entries_shape rest rel v h
      exact ⟨n, by simp [Forest.names, hn], p, h1, h2⟩
end

theorem cons_not_prefix_nil (rel : Path) (n : String) (p : Path) : ¬ (rel ++ n :: p <+: rel) := by
  intro h
  have := h.length_le
  simp at this

theorem prefix_cons_inj (rel : Path) (a b : String) (p q : Path)
    (h : rel ++ a :: p <+: rel ++ b :: q) : a = b := by
  have h1 := (List.prefix_append_right_inj rel).mp h
  obtain ⟨t, ht⟩ := h1
  simp only [List.cons_append, List.cons.injEq] at ht
  exact ht.1

mutual
/-- In a well-formed tree no entry lies on the way to an earlier one. -/
theorem Tree.entries_pairwise : ∀ (t : Tree) (rel : Path) (name : String), Tree.WF t →
    (Tree.entries rel name t).Pairwise (fun u w => ¬ w.rel <+: u.rel)
  | .file d m, rel, name, _ => by simp [Tree.entries]
  | .dir m kids, rel, name, hwf => by
    rw [Tree.entries, List.pairwise_cons]
    refine ⟨fun w hw => ?_, Forest.listing_entries_pairwise kids rel (by simpa [Tree.WF] using hwf)⟩
    obtain ⟨n, _, p, h1, _⟩ := Forest.listing_entries_shape kids rel w hw
    rw [h1]
    exact cons_not_prefix_nil rel n p
/-- In a well-formed listing no entry lies on the way to an earlier one. -/
theorem Forest.listing_entries_pairwise : ∀ (f : Forest) (rel : Path), Forest.WF f →
    (Forest.entries rel f).Pairwise (fun u w => ¬ w.rel <+: u.rel)
  | .nil, rel, _ => by simp [Forest.entries]
  | .cons name t rest, rel, hwf => by
    rw [Forest.WF] at hwf
    obtain ⟨hnot, hwt, hwr⟩ := hwf
    rw [Forest.entries, List.pairwise_append]
    refine ⟨Tree.entries_pairwise t _ name hwt, Forest.listing_entries_pairwise rest rel hwr, ?_⟩
    intro u hu w hw hpre
    obtain ⟨n, hn, p, h1, _⟩ := Forest.listing_entries_shape rest rel w hw
    have hu' : ∃ x, u.rel = rel ++ name :: x := by
      rcases Tree.entries_shape t (rel ++ [name]) name u hu with h | ⟨n', p', h, _⟩
      · subst h; exact ⟨[], by simp⟩
      · exact ⟨n' :: p', by rw [h]; simp⟩
    obtain ⟨x, hx⟩ := hu'
    rw [h1, hx] at hpre
    have := prefix_cons_inj rel n name p x hpre
    subst this
    exact hnot hn
end

mutual
/-- The visited entries are among the entries, in the same order. -/
theorem Tree.visits_sublist : ∀ (t : Tree) (rel : Path) (name : String),
    (Tree.visits rel name t).Sublist (Tree.entries rel name t)
  | .file d m, rel, name => by simp [Tree.visits, Tree.entries]
  | .dir m kids, rel, name => by
    rw [Tree.visits, Tree.entries]
    apply List.Sublist.cons₂
    split
    · exact List.nil_sublist _
    · exact Forest.listing_visits_sublist kids rel
/-- The visited entries below a listing are among its entries, in the same order. -/
theorem Forest.listing_visits_sublist : ∀ (f : Forest) (rel : Path),
    (Forest.visits rel f).Sublist (Forest.entries rel f)
  | .nil, rel => by simp [Forest.visits, Forest.entries]
  | .cons name t rest, rel => by
    rw [Forest.visits, Forest.entries]
    exact List.Sublist.append (Tree.visits_sublist t _ name) (Forest.listing_visits_sublist rest rel)
end

mutual
/-- A visited entry is the root, or the root is not named `.git` and no directory
above the entry is. -/
theorem Tree.visits_shape : ∀ (t : Tree) (rel : Path) (name : String) (v : Visit),
    v ∈ Tree.visits rel name t →
    v = ⟨rel, name, t⟩ ∨
      (name ≠ ".git" ∧ ∃ n p, v.rel = rel ++ n :: p ∧ ".git" ∉ (n :: p).dropLast)
  | .file d m, rel, name, v, hv => by
    left; simpa [Tree.visits] using hv
  | .dir m kids, rel, name, v, hv => by
    rw [Tree.visits, List.mem_cons] at hv
    rcases hv with h | h
    · left; exact h
    · right
      by_cases hn : name = ".git"
      · simp [hn] at h
      · simp only [hn, if_false] at h
        exact ⟨hn, Forest.listing_visits_shape kids rel v h⟩
/-- No directory above a visited entry below a listing is named `.git`. -/
theorem Forest.listing_visits_shape : ∀ (f : Forest) (rel : Path) (v : Visit),
    v ∈ Forest.visits rel f → ∃ n p, v.rel = rel ++ n :: p ∧ ".git" ∉ (n :: p).dropLast
  | .nil, rel, v, hv => by simp [Forest.visits] at hv
  | .cons name t rest, rel, v, hv => by
    rw [Forest.visits, List.mem_append] at hv
    rcases hv with h | h
    · rcases Tree.visits_shape t (rel ++ [name]) name v h with h1 | ⟨hn, n, p, h1, h2⟩
      · subst h1; exact ⟨name, [], by simp, by simp⟩
      · refine ⟨name, n :: p, by rw [h1]; simp, ?_⟩
        rw [List.dropLast_cons₂]
        simp only [List.mem_cons, not_or]
        exact ⟨fun h => hn h.symm, h2⟩
    · exact Forest.listing_visits_shape rest rel v h
end

mutual
/-- Where no directory is named `.git` the walk visits every entry. -/
theorem Tree.visits_eq_entries : ∀ (t : Tree) (rel : Path) (name : String),
    (∀ v ∈ Tree.entries rel name t, v.skipped = false) →
    Tree.visits rel name t = Tree.entries rel name t
  | .file d m, rel, name, _ => by simp [Tree.visits, Tree.entries]
  | .dir m kids, rel, name, h => by
    rw [Tree.entries] at h
    have hroot := h _ (List.mem_cons_self _ _)
    have hn : name ≠ ".git" := by
      intro hn; simp [Visit.skipped, Tree.IsDir, hn] at hroot
    rw [Tree.visits, Tree.entries]
    simp only [hn, if_false]
    rw [Forest.listing_visits_eq_entries kids rel (fun v hv => h v (List.mem_cons_of_mem _ hv))]
/-- Where no directory is named `.git` the walk visits every entry of a listing. -/
theorem Forest.listing_visits_eq_entries : ∀ (f : Forest) (rel : Path),
    (∀ v ∈ Forest.entries rel f, v.skipped = false) →
    Forest.visits rel f = Forest.entries rel f
  | .nil, rel, _ => by simp [Forest.visits, Forest.entries]
  | .cons name t rest, rel, h => by
    rw [Forest.entries] at h
    rw [Forest.visits, Forest.entries]
    rw [Tree.visits_eq_entries t _ name (fun v hv => h v (List.mem_append_left _ hv)),
      Forest.listing_visits_eq_entries rest rel (fun v hv => h v (List.mem_append_right _ hv))]
end

theorem prefix_antisymm_path (a b : Path) (h1 : a <+: b) (h2 : b <+: a) : a = b :=
  h1.eq_of_length (Nat.le_antisymm h1.length_le h2.length_le)

mutual
/-- Every path between the root of a tree and one of its entries is an entry. -/
theorem Tree.entries_closed : ∀ (t : Tree) (rel : Path) (name : String) (v : Visit) (p : Path),
    v ∈ Tree.entries rel name t → rel <+: p → p <+: v.rel →
    ∃ u ∈ Tree.entries rel name t, u.rel = p
  | .file d m, rel, name, v, p, hv, h1, h2 => by
    have hv' : v = ⟨rel, name, .file d m⟩ := by simpa [Tree.entries] using hv
    subst hv'
    exact ⟨_, hv, prefix_antisymm_path _ _ h1 h2⟩
  | .dir m kids, rel, name, v, p, hv, h1, h2 => by
    by_cases hp : p = rel
    · exact ⟨⟨rel, name, .dir m kids⟩, by simp [Tree.entries], hp.symm⟩
    · rw [Tree.entries, List.mem_cons] at hv
      rcases hv with h | h
      · subst h
        exact absurd (prefix_antisymm_path _ _ h2 h1) hp
      · obtain ⟨u, hu, hup⟩ := Forest.listing_entries_closed kids rel v p h h1 hp h2
        exact ⟨u, by rw [Tree.entries]; exact List.mem_cons_of_mem _ hu, hup⟩
/-- Every path strictly between a directory and an entry below it is an entry. -/
theorem Forest.listing_entries_closed : ∀ (f : Forest) (rel : Path) (v : Visit) (p : Path),
    v ∈ Forest.entries rel f → rel <+: p → p ≠ rel → p <+: v.rel →
    ∃ u ∈ Forest.entries rel f, u.rel = p
  | .nil, rel, v, p, hv, _, _, _ => by simp [Forest.entries] at hv
  | .cons name t rest, rel, v, p, hv, h1, hp, h2 => by
    rw [Forest.entries, List.mem_append] at hv
    rcases hv with h | h
    · have hpre : rel ++ [name] <+: v.rel := by
        rcases Tree.entries_shape t (rel ++ [name]) name v h with h' | ⟨n', p', h', _⟩
        · subst h'; exact List.prefix_refl _
        · rw [h']; exact List.prefix_append _ _
      have hlen : (rel ++ [name]).length ≤ p.length := by
        by_contra hlt
        push_neg at hlt
        simp only [List.length_append, List.length_cons, List.length_nil] at hlt
        exact hp (h1.eq_of_length (Nat.le_antisymm h1.length_le (by omega))).symm
      have hpre' : rel ++ [name] <+: p := List.prefix_of_prefix_length_le hpre h2 hlen
      obtain ⟨u, hu, hup⟩ := Tree.entries_closed t (rel ++ [name]) name v p h hpre' h2
      exact ⟨u, by rw [Forest.entries]; exact List.mem_append_left _ hu, hup⟩
    · obtain ⟨u, hu, hup⟩ := Forest.listing_entries_closed rest rel v p h h1 hp h2
      exact ⟨u, by rw [Forest.entries]; exact List.mem_append_right _ hu, hup⟩
end

/-! ## `copyFiles` as a whole -/

theorem lookup_cwd (env env1 : Env) (fs : FS) (elems : List String) (h : env1.cwd = env.cwd) :
    lookup env1 fs elems = lookup env fs elems := by
  unfold lookup
  rw [h]

/-- The mirror pass once the target directory is there and the source is found. -/
theorem Syncer.copyFiles_eq (s : Syncer) (env : Env) (t : Tree) (fs : FS)
    (hmk : (osMkdirAllStr env fs s.cfg.TargetPath 0o755).1 = none)
    (hst : env.fault (.stat s.sourcePath) = none) :
    s.copyFiles env (some t) fs =
      if t.IsDir then
        runVisits (s.walkCtx env) (Tree.visits [] (filepathBase s.sourcePath) t)
          (osMkdirAllStr env fs s.cfg.TargetPath 0o755).2
      else
        copyFile env (pathString s.sourcePath) s.sourcePath t
          (joinName s.cfg.TargetPath [filepathBase s.sourcePath])
          (s.targetPath env ++ [filepathBase s.sourcePath])
          (osMkdirAllStr env fs s.cfg.TargetPath 0o755).2 := by
  unfold Syncer.copyFiles
  rcases hm : osMkdirAllStr env fs s.cfg.TargetPath 0o755 with ⟨e, fs1⟩
  rw [hm] at hmk
  simp only at hmk
  subst hmk
  have hst' : env.fault (.stat (filepathJoin s.git.WorkDir s.cfg.SourcePath)) = none := hst
  simp only [osStat, hst', Syncer.targetPath, Syncer.sourcePath]
  cases hd : t.IsDir with
  | true =>
    simp only [Bool.not_true, Bool.false_eq_true, if_false, if_true]
    rw [filepathWalk_eq]
    try rfl
  | false => simp only [Bool.not_false, if_true, Bool.false_eq_true, if_false]

/-- The ways `copyFiles` can go: it stops before or after making the target
directory, or it goes on to the mirror proper. -/
theorem Syncer.copyFiles_cases (s : Syncer) (env : Env) (source : Option Tree) (fs : FS) :
    ((s.copyFiles env source fs).1 ≠ none ∧
      ((s.copyFiles env source fs).2 = fs ∨
       (s.copyFiles env source fs).2 = (osMkdirAllStr env fs s.cfg.TargetPath 0o755).2)) ∨
    (s.cfg.TargetPath ≠ "" ∧ (osMkdirAllStr env fs s.cfg.TargetPath 0o755).1 = none ∧
      env.fault (.stat s.sourcePath) = none ∧ ∃ t, source = some t) := by
  cases hmk : (osMkdirAllStr env fs s.cfg.TargetPath 0o755).1 with
  | some e =>
    left
    unfold Syncer.copyFiles
    rcases hm : osMkdirAllStr env fs s.cfg.TargetPath 0o755 with ⟨e1, fs1⟩
    rw [hm] at hmk
    simp only at hmk
    subst hmk
    exact ⟨by simp, Or.inr rfl⟩
  | none =>
    have hT := (osMkdirAllStr_target env fs s.cfg.TargetPath 0o755 hmk).1
    have hsplit : (∃ e, osStat env (pathString s.sourcePath) s.sourcePath source = .error e) ∨
        (env.fault (.stat s.sourcePath) = none ∧ ∃ t, source = some t) := by
      unfold osStat
      cases env.fault (.stat s.sourcePath) with
      | some e => left; exact ⟨e, rfl⟩
      | none =>
        cases source with
        | none => left; exact ⟨_, rfl⟩
        | some t => right; exact ⟨rfl, t, rfl⟩
    rcases hsplit with ⟨e, he⟩ | ⟨h1, h2⟩
    · left
      unfold Syncer.copyFiles
      rcases hm : osMkdirAllStr env fs s.cfg.TargetPath 0o755 with ⟨e1, fs1⟩
      rw [hm] at hmk
      simp only at hmk
      subst hmk
      have he' : osStat env (pathString (filepathJoin s.git.WorkDir s.cfg.SourcePath))
          (filepathJoin s.git.WorkDir s.cfg.SourcePath) source = .error e := he
      simp only [he']
      exact ⟨by simp, Or.inr trivial⟩
    · right; exact ⟨hT, rfl, h1, h2⟩

/-- A successful `copyFiles` went on to the mirror proper. -/
theorem Syncer.copyFiles_ok_inv (s : Syncer) (env : Env) (source : Option Tree) (fs : FS)
    (h : (s.copyFiles env source fs).1 = none) :
    s.cfg.TargetPath ≠ "" ∧ (osMkdirAllStr env fs s.cfg.TargetPath 0o755).1 = none ∧
      env.fault (.stat s.sourcePath) = none ∧ ∃ t, source = some t := by
  rcases Syncer.copyFiles_cases s env source fs with ⟨h1, _⟩ | h2
  · exact absurd h h1
  · exact h2

/-- A single source file is copied like a one-entry mirror. -/
theorem copyFile_Changed (ctx : WalkCtx) (sn : String) (src : Path) (t : Tree) (dn : String)
    (name : String) (fs : FS) (hd : t.IsDir = false) (q : Path) :
    (copyFile ctx.env sn src t dn (ctx.target ++ [name]) fs).2 q = fs q ∨
    Changed ctx ⟨[name], name, t⟩ fs
      (copyFile ctx.env sn src t dn (ctx.target ++ [name]) fs).2 q := by
  rcases copyFile_spec ctx.env sn src t dn (ctx.target ++ [name]) fs with
    ⟨_, h1⟩ | ⟨hnd, d, m, h1, _⟩
  · left; rw [h1]
  · by_cases hq : q = ctx.target ++ [name]
    · right; left
      refine ⟨hd, hq, ?_, d, m, ?_⟩
      · rw [hq]; exact hnd
      · rw [h1, hq]; exact FS.set_same _ _ _
    · left; rw [h1]; exact FS.set_other _ _ _ _ hq

/-- What the mirror proper does to a path, starting from the filesystem in which the
target directory has been made. -/
theorem Syncer.copyFiles_mirror_effect (s : Syncer) (env : Env) (t : Tree) (fs : FS)
    (hmk : (osMkdirAllStr env fs s.cfg.TargetPath 0o755).1 = none)
    (hst : env.fault (.stat s.sourcePath) = none) (q : Path) :
    (s.copyFiles env (some t) fs).2 q = (osMkdirAllStr env fs s.cfg.TargetPath 0o755).2 q ∨
    ∃ v ∈ s.mirrorList (some t),
      Changed (s.walkCtx env) v (osMkdirAllStr env fs s.cfg.TargetPath 0o755).2
        (s.copyFiles env (some t) fs).2 q := by
  rw [Syncer.copyFiles_eq s env t fs hmk hst]
  cases hd : t.IsDir with
  | true =>
    simp only [Syncer.mirrorList, hd, if_true]
    exact runVisits_effect (s.walkCtx env) _ _ q
  | false =>
    simp only [Syncer.mirrorList, hd, Bool.false_eq_true, if_false]
    rcases copyFile_Changed (s.walkCtx env) (pathString s.sourcePath) s.sourcePath t
      (joinName s.cfg.TargetPath [filepathBase s.sourcePath]) (filepathBase s.sourcePath)
      (osMkdirAllStr env fs s.cfg.TargetPath 0o755).2 hd q with h | h
    · left; exact h
    · right; exact ⟨_, List.mem_singleton.mpr rfl, h⟩

/-- What `copyFiles` does to a path, whatever its result: nothing, or `os.MkdirAll`
of the configured target made the path as a directory where nothing was, or the
step of one of the mirrored entries changed it. -/
theorem Syncer.copyFiles_effect (s : Syncer) (env : Env) (source : Option Tree) (fs : FS)
    (q : Path) :
    (s.copyFiles env source fs).2 q = fs q ∨
    (fs q = none ∧ (s.copyFiles env source fs).2 q = some (.dir (maskMode env 0o755)) ∧
      (".." ∉ pathElems s.cfg.TargetPath → q <+: s.targetPath env)) ∨
    ∃ v ∈ s.mirrorList source, Changed (s.walkCtx env) v fs (s.copyFiles env source fs).2 q := by
  have hmkeff : (osMkdirAllStr env fs s.cfg.TargetPath 0o755).2 q = fs q ∨
      (fs q = none ∧
        (osMkdirAllStr env fs s.cfg.TargetPath 0o755).2 q = some (.dir (maskMode env 0o755)) ∧
        (".." ∉ pathElems s.cfg.TargetPath → q <+: s.targetPath env)) := by
    rcases osMkdirAllStr_effect env fs s.cfg.TargetPath 0o755 q with h | ⟨h1, h2, _⟩
    · left; exact h
    · right
      refine ⟨h1, h2, fun hdd => ?_⟩
      rcases osMkdirAllStr_effect_plain env fs s.cfg.TargetPath 0o755 hdd q with h | ⟨_, h3, _⟩
      · rw [h, h1] at h2; cases h2
      · exact h3
  rcases Syncer.copyFiles_cases s env source fs with ⟨_, h | h⟩ | ⟨_, hmk, hst, t, rfl⟩
  · left; rw [h]
  · rw [h]
    rcases hmkeff with h1 | h1
    · left; exact h1
    · right; left; exact h1
  · rcases Syncer.copyFiles_mirror_effect s env t fs hmk hst q with h2 | ⟨v, hv, h2⟩
    · rw [h2]
      rcases hmkeff with h1 | h1
      · left; exact h1
      · right; left; exact h1
    · rcases hmkeff with h1 | ⟨_, h1, _⟩
      · right; right; exact ⟨v, hv, Changed_of_eq _ v _ _ _ q h1 h2⟩
      · exact absurd h1 ((Changed_keeps _ v _ _ _ h2).1 _)

/-! ## After a successful mirror pass -/

/-- The entries a mirror pass goes through do not lie on the way to one another. -/
theorem Syncer.mirrorList_pairwise (s : Syncer) (t : Tree) (hwf : Tree.WF t) :
    (s.mirrorList (some t)).Pairwise (fun u w => ¬ w.rel <+: u.rel) := by
  unfold Syncer.mirrorList
  simp only
  split
  · exact (Tree.entries_pairwise t [] _ hwf).sublist (Tree.visits_sublist t [] _)
  · exact List.pairwise_singleton _ _

/-- A directory stays what it is under `copyFiles`. -/
theorem Syncer.copyFiles_keeps_dir (s : Syncer) (env : Env) (source : Option Tree) (fs : FS)
    (q : Path) (m : FileMode) (h : fs q = some (.dir m)) :
    (s.copyFiles env source fs).2 q = some (.dir m) := by
  rcases Syncer.copyFiles_effect s env source fs q with h1 | ⟨h1, _⟩ | ⟨v, _, hc⟩
  · rw [h1, h]
  · rw [h] at h1; cases h1
  · exact absurd h ((Changed_keeps _ v _ _ _ hc).1 m)

/-- After a successful `copyFiles` the configured target resolves to a directory, at
the cleaned target path. -/
theorem Syncer.copyFiles_lookup (s : Syncer) (env : Env) (t : Tree) (fs : FS)
    (hok : (s.copyFiles env (some t) fs).1 = none) :
    ∃ m, lookup env (s.copyFiles env (some t) fs).2 (pathElems s.cfg.TargetPath)
      = .found (s.targetPath env) (.dir m) := by
  obtain ⟨_, hmk, hst, _⟩ := Syncer.copyFiles_ok_inv s env (some t) fs hok
  obtain ⟨_, m, hm, _⟩ := osMkdirAllStr_target env fs s.cfg.TargetPath 0o755 hmk
  refine ⟨m, lookup_keeps env _ _ (fun q mq hq => ?_) _ _ _ hm⟩
  rcases Syncer.copyFiles_mirror_effect s env t fs hmk hst q with h | ⟨v, _, hc⟩
  · rw [h, hq]
  · exact absurd hq ((Changed_keeps _ v _ _ _ hc).1 mq)

/-- After a successful `copyFiles` the target is a directory, every entry the pass
went through is mirrored, and a directory that was not there once the target had
been made has the entry's mode minus the umask. -/
theorem Syncer.copyFiles_post (s : Syncer) (env : Env) (t : Tree) (fs : FS) (hwf : Tree.WF t)
    (hok : (s.copyFiles env (some t) fs).1 = none) :
    (∃ m, (s.copyFiles env (some t) fs).2 (s.targetPath env) = some (.dir m)) ∧
    ∀ v ∈ s.mirrorList (some t),
      Mirrored (s.walkCtx env) v (s.copyFiles env (some t) fs).2 ∧
      (v.node.IsDir = true → v.name ≠ ".git" →
        (osMkdirAllStr env fs s.cfg.TargetPath 0o755).2 (s.targetPath env ++ v.rel) = none →
        (s.copyFiles env (some t) fs).2 (s.targetPath env ++ v.rel)
          = some (.dir (maskMode env v.node.Mode))) := by
  obtain ⟨_, hmk, hst, _⟩ := Syncer.copyFiles_ok_inv s env (some t) fs hok
  have hpw := Syncer.mirrorList_pairwise s t hwf
  constructor
  · obtain ⟨m, hm⟩ := Syncer.copyFiles_lookup s env t fs hok
    exact ⟨m, ((lookup_spec env _ _).1 _ _ hm).1⟩
  · rw [Syncer.copyFiles_eq s env t fs hmk hst] at hok ⊢
    cases hd : t.IsDir with
    | true =>
      simp only [Syncer.mirrorList, hd, if_true] at hok hpw ⊢
      exact runVisits_post (s.walkCtx env) _ _ hpw hok
    | false =>
      simp only [Syncer.mirrorList, hd, Bool.false_eq_true, if_false] at hok ⊢
      intro v hv
      rw [List.mem_singleton] at hv
      subst hv
      rcases copyFile_spec env (pathString s.sourcePath) s.sourcePath t
          (joinName s.cfg.TargetPath [filepathBase s.sourcePath])
          (s.targetPath env ++ [filepathBase s.sourcePath])
          (osMkdirAllStr env fs s.cfg.TargetPath 0o755).2 with ⟨h1, _⟩ | ⟨_, d, m, h2, h3⟩
      · exact absurd hok h1
      · have hnode := h3 hok
        subst hnode
        constructor
        · unfold Mirrored
          simp only
          rw [h2]
          exact FS.set_same _ _ _
        · intro hdir
          simp only [hd] at hdir
          cases hdir

/-! ## A second pass over a mirrored source -/

/-- Over an existing file that the process may open for writing, `copyFile` succeeds
when no system call fails. -/
theorem copyFile_ok_nofault (env : Env) (sn dn : String) (src dst : Path) (d d0 : List Byte)
    (m m0 : FileMode) (fs : FS) (hf : env.fault = fun _ => none)
    (h : fs dst = some (.file d0 m0))
    (hperm : env.privileged = true ∨ m0 &&& 0o600 = 0o600) :
    (copyFile env sn src (.file d m) dn dst fs).1 = none := by
  have hp : (env.privileged = true ∨ m0 &&& 384 = 384) := hperm
  simp [copyFile, osCreate, osStat, osChmod, writeData, hf, h, FS.set_same, hp]

theorem visitOne_ok_nofault (ctx : WalkCtx) (v : Visit) (fs : FS)
    (hf : ctx.env.fault = fun _ => none) (hm : Mirrored ctx v fs)
    (hperm : ∀ d m, v.node = .file d m → ctx.env.privileged = true ∨ m &&& 0o600 = 0o600) :
    ∀ e, (visitOne ctx v fs).1 ≠ some (.err e) := by
  intro e
  unfold visitOne
  simp only [hf, ite_self]
  unfold Mirrored at hm
  cases hnode : v.node with
  | file d m =>
    rw [hnode] at hm
    simp only at hm
    rw [walkFn_file ctx _ _ (Tree.file d m) fs rfl]
    simp [walkResult, copyFile_ok_nofault ctx.env _ _ _ _ d d m m fs hf hm (hperm d m hnode)]
  | dir m kids =>
    rw [hnode] at hm
    simp only at hm
    by_cases hn : v.name = ".git"
    · rw [walkFn_skip ctx _ _ (Tree.dir m kids) fs rfl hn]
      simp
    · rcases hm with hm | ⟨m', hm'⟩
      · exact absurd hm hn
      · rw [walkFn_dir ctx _ _ (Tree.dir m kids) fs rfl hn,
          osMkdirAll_of_dir ctx.env _ fs _ _ m' hm']
        simp [walkResult]

/-- Without injected failures a run over mirrored entries, whose files the process
may open for writing, reports no error. -/
theorem runVisits_ok_nofault (ctx : WalkCtx) (vs : List Visit) (fs : FS)
    (hf : ctx.env.fault = fun _ => none) (hm : ∀ v ∈ vs, Mirrored ctx v fs)
    (hperm : ∀ v ∈ vs, ∀ d m, v.node = .file d m →
      ctx.env.privileged = true ∨ m &&& 0o600 = 0o600) :
    (runVisits ctx vs fs).1 = none := by
  induction vs with
  | nil => rfl
  | cons u rest ih =>
    have hstep := visitOne_ok_nofault ctx u fs hf (hm u (List.mem_cons_self _ _))
      (hperm u (List.mem_cons_self _ _))
    rw [runVisits_cons_ok ctx u _ fs hstep,
      visitOne_idem ctx u fs (hm u (List.mem_cons_self _ _)) hstep]
    exact ih (fun v hv => hm v (List.mem_cons_of_mem _ hv))
      (fun v hv => hperm v (List.mem_cons_of_mem _ hv))

theorem Mirrored_of_target (ctx ctx1 : WalkCtx) (v : Visit) (fs : FS)
    (h : ctx1.target = ctx.target) (hm : Mirrored ctx v fs) : Mirrored ctx1 v fs := by
  unfold Mirrored at hm ⊢
  rw [h]
  exact hm

/-- A second `copyFiles` from the same source onto the result of a successful one:
when it succeeds it changes nothing, and it succeeds when no system call fails and
the process may open for writing every file it mirrors. -/
theorem Syncer.copyFiles_again (s : Syncer) (env env1 : Env) (t : Tree) (fs : FS)
    (hwf : Tree.WF t) (hcwd : env1.cwd = env.cwd)
    (hok : (s.copyFiles env (some t) fs).1 = none) :
    ((s.copyFiles env1 (some t) (s.copyFiles env (some t) fs).2).1 = none →
      (s.copyFiles env1 (some t) (s.copyFiles env (some t) fs).2).2
        = (s.copyFiles env (some t) fs).2) ∧
    ((env1.fault = fun _ => none) →
      (∀ v ∈ s.mirrorList (some t), ∀ d m, v.node = .file d m →
        env1.privileged = true ∨ m &&& 0o600 = 0o600) →
      (s.copyFiles env1 (some t) (s.copyFiles env (some t) fs).2).1 = none) := by
  obtain ⟨_, hpost⟩ := Syncer.copyFiles_post s env t fs hwf hok
  obtain ⟨m0, hm0⟩ := Syncer.copyFiles_lookup s env t fs hok
  have htp : s.targetPath env1 = s.targetPath env := by
    unfold Syncer.targetPath; rw [hcwd]
  have hmir : ∀ v ∈ s.mirrorList (some t),
      Mirrored (s.walkCtx env1) v (s.copyFiles env (some t) fs).2 := fun v hv =>
    Mirrored_of_target (s.walkCtx env) _ v _ htp (hpost v hv).1
  have hmk := osMkdirAllStr_of_dir env1 (s.copyFiles env (some t) fs).2 s.cfg.TargetPath 0o755
    _ m0 (by rw [lookup_cwd env env1 _ _ hcwd]; exact hm0)
  have hmk1 : (osMkdirAllStr env1 (s.copyFiles env (some t) fs).2 s.cfg.TargetPath 0o755).1
      = none := by rw [hmk]
  have hrun : ∀ (hst : env1.fault (.stat s.sourcePath) = none),
      s.copyFiles env1 (some t) (s.copyFiles env (some t) fs).2 =
        if t.IsDir then
          runVisits (s.walkCtx env1) (Tree.visits [] (filepathBase s.sourcePath) t)
            (s.copyFiles env (some t) fs).2
        else
          copyFile env1 (pathString s.sourcePath) s.sourcePath t
            (joinName s.cfg.TargetPath [filepathBase s.sourcePath])
            (s.targetPath env1 ++ [filepathBase s.sourcePath])
            (s.copyFiles env (some t) fs).2 := by
    intro hst
    rw [Syncer.copyFiles_eq s env1 t _ hmk1 hst, hmk]
  constructor
  · intro hok1
    obtain ⟨_, _, hst, _⟩ := Syncer.copyFiles_ok_inv s env1 (some t) _ hok1
    rw [hrun hst] at hok1 ⊢
    cases hd : t.IsDir with
    | true =>
      simp only [Syncer.mirrorList, hd, if_true] at hok1 hmir ⊢
      exact runVisits_idem (s.walkCtx env1) _ _ hmir hok1
    | false =>
      simp only [Syncer.mirrorList, hd, Bool.false_eq_true, if_false] at hok1 hmir ⊢
      have hm1 := hmir _ (List.mem_singleton.mpr rfl)
      rcases copyFile_spec env1 (pathString s.sourcePath) s.sourcePath t
          (joinName s.cfg.TargetPath [filepathBase s.sourcePath])
          (s.targetPath env1 ++ [filepathBase s.sourcePath])
          (s.copyFiles env (some t) fs).2 with ⟨h1, _⟩ | ⟨_, d, m, h2, h3⟩
      · exact absurd hok1 h1
      · have hnode := h3 hok1
        subst hnode
        unfold Mirrored at hm1
        simp only at hm1
        rw [h2]
        exact FS.set_eq_self _ _ _ hm1
  · intro hf hperm
    have hst : env1.fault (.stat s.sourcePath) = none := by rw [hf]
    rw [hrun hst]
    cases hd : t.IsDir with
    | true =>
      simp only [Syncer.mirrorList, hd, if_true] at hmir hperm ⊢
      exact runVisits_ok_nofault (s.walkCtx env1) _ _ hf hmir hperm
    | false =>
      simp only [Syncer.mirrorList, hd, Bool.false_eq_true, if_false] at hmir hperm ⊢
      have hm1 := hmir _ (List.mem_singleton.mpr rfl)
      have hp1 := hperm _ (List.mem_singleton.mpr rfl)
      unfold Mirrored at hm1
      cases t with
      | dir m kids => cases hd
      | file d m =>
        simp only at hm1
        exact copyFile_ok_nofault env1 _ _ _ _ d d m m _ hf hm1 (hp1 d m rfl)

/-- A call of `Sync` that returns nil had a successful mirror pass. -/
theorem Syncer.Sync_nil_copy (s : Syncer) (c : Cycle) (fs : FS) (h : (s.Sync c fs).1 = .nil) :
    (s.copyFiles c.env c.source fs).1 = none := by
  rcases hg : (s.git.Sync c.git).1 with e | r
  · rw [Syncer.Sync_eq_git_error s c fs e hg] at h; cases h
  · rcases hc : (s.copyFiles c.env c.source fs).1 with _ | e
    · rfl
    · rw [Syncer.Sync_eq_copy_error s c fs r e hg hc] at h; cases h

theorem demoTree_WF : Tree.WF demoTree := by
  simp [demoTree, Tree.WF, Forest.WF, Forest.names]

/-! ## Claims about the mirror -/

theorem append_prefix_self (T p : Path) (h : T ++ p <+: T) : p = [] := by
  have := h.length_le
  simp only [List.length_append] at this
  exact List.length_eq_zero.mp (by omega)

/-- C9: `copyFiles` is additive, whether it succeeds or fails.  A path that holds
something before the call holds something of the same kind after it, a directory
exactly what it held; and unless the path is the destination of a file the pass
goes through (the target joined with the file's relative path), it holds exactly
what it held before: same bytes, same permission bits. -/
theorem Syncer.copyFiles_additive (s : Syncer) (env : Env) (source : Option Tree) (fs : FS)
    (q : Path) (e : Entry) (hq : fs q = some e) :
    (∃ e1, (s.copyFiles env source fs).2 q = some e1 ∧ e1.isDir = e.isDir ∧
      (e.isDir = true → e1 = e)) ∧
    ((∀ v ∈ s.mirrorList source, v.node.IsDir = false → q ≠ s.targetPath env ++ v.rel) →
      (s.copyFiles env source fs).2 q = some e) := by
  rcases Syncer.copyFiles_effect s env source fs q with h | ⟨h, _⟩ | ⟨v, hv, hc⟩
  · rw [h, hq]
    exact ⟨⟨e, rfl, rfl, fun _ => rfl⟩, fun _ => rfl⟩
  · rw [hq] at h; cases h
  · unfold Changed at hc
    rcases hc with ⟨hd, hqv, hnd, d, m, hf⟩ | ⟨_, _, hn, _⟩
    · constructor
      · refine ⟨.file d m, hf, ?_, ?_⟩
        · cases e with
          | file d0 m0 => rfl
          | dir m0 => exact absurd hq (hnd m0)
        · intro hdir
          cases e with
          | file d0 m0 => cases hdir
          | dir m0 => exact absurd hq (hnd m0)
      · intro hall
        exact absurd hqv (hall v hv hd)
    · rw [hq] at hn; cases hn

theorem Syncer.copyFiles_additive_witness :
    demoFSOld ["data", "out", "old.txt"] = some (.file [7] 0o600) ∧
    (demoSyncer.copyFiles demoEnv (some demoTree) demoFSOld).2 ["data", "out", "old.txt"]
      = some (.file [7] 0o600) :=
  ⟨rfl, (Syncer.copyFiles_additive demoSyncer demoEnv (some demoTree) demoFSOld
    ["data", "out", "old.txt"] (.file [7] 0o600) rfl).2 (by decide)⟩

/-- C8, the claim as written fails: with the target path /data/out/x/.. a
successful `copyFiles` of a single file has also made the directory x below the
target /data/out, where nothing was. -/
theorem Syncer.copyFiles_single_file_counterexample :
    ¬ (∀ (s : Syncer) (env : Env) (d : List Byte) (m : FileMode) (fs : FS),
        (s.copyFiles env (some (.file d m)) fs).1 = none →
        ∀ p, p ≠ [] → p ≠ [filepathBase s.sourcePath] →
          (s.copyFiles env (some (.file d m)) fs).2 (s.targetPath env ++ p)
            = fs (s.targetPath env ++ p)) := by
  intro h
  have h1 := h (demoSyncerFileTo "/data/out/x/..") demoEnv [3] 0o444 demoFS (by decide) ["x"]
    (by decide) (by decide)
  revert h1
  decide

/-- C8, amended: when the resolved source path holds a single regular file and
`copyFiles` succeeds, the target path joined with the base name of the source path
holds a file with the bytes and permission bits of the source file; every other
path holds what it held before or a directory that `os.MkdirAll` of the configured
target path has made where nothing was; and when no segment of the configured
target path is two dots, these directories lie on the way to the target, so that
nothing else below the target is created or modified. -/
theorem Syncer.copyFiles_single_file (s : Syncer) (env : Env) (d : List Byte) (m : FileMode)
    (fs : FS) (hok : (s.copyFiles env (some (.file d m)) fs).1 = none) :
    (s.copyFiles env (some (.file d m)) fs).2 (s.targetPath env ++ [filepathBase s.sourcePath])
      = some (.file d m) ∧
    (∀ q, q ≠ s.targetPath env ++ [filepathBase s.sourcePath] →
      (s.copyFiles env (some (.file d m)) fs).2 q = fs q ∨
      (fs q = none ∧
        (s.copyFiles env (some (.file d m)) fs).2 q = some (.dir (maskMode env 0o755)) ∧
        (".." ∉ pathElems s.cfg.TargetPath → q <+: s.targetPath env))) ∧
    (".." ∉ pathElems s.cfg.TargetPath →
      ∀ p, p ≠ [] → p ≠ [filepathBase s.sourcePath] →
        (s.copyFiles env (some (.file d m)) fs).2 (s.targetPath env ++ p)
          = fs (s.targetPath env ++ p)) := by
  have hlist : s.mirrorList (some (.file d m))
      = [⟨[filepathBase s.sourcePath], filepathBase s.sourcePath, .file d m⟩] := by
    simp [Syncer.mirrorList, Tree.IsDir]
  have hframe : ∀ q, q ≠ s.targetPath env ++ [filepathBase s.sourcePath] →
      (s.copyFiles env (some (.file d m)) fs).2 q = fs q ∨
      (fs q = none ∧
        (s.copyFiles env (some (.file d m)) fs).2 q = some (.dir (maskMode env 0o755)) ∧
        (".." ∉ pathElems s.cfg.TargetPath → q <+: s.targetPath env)) := by
    intro q hq
    rcases Syncer.copyFiles_effect s env (some (.file d m)) fs q with h | h | ⟨v, hv, hc⟩
    · exact Or.inl h
    · exact Or.inr h
    · rw [hlist, List.mem_singleton] at hv
      subst hv
      unfold Changed at hc
      rcases hc with ⟨_, hqv, _⟩ | ⟨hd, _⟩
      · exact absurd hqv hq
      · cases hd
  refine ⟨?_, hframe, fun hdd p hp hne => ?_⟩
  · have hwf : Tree.WF (.file d m) := by simp [Tree.WF]
    obtain ⟨_, hpost⟩ := Syncer.copyFiles_post s env (.file d m) fs hwf hok
    have := (hpost _ (by rw [hlist]; exact List.mem_singleton.mpr rfl)).1
    unfold Mirrored at this
    exact this
  · rcases hframe (s.targetPath env ++ p) (fun h => hne (List.append_cancel_left h)) with
      h | ⟨_, _, h⟩
    · exact h
    · exact absurd (append_prefix_self _ _ (h hdd)) hp

theorem Syncer.copyFiles_single_file_witness :
    (demoSyncerFile.copyFiles demoEnv (some (.file [3] 0o444)) demoFS).1 = none ∧
    (demoSyncerFile.copyFiles demoEnv (some (.file [3] 0o444)) demoFS).2
      (demoSyncerFile.targetPath demoEnv ++ [filepathBase demoSyncerFile.sourcePath])
      = some (.file [3] 0o444) :=
  ⟨by decide, (Syncer.copyFiles_single_file demoSyncerFile demoEnv [3] 0o444 demoFS
    (by decide)).1⟩

theorem prefix_dropLast_of_ne (a b : Path) (h : a <+: b) (hne : a ≠ b) : a <+: b.dropLast := by
  obtain ⟨c, rfl⟩ := h
  have hc : c ≠ [] := by
    intro hc; subst hc; simp at hne
  rw [List.dropLast_append_of_ne_nil _ hc]
  exact List.prefix_append _ _

theorem mem_dropLast_of_prefix (a b : Path) (x : String) (h : a <+: b) (hne : a ≠ b)
    (hx : a.getLast? = some x) : x ∈ b.dropLast :=
  (prefix_dropLast_of_ne a b h hne).subset (List.mem_of_getLast?_eq_some hx)

/-- In a well-formed tree two entries with the same relative path are one entry. -/
theorem Tree.entries_rel_inj (t : Tree) (rel : Path) (name : String) (hwf : Tree.WF t)
    (u w : Visit) (hu : u ∈ Tree.entries rel name t) (hw : w ∈ Tree.entries rel name t)
    (h : u.rel = w.rel) : u = w := by
  by_contra hne
  have hpw : (Tree.entries rel name t).Pairwise (fun a b => a.rel ≠ b.rel) :=
    (Tree.entries_pairwise t rel name hwf).imp (fun hab heq => hab (by rw [heq]))
  exact (hpw.forall (fun _ _ hab => Ne.symm hab)) hu hw hne h

/-- A visited entry that is not a skipped directory does not lie at or below a
directory named `.git`. -/
theorem Tree.visits_not_below_git (t : Tree) (name : String) (hwf : Tree.WF t) (g v : Visit)
    (hg : g ∈ Tree.entries [] name t) (hgd : g.node.IsDir = true) (hgn : g.name = ".git")
    (hv : v ∈ Tree.visits [] name t) (hvs : v.node.IsDir = false ∨ v.name ≠ ".git")
    (hpre : g.rel <+: v.rel) : False := by
  have hve : v ∈ Tree.entries [] name t := (Tree.visits_sublist t [] name).subset hv
  rcases Tree.entries_shape t [] name g hg with hgroot | ⟨n, p, hgrel, hglast⟩
  · -- the root itself is named `.git`
    subst hgroot
    simp only at hgd hgn
    rcases Tree.visits_shape t [] name v hv with hvroot | ⟨hname, _⟩
    · subst hvroot
      simp only at hvs
      rcases hvs with h | h
      · rw [hgd] at h; cases h
      · exact h hgn
    · exact hname hgn
  · simp only [List.nil_append] at hgrel
    rw [hgn] at hglast
    rcases Tree.visits_shape t [] name v hv with hvroot | ⟨_, n1, p1, hvrel, hvis⟩
    · subst hvroot
      simp only at hpre
      rw [hgrel] at hpre
      have := hpre.length_le
      simp at this
    · simp only [List.nil_append] at hvrel
      by_cases heq : g.rel = v.rel
      · have hgv : g = v := Tree.entries_rel_inj t [] name hwf g v hg hve heq
        subst hgv
        rcases hvs with h | h
        · rw [hgd] at h; cases h
        · exact h hgn
      · apply hvis
        rw [← hvrel]
        exact mem_dropLast_of_prefix g.rel v.rel ".git" hpre heq (by rw [hgrel]; exact hglast)

/-- C7, the claim as written fails: with the target path /data/out/.git/.. a
`copyFiles` of a directory has made a directory named .git below the target
/data/out, where nothing was. -/
theorem Syncer.copyFiles_skips_git_counterexample :
    ¬ (∀ (s : Syncer) (env : Env) (t : Tree) (fs : FS), t.IsDir = true → Tree.WF t →
        ∀ p m, p ≠ [] → p.getLast? = some ".git" →
          (s.copyFiles env (some t) fs).2 (s.targetPath env ++ p) = some (.dir m) →
          fs (s.targetPath env ++ p) = some (.dir m)) := by
  intro h
  have h1 := h (demoSyncerTo "/data/out/.git/..") demoEnv demoTree demoFS rfl demoTree_WF
    [".git"] 0o755 (by decide) (by decide) (by decide)
  revert h1
  decide

/-- C7, amended: for every source directory tree (no directory of which lists a
name twice) the walk of `copyFiles`, whether it succeeds or fails, skips every
directory named `.git`, at any depth, with all that is below it: a path below the
target at or below the place of such a directory holds what it held before, and a
directory named `.git` below the target was there before; the one exception is a
directory that `os.MkdirAll` has made, with mode 0755 minus the umask and where
nothing was, while making a configured target path that has a segment of two
dots. -/
theorem Syncer.copyFiles_skips_git (s : Syncer) (env : Env) (t : Tree) (fs : FS)
    (ht : t.IsDir = true) (hwf : Tree.WF t) :
    (∀ g ∈ Tree.entries [] (filepathBase s.sourcePath) t,
      g.node.IsDir = true → g.name = ".git" → ∀ p, g.rel ++ p ≠ [] →
        (s.copyFiles env (some t) fs).2 (s.targetPath env ++ (g.rel ++ p))
          = fs (s.targetPath env ++ (g.rel ++ p)) ∨
        (".." ∈ pathElems s.cfg.TargetPath ∧ fs (s.targetPath env ++ (g.rel ++ p)) = none ∧
          (s.copyFiles env (some t) fs).2 (s.targetPath env ++ (g.rel ++ p))
            = some (.dir (maskMode env 0o755)))) ∧
    (∀ p m, p ≠ [] → p.getLast? = some ".git" →
      (s.copyFiles env (some t) fs).2 (s.targetPath env ++ p) = some (.dir m) →
      fs (s.targetPath env ++ p) = some (.dir m) ∨
      (".." ∈ pathElems s.cfg.TargetPath ∧ fs (s.targetPath env ++ p) = none ∧
        m = maskMode env 0o755)) := by
  have hlist : s.mirrorList (some t) = Tree.visits [] (filepathBase s.sourcePath) t := by
    simp [Syncer.mirrorList, ht]
  have hmade : ∀ p, p ≠ [] →
      (".." ∉ pathElems s.cfg.TargetPath → s.targetPath env ++ p <+: s.targetPath env) →
      ".." ∈ pathElems s.cfg.TargetPath := by
    intro p hp h
    by_contra hdd
    exact hp (append_prefix_self _ _ (h hdd))
  constructor
  · intro g hg hgd hgn p hp
    rcases Syncer.copyFiles_effect s env (some t) fs (s.targetPath env ++ (g.rel ++ p)) with
      h | ⟨h1, h2, h3⟩ | ⟨v, hv, hc⟩
    · exact Or.inl h
    · exact Or.inr ⟨hmade _ hp h3, h1, h2⟩
    · exfalso
      rw [hlist] at hv
      unfold Changed at hc
      rcases hc with ⟨hd, hq, _⟩ | ⟨_, hn, _, hq, _⟩
      · have hrel : g.rel ++ p = v.rel := List.append_cancel_left hq
        exact Tree.visits_not_below_git t _ hwf g v hg hgd hgn hv (Or.inl hd)
          (by rw [← hrel]; exact List.prefix_append _ _)
      · have hrel : g.rel ++ p <+: v.rel := (List.prefix_append_right_inj _).mp hq
        exact Tree.visits_not_below_git t _ hwf g v hg hgd hgn hv (Or.inr hn)
          ((List.prefix_append _ _).trans hrel)
  · intro p m hp hlast hdir
    rcases Syncer.copyFiles_effect s env (some t) fs (s.targetPath env ++ p) with
      h | ⟨h1, h2, h3⟩ | ⟨v, hv, hc⟩
    · left; rw [← h]; exact hdir
    · right
      rw [h2] at hdir
      cases hdir
      exact ⟨hmade _ hp h3, h1, rfl⟩
    · exfalso
      rw [hlist] at hv
      have hve : v ∈ Tree.entries [] (filepathBase s.sourcePath) t :=
        (Tree.visits_sublist t [] _).subset hv
      unfold Changed at hc
      rcases hc with ⟨_, _, _, d, m1, hf⟩ | ⟨_, hn, _, hq, _⟩
      · rw [hf] at hdir; cases hdir
      · have hrel : p <+: v.rel := (List.prefix_append_right_inj _).mp hq
        rcases Tree.visits_shape t [] _ v hv with hvroot | ⟨_, n1, p1, hvrel, hvis⟩
        · subst hvroot
          simp only at hrel
          exact hp (List.prefix_nil.mp hrel)
        · simp only [List.nil_append] at hvrel
          by_cases heq : p = v.rel
          · rcases Tree.entries_shape t [] _ v hve with hvroot | ⟨n2, p2, hvrel2, hvlast⟩
            · subst hvroot
              simp only at hvrel
              cases hvrel
            · simp only [List.nil_append] at hvrel2
              rw [← hvrel2, ← heq, hlast] at hvlast
              exact hn (Option.some.inj hvlast).symm
          · apply hvis
            rw [← hvrel]
            exact mem_dropLast_of_prefix p v.rel ".git" hrel heq hlast

theorem Syncer.copyFiles_skips_git_witness :
    demoTree.IsDir = true ∧ Tree.WF demoTree ∧
    (demoSyncer.copyFiles demoEnv (some demoTree) demoFS).2
        (demoSyncer.targetPath demoEnv ++ ([".git"] ++ ["HEAD"]))
      = demoFS (demoSyncer.targetPath demoEnv ++ ([".git"] ++ ["HEAD"])) :=
  ⟨rfl, demoTree_WF,
    ((Syncer.copyFiles_skips_git demoSyncer demoEnv demoTree demoFS rfl demoTree_WF).1
      ⟨[".git"], ".git", .dir 0o700 (.cons "HEAD" (.file [1] 0o644) .nil)⟩
      (by simp [demoTree, Tree.entries, Forest.entries]) rfl rfl ["HEAD"] (by simp)).resolve_right
      (fun h => absurd h.1 (by decide))⟩

/-- Below a target that was empty or absent, `copyFiles` from a directory leaves
something only at the places of source entries. -/
theorem Syncer.copyFiles_present (s : Syncer) (env : Env) (t : Tree) (fs : FS)
    (ht : t.IsDir = true) (hdd : ".." ∉ pathElems s.cfg.TargetPath)
    (hempty : ∀ p, p ≠ [] → fs (s.targetPath env ++ p) = none) (p : Path)
    (h : (s.copyFiles env (some t) fs).2 (s.targetPath env ++ p) ≠ none) :
    ∃ v ∈ Tree.entries [] (filepathBase s.sourcePath) t, v.rel = p := by
  obtain ⟨tl, htl⟩ := Tree.entries_head [] (filepathBase s.sourcePath) t
  have hroot : (⟨[], filepathBase s.sourcePath, t⟩ : Visit)
      ∈ Tree.entries [] (filepathBase s.sourcePath) t := by
    rw [htl]; exact List.mem_cons_self _ _
  by_cases hp : p = []
  · exact ⟨_, hroot, hp.symm⟩
  · have hlist : s.mirrorList (some t) = Tree.visits [] (filepathBase s.sourcePath) t := by
      simp [Syncer.mirrorList, ht]
    rcases Syncer.copyFiles_effect s env (some t) fs (s.targetPath env ++ p) with
      h1 | ⟨_, _, h1⟩ | ⟨v, hv, hc⟩
    · rw [h1, hempty p hp] at h; exact absurd rfl h
    · exact absurd (append_prefix_self _ _ (h1 hdd)) hp
    · rw [hlist] at hv
      have hve := (Tree.visits_sublist t [] (filepathBase s.sourcePath)).subset hv
      unfold Changed at hc
      rcases hc with ⟨_, hq, _⟩ | ⟨_, _, _, hq, _⟩
      · exact ⟨v, hve, (List.append_cancel_left hq).symm⟩
      · exact Tree.entries_closed t [] _ v p hve List.nil_prefix
          ((List.prefix_append_right_inj _).mp hq)

/-- C6, the claim as written fails: with the target path /data/out/x/.. a
successful `copyFiles` of a tree with two directories into a target below which
nothing existed leaves three directories at or below the target, the third being
the directory x that `os.MkdirAll` has made on its way. -/
theorem Syncer.copyFiles_roundtrip_counterexample :
    (demoSyncerTo "/data/out/x/..").targetPath demoEnv = ["data", "out"] ∧
    (∀ p, p ≠ [] → demoFS (["data", "out"] ++ p) = none) ∧
    ((demoSyncerTo "/data/out/x/..").copyFiles demoEnv (some demoTreePlain) demoFS).1 = none ∧
    ((Tree.entries [] "docs" demoTreePlain).filter (fun v => v.node.IsDir)).length = 2 ∧
    ¬ (∃ dirs : List Path, dirs.Nodup ∧ dirs.length = 2 ∧
        ∀ p, p ∈ dirs ↔ ∃ m,
          ((demoSyncerTo "/data/out/x/..").copyFiles demoEnv (some demoTreePlain) demoFS).2
            (["data", "out"] ++ p) = some (.dir m)) := by
  refine ⟨by decide, fun p hp => by simp [demoFS], by decide, by decide, ?_⟩
  rintro ⟨dirs, hnd, hlen, hiff⟩
  have h0 : ([] : Path) ∈ dirs := (hiff []).mpr ⟨0o755, by decide⟩
  have h1 : ["a"] ∈ dirs := (hiff ["a"]).mpr ⟨0o700, by decide⟩
  have h2 : ["x"] ∈ dirs := (hiff ["x"]).mpr ⟨0o755, by decide⟩
  have hsub : [([] : Path), ["a"], ["x"]] ⊆ dirs := by
    intro q hq
    simp only [List.mem_cons, List.mem_singleton, List.not_mem_nil, or_false] at hq
    rcases hq with rfl | rfl | rfl
    · exact h0
    · exact h1
    · exact h2
  have hle := (List.subperm_of_subset (by decide) hsub).length_le
  rw [hlen] at hle
  simp at hle

/-- C6, amended: a source directory tree with `N` files and `M` directories (the
root included), no directory of which is named `.git` or lists a name twice,
mirrored by a successful `copyFiles` into a target below which nothing existed,
the configured target path having no segment of two dots: afterwards the paths
below the target that hold a file are exactly `N` relative paths, those that hold a
directory exactly `M` (the target itself included), they are the relative paths of
the source files and directories, and each file has the bytes and the permission
bits of its source file. -/
theorem Syncer.copyFiles_roundtrip (s : Syncer) (env : Env) (t : Tree) (fs : FS) (N M : Nat)
    (ht : t.IsDir = true) (hwf : Tree.WF t)
    (hnogit : ∀ v ∈ Tree.entries [] (filepathBase s.sourcePath) t,
      v.node.IsDir = true → v.name ≠ ".git")
    (hN : ((Tree.entries [] (filepathBase s.sourcePath) t).filter
      (fun v => !v.node.IsDir)).length = N)
    (hM : ((Tree.entries [] (filepathBase s.sourcePath) t).filter
      (fun v => v.node.IsDir)).length = M)
    (hdd : ".." ∉ pathElems s.cfg.TargetPath)
    (hempty : ∀ p, p ≠ [] → fs (s.targetPath env ++ p) = none)
    (hok : (s.copyFiles env (some t) fs).1 = none) :
    ∃ files dirs : List Path, files.Nodup ∧ dirs.Nodup ∧ files.length = N ∧ dirs.length = M ∧
      (∀ p, p ∈ files ↔
        ∃ d m, (s.copyFiles env (some t) fs).2 (s.targetPath env ++ p) = some (.file d m)) ∧
      (∀ p, p ∈ dirs ↔
        ∃ m, (s.copyFiles env (some t) fs).2 (s.targetPath env ++ p) = some (.dir m)) ∧
      (∀ v ∈ Tree.entries [] (filepathBase s.sourcePath) t, ∀ d m, v.node = .file d m →
        v.rel ∈ files ∧
        (s.copyFiles env (some t) fs).2 (s.targetPath env ++ v.rel) = some (.file d m)) ∧
      (∀ v ∈ Tree.entries [] (filepathBase s.sourcePath) t, v.node.IsDir = true →
        v.rel ∈ dirs) := by
  have hvis : Tree.visits [] (filepathBase s.sourcePath) t
      = Tree.entries [] (filepathBase s.sourcePath) t := by
    apply Tree.visits_eq_entries
    intro v hv
    cases hd : v.node.IsDir with
    | false => simp [Visit.skipped, hd]
    | true => simp [Visit.skipped, hd, hnogit v hv hd]
  have hlist : s.mirrorList (some t) = Tree.entries [] (filepathBase s.sourcePath) t := by
    rw [← hvis]; simp [Syncer.mirrorList, ht]
  obtain ⟨_, hpost⟩ := Syncer.copyFiles_post s env t fs hwf hok
  rw [hlist] at hpost
  have hfile : ∀ v ∈ Tree.entries [] (filepathBase s.sourcePath) t, ∀ d m,
      v.node = .file d m →
      (s.copyFiles env (some t) fs).2 (s.targetPath env ++ v.rel) = some (.file d m) := by
    intro v hv d m hnode
    have := (hpost v hv).1
    unfold Mirrored at this
    rw [hnode] at this
    exact this
  have hdir : ∀ v ∈ Tree.entries [] (filepathBase s.sourcePath) t, v.node.IsDir = true →
      ∃ m, (s.copyFiles env (some t) fs).2 (s.targetPath env ++ v.rel) = some (.dir m) := by
    intro v hv hd
    have := (hpost v hv).1
    unfold Mirrored at this
    cases hnode : v.node with
    | file d m => rw [hnode] at hd; cases hd
    | dir m kids =>
      rw [hnode] at this
      simp only at this
      rcases this with h | h
      · exact absurd h (hnogit v hv hd)
      · exact h
  have hnodup : ((Tree.entries [] (filepathBase s.sourcePath) t).map Visit.rel).Nodup := by
    rw [List.Nodup, List.pairwise_map]
    exact (Tree.entries_pairwise t [] _ hwf).imp (fun hab heq => hab (by rw [heq]))
  refine ⟨((Tree.entries [] (filepathBase s.sourcePath) t).filter
      (fun v => !v.node.IsDir)).map Visit.rel,
    ((Tree.entries [] (filepathBase s.sourcePath) t).filter
      (fun v => v.node.IsDir)).map Visit.rel,
    hnodup.sublist ((List.filter_sublist _).map _),
    hnodup.sublist ((List.filter_sublist _).map _),
    by rw [List.length_map, hN], by rw [List.length_map, hM], ?_, ?_, ?_, ?_⟩
  · intro p
    constructor
    · intro hp
      obtain ⟨v, hv, rfl⟩ := List.mem_map.mp hp
      obtain ⟨hve, hvf⟩ := List.mem_filter.mp hv
      cases hnode : v.node with
      | file d m => exact ⟨d, m, hfile v hve d m hnode⟩
      | dir m kids => rw [hnode] at hvf; simp [Tree.IsDir] at hvf
    · rintro ⟨d, m, hf⟩
      obtain ⟨v, hv, rfl⟩ := Syncer.copyFiles_present s env t fs ht hdd hempty p (by rw [hf]; simp)
      refine List.mem_map.mpr ⟨v, List.mem_filter.mpr ⟨hv, ?_⟩, rfl⟩
      cases hd : v.node.IsDir with
      | false => rfl
      | true =>
        obtain ⟨m1, h1⟩ := hdir v hv hd
        rw [h1] at hf; cases hf
  · intro p
    constructor
    · intro hp
      obtain ⟨v, hv, rfl⟩ := List.mem_map.mp hp
      obtain ⟨hve, hvd⟩ := List.mem_filter.mp hv
      exact hdir v hve hvd
    · rintro ⟨m, hf⟩
      obtain ⟨v, hv, rfl⟩ := Syncer.copyFiles_present s env t fs ht hdd hempty p (by rw [hf]; simp)
      refine List.mem_map.mpr ⟨v, List.mem_filter.mpr ⟨hv, ?_⟩, rfl⟩
      cases hnode : v.node with
      | dir m1 kids => rfl
      | file d1 m1 =>
        rw [hfile v hv d1 m1 hnode] at hf; cases hf
  · intro v hv d m hnode
    refine ⟨List.mem_map.mpr ⟨v, List.mem_filter.mpr ⟨hv, ?_⟩, rfl⟩, hfile v hv d m hnode⟩
    rw [hnode]; rfl
  · intro v hv hd
    exact List.mem_map.mpr ⟨v, List.mem_filter.mpr ⟨hv, hd⟩, rfl⟩

theorem demoTreePlain_WF : Tree.WF demoTreePlain := by
  simp [demoTreePlain, Tree.WF, Forest.WF, Forest.names]

theorem demoFS_empty_target (p : Path) (_hp : p ≠ []) :
    demoFS (demoSyncer.targetPath demoEnv ++ p) = none := by
  have hT : demoSyncer.targetPath demoEnv = ["data", "out"] := by decide
  rw [hT]
  simp [demoFS]

theorem Syncer.copyFiles_roundtrip_witness :
    demoTreePlain.IsDir = true ∧ Tree.WF demoTreePlain ∧
    (demoSyncer.copyFiles demoEnv (some demoTreePlain) demoFS).1 = none ∧
    ∃ files dirs : List Path, files.Nodup ∧ dirs.Nodup ∧ files.length = 2 ∧ dirs.length = 2 ∧
      (∀ p, p ∈ files ↔ ∃ d m,
        (demoSyncer.copyFiles demoEnv (some demoTreePlain) demoFS).2
          (demoSyncer.targetPath demoEnv ++ p) = some (.file d m)) ∧
      (∀ p, p ∈ dirs ↔ ∃ m,
        (demoSyncer.copyFiles demoEnv (some demoTreePlain) demoFS).2
          (demoSyncer.targetPath demoEnv ++ p) = some (.dir m)) :=
  ⟨rfl, demoTreePlain_WF, by decide,
    (Syncer.copyFiles_roundtrip demoSyncer demoEnv demoTreePlain demoFS 2 2 rfl demoTreePlain_WF
      (by decide) (by decide) (by decide) (by decide) demoFS_empty_target (by decide)).imp
      (fun _ h => h.imp (fun _ h => ⟨h.1, h.2.1, h.2.2.1, h.2.2.2.1, h.2.2.2.2.1, h.2.2.2.2.2.1⟩))⟩

/-- C10: the code loses the permission bits of a source directory whose place
below the target exists already: the source directory `a` has mode 0700, the
directory at its place existed with mode 0755 before the call, and after a
successful `copyFiles` it still has mode 0755, while the file `a/x` copied in the
same pass has the mode 0600 of its source. -/
theorem Syncer.copyFiles_dir_mode_kept :
    (demoSyncer.copyFiles demoEnv (some demoTree) demoFSOld).1 = none ∧
    demoFSOld (demoSyncer.targetPath demoEnv ++ ["a"]) = some (.dir 0o755) ∧
    (demoSyncer.copyFiles demoEnv (some demoTree) demoFSOld).2
      (demoSyncer.targetPath demoEnv ++ ["a"]) = some (.dir 0o755) ∧
    (demoSyncer.copyFiles demoEnv (some demoTree) demoFSOld).2
      (demoSyncer.targetPath demoEnv ++ ["a", "x"]) = some (.file [1, 2] 0o600) ∧
    ¬ (∀ v ∈ Tree.entries [] (filepathBase demoSyncer.sourcePath) demoTree,
        v.node.IsDir = true → v.name ≠ ".git" →
        (demoSyncer.copyFiles demoEnv (some demoTree) demoFSOld).2
          (demoSyncer.targetPath demoEnv ++ v.rel) = some (.dir v.node.Mode)) := by
  decide

/-! ## Two cycles in a row -/

/-- C5, the claim as written fails: two calls of `Sync` in a row against an
unchanged branch, the same revision and the same source tree both times, no system
call failing by accident.  The first call returns nil and has written the file
b.txt with the permission bits 0444 of its source; the second call, by a process
without privilege, cannot open that file for writing and returns an error. -/
theorem Syncer.Sync_twice_counterexample :
    demoCycle.source = demoCyclePull.source ∧
    (demoSyncer.git.Sync demoCycle.git).1 = .ok demoHash.hex ∧
    ((demoSyncer.Sync demoCycle demoFS).2.1.git.Sync demoCyclePull.git).1 = .ok demoHash.hex ∧
    demoCyclePull.env.fault = (fun _ => none) ∧
    (demoSyncer.Sync demoCycle demoFS).1 = .nil ∧
    (demoSyncer.Sync demoCycle demoFS).2.2 ["data", "out", "b.txt"] = some (.file [3] 0o444) ∧
    ((demoSyncer.Sync demoCycle demoFS).2.1.Sync demoCyclePull
        (demoSyncer.Sync demoCycle demoFS).2.2).1
      = .error "file copy failed: open /data/out/b.txt: permission denied" := by
  refine ⟨rfl, rfl, rfl, rfl, ?_, ?_, ?_⟩ <;> decide

/-- C5, amended: two calls of `Sync` in a row by one process (same working
directory, same privilege) against an unchanged branch: the git client returns the
revision `r` both times and the source tree `t` (no directory of which lists a name
twice) is the same.  When the first call returns nil, `lastCommit` is `r` and
`syncCount` has grown by one; the second call then returns nil whenever no system
call of its mirror pass fails by accident and the process may open for writing
every file it has mirrored: it is privileged, or every mirrored source file has the
read and write bits of its owner; and when the second call returns nil, `syncCount`
has grown by exactly two, `lastCommit` is `r` again and the target filesystem after
the second call is the one after the first: same paths, bytes and permission bits.
The counter is a Go `int64` at least two below its largest value. -/
theorem Syncer.Sync_twice (s : Syncer) (c1 c2 : Cycle) (fs : FS) (r : String) (t : Tree)
    (hsrc1 : c1.source = some t) (hsrc2 : c2.source = some t) (hwf : Tree.WF t)
    (hcwd : c2.env.cwd = c1.env.cwd) (hpriv : c2.env.privileged = c1.env.privileged)
    (hgit1 : (s.git.Sync c1.git).1 = .ok r)
    (hgit2 : ((s.Sync c1 fs).2.1.git.Sync c2.git).1 = .ok r)
    (hlo : -2 ^ 63 ≤ s.syncCount) (hhi : s.syncCount < 2 ^ 63 - 2)
    (hnil1 : (s.Sync c1 fs).1 = .nil) :
    (s.Sync c1 fs).2.1.lastCommit = r ∧ (s.Sync c1 fs).2.1.syncCount = s.syncCount + 1 ∧
    ((c2.env.fault = fun _ => none) →
      (∀ v ∈ s.mirrorList (some t), v.node.IsDir = false →
        c1.env.privileged = true ∨ v.node.Mode &&& 0o600 = 0o600) →
      ((s.Sync c1 fs).2.1.Sync c2 (s.Sync c1 fs).2.2).1 = .nil) ∧
    (((s.Sync c1 fs).2.1.Sync c2 (s.Sync c1 fs).2.2).1 = .nil →
      ((s.Sync c1 fs).2.1.Sync c2 (s.Sync c1 fs).2.2).2.1.syncCount = s.syncCount + 2 ∧
      ((s.Sync c1 fs).2.1.Sync c2 (s.Sync c1 fs).2.2).2.1.lastCommit = r ∧
      ((s.Sync c1 fs).2.1.Sync c2 (s.Sync c1 fs).2.2).2.2 = (s.Sync c1 fs).2.2) := by
  have hc1 := Syncer.Sync_nil_copy s c1 fs hnil1
  have hS1 := Syncer.Sync_eq_success s c1 fs r hgit1 hc1
  have hcount1 : (s.Sync c1 fs).2.1.syncCount = s.syncCount + 1 := by
    rw [hS1]; exact wrapInt64_succ _ hlo (by omega)
  have hfs1 : (s.Sync c1 fs).2.2 = (s.copyFiles c1.env (some t) fs).2 := by
    rw [hS1, hsrc1]
  have hcongr : ∀ env src fs0,
      (s.Sync c1 fs).2.1.copyFiles env src fs0 = s.copyFiles env src fs0 :=
    fun env src fs0 => Syncer.copyFiles_congr s _ (Syncer.Sync_syncerCfg s c1 fs)
      (by rw [hS1]; exact Client.Sync_workDir s.git c1.git) env src fs0
  rw [hsrc1] at hc1
  obtain ⟨hidem, hnofault⟩ := Syncer.copyFiles_again s c1.env c2.env t fs hwf hcwd hc1
  have hcopy2 : ((s.Sync c1 fs).2.1.copyFiles c2.env c2.source (s.Sync c1 fs).2.2)
      = s.copyFiles c2.env (some t) (s.copyFiles c1.env (some t) fs).2 := by
    rw [hcongr, hsrc2, hfs1]
  refine ⟨by rw [hS1], hcount1, fun hf hperm => ?_, fun hnil2 => ?_⟩
  · have hc2 : ((s.Sync c1 fs).2.1.copyFiles c2.env c2.source (s.Sync c1 fs).2.2).1
        = none := by
      rw [hcopy2]
      refine hnofault hf (fun v hv d m hn => ?_)
      have h := hperm v hv (by rw [hn]; rfl)
      rw [hn, ← hpriv] at h
      exact h
    rw [Syncer.Sync_eq_success _ c2 _ r hgit2 hc2]
  · have hc2 := Syncer.Sync_nil_copy _ c2 _ hnil2
    rw [Syncer.Sync_eq_success _ c2 _ r hgit2 hc2]
    refine ⟨?_, rfl, ?_⟩
    · show wrapInt64 ((s.Sync c1 fs).2.1.syncCount + 1) = s.syncCount + 2
      rw [hcount1, wrapInt64_succ _ (by omega) (by omega)]
      ring
    · show ((s.Sync c1 fs).2.1.copyFiles c2.env c2.source (s.Sync c1 fs).2.2).2
        = (s.Sync c1 fs).2.2
      rw [hcopy2] at hc2 ⊢
      rw [hfs1]
      exact hidem hc2

theorem Syncer.Sync_twice_witness :
    demoCycleOwn.source = some demoTreeOwn ∧ demoCyclePullOwn.source = some demoTreeOwn ∧
    Tree.WF demoTreeOwn ∧ (demoSyncer.git.Sync demoCycleOwn.git).1 = .ok demoHash.hex ∧
    ((demoSyncer.Sync demoCycleOwn demoFS).2.1.git.Sync demoCyclePullOwn.git).1
      = .ok demoHash.hex ∧
    (demoSyncer.Sync demoCycleOwn demoFS).1 = .nil ∧
    ((demoSyncer.Sync demoCycleOwn demoFS).2.1.Sync demoCyclePullOwn
        (demoSyncer.Sync demoCycleOwn demoFS).2.2).1 = .nil ∧
    ((demoSyncer.Sync demoCycleOwn demoFS).2.1.Sync demoCyclePullOwn
        (demoSyncer.Sync demoCycleOwn demoFS).2.2).2.1.syncCount = demoSyncer.syncCount + 2 ∧
    ((demoSyncer.Sync demoCycleOwn demoFS).2.1.Sync demoCyclePullOwn
        (demoSyncer.Sync demoCycleOwn demoFS).2.2).2.2
      = (demoSyncer.Sync demoCycleOwn demoFS).2.2 :=
  have h := Syncer.Sync_twice demoSyncer demoCycleOwn demoCyclePullOwn demoFS demoHash.hex
    demoTreeOwn rfl rfl (by simp [demoTreeOwn, Tree.WF, Forest.WF, Forest.names]) rfl rfl rfl
    rfl (by decide) (by decide) (by decide)
  have h2 := h.2.2.1 rfl (by decide)
  ⟨rfl, rfl, by simp [demoTreeOwn, Tree.WF, Forest.WF, Forest.names], rfl, rfl, by decide, h2, (h.2.2.2 h2).1, (h.2.2.2 h2).2.2⟩

/-! ## A missing source and the first error of a walk -/

/-- C11: when the resolved source path does not exist, `copyFiles` returns an error
and copies no file: every path holds what it held before, unless nothing was there
and `os.MkdirAll` of the configured target path has made a directory, with mode
0755 minus the umask (on the way to the target when no segment of the configured
path is two dots); once the target directory is there and `os.Stat` itself does not
fail, the error is the one of the missing source path, which it names.  The
enclosing `Sync` returns an error, with `healthy` false and `errorCount` grown by
one (a Go `int64` below its largest value): a missing source is never a successful,
empty mirror. -/
theorem Syncer.Sync_missing_source (s : Syncer) (c : Cycle) (fs : FS)
    (hsrc : c.source = none)
    (hlo : -2 ^ 63 ≤ s.errorCount) (hhi : s.errorCount < 2 ^ 63 - 1) :
    (s.copyFiles c.env c.source fs).1 ≠ none ∧
    (∀ q, (s.copyFiles c.env c.source fs).2 q = fs q ∨
      (fs q = none ∧
        (s.copyFiles c.env c.source fs).2 q = some (.dir (maskMode c.env 0o755)) ∧
        (".." ∉ pathElems s.cfg.TargetPath → q <+: s.targetPath c.env))) ∧
    ((osMkdirAllStr c.env fs s.cfg.TargetPath 0o755).1 = none →
      c.env.fault (.stat s.sourcePath) = none →
      (s.copyFiles c.env c.source fs).1
        = some ("failed to stat source path: stat " ++ pathString s.sourcePath
            ++ ": no such file or directory")) ∧
    (∃ e, (s.Sync c fs).1 = .error e) ∧ (s.Sync c fs).2.1.healthy = false ∧
    (s.Sync c fs).2.1.errorCount = s.errorCount + 1 ∧
    (s.Sync c fs).2.1.syncCount = s.syncCount := by
  have hcopy : (s.copyFiles c.env c.source fs).1 ≠ none := by
    rcases Syncer.copyFiles_cases s c.env c.source fs with ⟨h, _⟩ | ⟨_, _, _, t, ht⟩
    · exact h
    · rw [hsrc] at ht; cases ht
  refine ⟨hcopy, fun q => ?_, fun hmk hst => ?_, ?_⟩
  · rcases Syncer.copyFiles_effect s c.env c.source fs q with h | h | ⟨v, hv, _⟩
    · exact Or.inl h
    · exact Or.inr h
    · rw [hsrc] at hv
      simp [Syncer.mirrorList] at hv
  · rw [hsrc]
    unfold Syncer.copyFiles
    rcases hm : osMkdirAllStr c.env fs s.cfg.TargetPath 0o755 with ⟨e1, fs1⟩
    rw [hm] at hmk
    simp only at hmk
    subst hmk
    have hst' : c.env.fault (.stat (filepathJoin s.git.WorkDir s.cfg.SourcePath)) = none := hst
    simp only [osStat, hst']
    rfl
  · rcases Syncer.Sync_cases s c fs with ⟨e, he, hh, hec, hsc, _, _⟩ | ⟨hnil, _⟩
    · exact ⟨⟨e, he⟩, hh, by rw [hec]; exact wrapInt64_succ _ hlo hhi, hsc⟩
    · exact absurd (Syncer.Sync_nil_copy s c fs hnil) hcopy

theorem Syncer.Sync_missing_source_witness :
    demoCycleNoSource.source = none ∧
    (demoSyncer.copyFiles demoCycleNoSource.env demoCycleNoSource.source demoFS).1
      = some ("failed to stat source path: stat /tmp/git-sync-work-1/docs: "
          ++ "no such file or directory") ∧
    (∃ e, (demoSyncer.Sync demoCycleNoSource demoFS).1 = .error e) ∧
    (demoSyncer.Sync demoCycleNoSource demoFS).2.1.healthy = false ∧
    (demoSyncer.Sync demoCycleNoSource demoFS).2.1.errorCount = demoSyncer.errorCount + 1 :=
  have h := Syncer.Sync_missing_source demoSyncer demoCycleNoSource demoFS rfl
    (by decide) (by decide)
  ⟨rfl, (h.2.2.1 (by decide) rfl).trans (by decide), h.2.2.2.1, h.2.2.2.2.1, h.2.2.2.2.2.1⟩

theorem collapse_snd (r : Option WalkErr × FS) : (collapse r).2 = r.2 := by
  rcases r with ⟨e, fs⟩
  cases e with
  | none => rfl
  | some w => cases w <;> rfl

/-- A mirrored entry stays mirrored under the step of an entry with another path. -/
theorem Mirrored_visitOne (ctx : WalkCtx) (u v : Visit) (fs : FS)
    (hm : Mirrored ctx u fs) (hne : v.rel ≠ u.rel) :
    Mirrored ctx u (visitOne ctx v fs).2 := by
  have := Mirrored_runVisits ctx u [v] fs hm (by
    intro w hw
    rw [List.mem_singleton] at hw
    subst hw
    exact hne)
  rw [runVisits_single, collapse_snd] at this
  exact this

/-- C12, the claim as written fails: with the target path /data/out/b.txt/.. the
walk fails at the entry a/x (the disk is full) and `copyFiles` returns that error,
yet at the place of the later entry b.txt, where nothing was before the call, there
is now a directory, made by `os.MkdirAll` on its way to the target. -/
theorem Syncer.copyFiles_first_error_counterexample :
    (demoSyncerTo "/data/out/b.txt/..").targetPath demoEnvFull = ["data", "out"] ∧
    Tree.visits [] "docs" demoTree
      = [⟨[], "docs", demoTree⟩,
         ⟨[".git"], ".git", .dir 0o700 (.cons "HEAD" (.file [1] 0o644) .nil)⟩,
         ⟨["a"], "a", .dir 0o700 (.cons "x" (.file [1, 2] 0o600) .nil)⟩,
         ⟨["a", "x"], "x", .file [1, 2] 0o600⟩,
         ⟨["b.txt"], "b.txt", .file [3] 0o444⟩] ∧
    ((demoSyncerTo "/data/out/b.txt/..").copyFiles demoEnvFull (some demoTree) demoFS).1
      = some "disk full" ∧
    demoFS ["data", "out", "b.txt"] = none ∧
    ((demoSyncerTo "/data/out/b.txt/..").copyFiles demoEnvFull (some demoTree) demoFS).2
      ["data", "out", "b.txt"] = some (.dir 0o755) := by
  exact ⟨by decide, rfl, by decide, by decide, by decide⟩

/-- C12, amended: during a directory mirror (of a tree no directory of which lists
a name twice), once `os.MkdirAll` has made the configured target path and the
source has been found: when the walk function succeeds on the entries `pre` before
the `k`-th visited entry `v` and fails on `v` with the error `e`, `copyFiles`
returns `e`; the walk has created or written no entry after `v` in walk order: such
an entry finds at its place below the target what was there when the walk began,
and that is what was there before the call when no segment of the configured target
path is two dots; and the entries before `v` are mirrored at the end. -/
theorem Syncer.copyFiles_first_error (s : Syncer) (env : Env) (t : Tree) (fs : FS)
    (pre post : List Visit) (v : Visit) (e : String)
    (ht : t.IsDir = true) (hwf : Tree.WF t)
    (hmk : (osMkdirAllStr env fs s.cfg.TargetPath 0o755).1 = none)
    (hst : env.fault (.stat s.sourcePath) = none)
    (hsplit : Tree.visits [] (filepathBase s.sourcePath) t = pre ++ v :: post)
    (hpre : (runVisits (s.walkCtx env) pre
      (osMkdirAllStr env fs s.cfg.TargetPath 0o755).2).1 = none)
    (hv : (visitOne (s.walkCtx env) v (runVisits (s.walkCtx env) pre
      (osMkdirAllStr env fs s.cfg.TargetPath 0o755).2).2).1 = some (.err e)) :
    (s.copyFiles env (some t) fs).1 = some e ∧
    (∀ w ∈ post,
      (s.copyFiles env (some t) fs).2 (s.targetPath env ++ w.rel)
        = (osMkdirAllStr env fs s.cfg.TargetPath 0o755).2 (s.targetPath env ++ w.rel) ∧
      (".." ∉ pathElems s.cfg.TargetPath →
        (s.copyFiles env (some t) fs).2 (s.targetPath env ++ w.rel)
          = fs (s.targetPath env ++ w.rel))) ∧
    (∀ u ∈ pre, Mirrored (s.walkCtx env) u (s.copyFiles env (some t) fs).2) := by
  have hpw : (pre ++ v :: post).Pairwise (fun u w => ¬ w.rel <+: u.rel) := by
    rw [← hsplit]
    exact (Tree.entries_pairwise t [] _ hwf).sublist (Tree.visits_sublist t [] _)
  rw [List.pairwise_append, List.pairwise_cons] at hpw
  obtain ⟨hpwpre, ⟨hvpost, _⟩, hcross⟩ := hpw
  have hrun : s.copyFiles env (some t) fs
      = (some e, (visitOne (s.walkCtx env) v (runVisits (s.walkCtx env) pre
          (osMkdirAllStr env fs s.cfg.TargetPath 0o755).2).2).2) := by
    rw [Syncer.copyFiles_eq s env t fs hmk hst]
    simp only [ht, if_true]
    rw [hsplit, runVisits_append]
    rcases hr : runVisits (s.walkCtx env) pre (osMkdirAllStr env fs s.cfg.TargetPath 0o755).2
      with ⟨e1, fs1⟩
    rw [hr] at hpre hv
    simp only at hpre hv
    subst hpre
    simp only
    rw [runVisits_cons_err (s.walkCtx env) v post fs1 e hv]
  rw [hrun]
  refine ⟨rfl, fun w hw => ?_, fun u hu => ?_⟩
  · -- the step of `v`, the run over `pre` and the making of the target leave the place alone
    have hwv : ¬ w.rel <+: v.rel := hvpost w hw
    have h1 : (visitOne (s.walkCtx env) v (runVisits (s.walkCtx env) pre
          (osMkdirAllStr env fs s.cfg.TargetPath 0o755).2).2).2 (s.targetPath env ++ w.rel)
        = (runVisits (s.walkCtx env) pre (osMkdirAllStr env fs s.cfg.TargetPath 0o755).2).2
            (s.targetPath env ++ w.rel) := by
      rcases visitOne_effect (s.walkCtx env) v _ (s.targetPath env ++ w.rel) with h | hc
      · exact h
      · exfalso
        unfold Changed at hc
        rcases hc with ⟨_, hq, _⟩ | ⟨_, _, _, hq, _⟩
        · exact hwv (by rw [List.append_cancel_left hq])
        · exact hwv ((List.prefix_append_right_inj _).mp hq)
    have h2 : (runVisits (s.walkCtx env) pre (osMkdirAllStr env fs s.cfg.TargetPath 0o755).2).2
          (s.targetPath env ++ w.rel)
        = (osMkdirAllStr env fs s.cfg.TargetPath 0o755).2 (s.targetPath env ++ w.rel) := by
      rcases runVisits_effect (s.walkCtx env) pre _ (s.targetPath env ++ w.rel) with
        h | ⟨u, hu, hc⟩
      · exact h
      · exfalso
        have hwu : ¬ w.rel <+: u.rel := hcross u hu w (List.mem_cons_of_mem _ hw)
        unfold Changed at hc
        rcases hc with ⟨_, hq, _⟩ | ⟨_, _, _, hq, _⟩
        · exact hwu (by rw [List.append_cancel_left hq])
        · exact hwu ((List.prefix_append_right_inj _).mp hq)
    have h3 : ".." ∉ pathElems s.cfg.TargetPath →
        (osMkdirAllStr env fs s.cfg.TargetPath 0o755).2 (s.targetPath env ++ w.rel)
          = fs (s.targetPath env ++ w.rel) := by
      intro hdd
      rcases osMkdirAllStr_effect_plain env fs s.cfg.TargetPath 0o755 hdd
        (s.targetPath env ++ w.rel) with h | ⟨_, h, _⟩
      · exact h
      · exfalso
        have hnil := append_prefix_self _ _ h
        exact hwv (by rw [hnil]; exact List.nil_prefix)
    constructor
    · show (visitOne (s.walkCtx env) v _).2 (s.targetPath env ++ w.rel) = _
      rw [h1, h2]
    · intro hdd
      show (visitOne (s.walkCtx env) v _).2 (s.targetPath env ++ w.rel) = _
      rw [h1, h2, h3 hdd]
  · have hm := (runVisits_post (s.walkCtx env) pre _ hpwpre hpre u hu).1
    exact Mirrored_visitOne (s.walkCtx env) u v _ hm
      (fun h => hcross u hu v (List.mem_cons_self _ _) (by rw [h]))

theorem Syncer.copyFiles_first_error_witness :
    demoTree.IsDir = true ∧ Tree.WF demoTree ∧
    (demoSyncer.copyFiles demoEnvFull (some demoTree) demoFS).1 = some "disk full" ∧
    (demoSyncer.copyFiles demoEnvFull (some demoTree) demoFS).2
        (demoSyncer.targetPath demoEnvFull ++ ["b.txt"])
      = demoFS (demoSyncer.targetPath demoEnvFull ++ ["b.txt"]) :=
  have h := Syncer.copyFiles_first_error demoSyncer demoEnvFull demoTree demoFS
    [⟨[], "docs", demoTree⟩,
     ⟨[".git"], ".git", .dir 0o700 (.cons "HEAD" (.file [1] 0o644) .nil)⟩,
     ⟨["a"], "a", .dir 0o700 (.cons "x" (.file [1, 2] 0o600) .nil)⟩]
    [⟨["b.txt"], "b.txt", .file [3] 0o444⟩]
    ⟨["a", "x"], "x", .file [1, 2] 0o600⟩ "disk full"
    rfl demoTree_WF (by decide) rfl rfl (by decide) (by decide)
  ⟨rfl, demoTree_WF, h.1, (h.2.1 _ (List.mem_singleton.mpr rfl)).2 (by decide)⟩

/-! ## Configuration -/

/-- C13: `Config.Validate` returns an error exactly when `RepoURL` or `TargetPath`
is empty; the `RepoURL` check comes first, so an empty `RepoURL` gives the
GIT_REPO_URL error whatever `TargetPath` is; with both non-empty it returns nil,
whatever the other fields hold; and the configuration is left as it was. -/
theorem Config.Validate_spec (c : Config) :
    (c.Validate.1 ≠ none ↔ (c.RepoURL = "" ∨ c.TargetPath = "")) ∧
    (c.RepoURL = "" → c.Validate.1 = some "GIT_REPO_URL is required") ∧
    (c.RepoURL ≠ "" → c.TargetPath = "" → c.Validate.1 = some "TARGET_PATH is required") ∧
    (c.RepoURL ≠ "" → c.TargetPath ≠ "" → c.Validate.1 = none) ∧
    c.Validate.2 = c := by
  unfold Config.Validate
  by_cases h1 : c.RepoURL = ""
  · simp [h1]
  · by_cases h2 : c.TargetPath = ""
    · simp [h1, h2]
    · simp [h1, h2]

theorem Config.Validate_spec_witness :
    ({ demoConfig with RepoURL := "", TargetPath := "" } : Config).Validate.1
      = some "GIT_REPO_URL is required" ∧
    demoConfig.Validate.1 = none :=
  ⟨(Config.Validate_spec { demoConfig with RepoURL := "", TargetPath := "" }).2.1 rfl,
   (Config.Validate_spec demoConfig).2.2.2.1 (by decide) (by decide)⟩

theorem getEnvOrDefault_ne_empty (environ : Environ) (key defaultValue : String)
    (hd : defaultValue ≠ "") : getEnvOrDefault environ key defaultValue ≠ "" := by
  unfold getEnvOrDefault
  split
  · assumption
  · exact hd

/-- C14: the check of the target path is dead on the path of `main`.  In an
environment that sets GIT_REPO_URL and leaves TARGET_PATH unset, `LoadFromEnv`
fills in the target path /data and `Validate` returns nil, although `Validate`
rejects an empty target path with "TARGET_PATH is required" when it meets one; for
no environment does `Validate` return that error on the configuration that
`LoadFromEnv` makes.  An unset or empty GIT_REPO_URL is rejected. -/
theorem LoadFromEnv_target_unset :
    osGetenv demoEnviron "GIT_REPO_URL" ≠ "" ∧ osGetenv demoEnviron "TARGET_PATH" = "" ∧
    (LoadFromEnv demoEnviron).TargetPath = "/data" ∧
    (LoadFromEnv demoEnviron).Validate.1 = none ∧
    ({ LoadFromEnv demoEnviron with TargetPath := "" } : Config).Validate.1
      = some "TARGET_PATH is required" ∧
    (∀ environ : Environ,
      (LoadFromEnv environ).Validate.1 ≠ some "TARGET_PATH is required") ∧
    (∀ environ : Environ, osGetenv environ "GIT_REPO_URL" = "" →
      (LoadFromEnv environ).Validate.1 = some "GIT_REPO_URL is required") := by
  refine ⟨by decide, by decide, by decide, by decide, by decide, fun environ => ?_,
    fun environ h => ?_⟩
  · have htp : (LoadFromEnv environ).TargetPath ≠ "" :=
      getEnvOrDefault_ne_empty environ "TARGET_PATH" "/data" (by decide)
    unfold Config.Validate
    by_cases h1 : (LoadFromEnv environ).RepoURL = ""
    · simp [h1]
    · simp [h1, htp]
  · have hrepo : (LoadFromEnv environ).RepoURL = osGetenv environ "GIT_REPO_URL" := rfl
    unfold Config.Validate
    simp [hrepo, h]

/-! ## The status snapshot -/

/-- C20: `GetStatus` returns exactly eight entries, under eight distinct keys, each
equal to the field of the syncer or of its configuration it reports; the healthy
entry equals what `IsHealthy` returns; neither call changes the syncer; and for a
syncer fresh from `NewSyncer` the healthy entry is false and the repoURL and
branch entries are the configured values. -/
theorem Syncer.GetStatus_snapshot (s : Syncer) :
    s.GetStatus.1.length = 8 ∧
    (s.GetStatus.1.map Prod.fst).Nodup ∧
    s.GetStatus.1 =
      [("healthy", .bool s.healthy), ("lastSync", .time s.lastSync),
       ("lastCommit", .string s.lastCommit), ("syncCount", .int64 s.syncCount),
       ("errorCount", .int64 s.errorCount), ("repoURL", .string s.cfg.RepoURL),
       ("branch", .string s.cfg.Branch), ("targetPath", .string s.cfg.TargetPath)] ∧
    s.GetStatus.1.lookup "healthy" = some (.bool s.IsHealthy.1) ∧
    s.GetStatus.2 = s ∧ s.IsHealthy.2 = s ∧
    (∀ cfg mkdirTemp, NewSyncer cfg mkdirTemp = .ok s →
      s.GetStatus.1.lookup "healthy" = some (.bool false) ∧
      s.GetStatus.1.lookup "repoURL" = some (.string cfg.RepoURL) ∧
      s.GetStatus.1.lookup "branch" = some (.string cfg.Branch)) := by
  have hkeys : (s.GetStatus.1.map Prod.fst).Nodup := by
    show ["healthy", "lastSync", "lastCommit", "syncCount", "errorCount", "repoURL", "branch",
      "targetPath"].Nodup
    decide
  refine ⟨rfl, hkeys, rfl, rfl, rfl, rfl, fun cfg mkdirTemp h => ?_⟩
  unfold NewSyncer at h
  cases hc : NewClient cfg mkdirTemp with
  | error e => rw [hc] at h; cases h
  | ok gitClient =>
    rw [hc] at h
    simp only [Except.ok.injEq] at h
    subst h
    exact ⟨rfl, rfl, rfl⟩

theorem Syncer.GetStatus_snapshot_witness :
    NewSyncer demoConfig (.ok ["tmp", "git-sync-work-1"]) = .ok demoSyncer ∧
    demoSyncer.GetStatus.1.lookup "healthy" = some (.bool false) ∧
    demoSyncer.GetStatus.1.lookup "repoURL" = some (.string "https://example.com/r.git") ∧
    demoSyncer.GetStatus.1.lookup "branch" = some (.string "main") :=
  ⟨rfl, (Syncer.GetStatus_snapshot demoSyncer).2.2.2.2.2.2 demoConfig
    (.ok ["tmp", "git-sync-work-1"]) rfl⟩

/-! ## The git client as a state machine -/

theorem Client.pull_client (c : Client) (g : GitCall) : (c.pull g).2 = c := by
  unfold Client.pull
  split
  · rfl
  · split
    · split <;> rfl
    · rfl

theorem Client.Sync_repo_some (c : Client) (g : GitCall) (r : Repository)
    (h : c.repo = some r) : c.Sync g = c.pull g ∧ (c.Sync g).2 = c := by
  have hs : c.Sync g = c.pull g := by
    unfold Client.Sync
    rw [if_neg (by rw [h]; exact Option.some_ne_none r)]
  exact ⟨hs, by rw [hs]; exact Client.pull_client c g⟩

theorem runClient_repo_some (gs : List GitCall) (c : Client) (r : Repository)
    (h : c.repo = some r) : runClient gs c = c := by
  induction gs with
  | nil => rfl
  | cons g gs ih =>
    show runClient gs (c.Sync g).2 = c
    rw [(Client.Sync_repo_some c g r h).2]
    exact ih

theorem runClient_repo_none (gs : List GitCall) (c : Client) (h : c.repo = none) :
    (runClient gs c).repo = none ↔ ∀ g ∈ gs, ∃ e, g.clone = .error e := by
  induction gs generalizing c with
  | nil => simp [runClient, h]
  | cons g gs ih =>
    show (runClient gs (c.Sync g).2).repo = none ↔ _
    cases hc : g.clone with
    | error e =>
      have hs : (c.Sync g).2 = c := by
        unfold Client.Sync Client.clone
        rw [if_pos h, hc]
      rw [hs, ih c h]
      simp [hc]
    | ok repo =>
      have hs : (c.Sync g).2.repo = some repo := by
        unfold Client.Sync Client.clone
        rw [if_pos h, hc]
      rw [runClient_repo_some gs _ repo hs, hs]
      simp [hc]

theorem Client.clone_mem_calls (c : Client) (g : GitCall) :
    c.cloneCall ∈ c.calls g ↔ c.repo = none := by
  unfold Client.calls
  by_cases h : c.repo = none
  · simp only [h, if_true, iff_true]
    split <;> simp
  · simp only [h, if_false, iff_false]
    unfold Client.cloneCall Client.pullCall
    split
    · simp
    · split
      · split <;> simp
      · simp

/-- C15: when the pull reports that the branch is already up to date (and the
worktree could be opened), `Client.pull` goes on to read HEAD exactly as after a
pull that reported no error: with HEAD at the hash `h` it returns the revision of
`h` and a nil error, and the whole cycle equals the cycle of such a pull; when the
mirror then succeeds the cycle takes the success path: it returns nil, `healthy`
is true, `lastCommit` is the revision and `syncCount` has grown by one (a Go
`int64` below its largest value). -/
theorem Client.pull_already_up_to_date (s : Syncer) (c : Cycle) (fs : FS) (h : Hash)
    (hrepo : s.git.repo ≠ none) (hw : c.git.worktree = none)
    (hp : c.git.pull = some .alreadyUpToDate) (hh : c.git.head = .ok h)
    (hcopy : (s.copyFiles c.env c.source fs).1 = none)
    (hlo : -2 ^ 63 ≤ s.syncCount) (hhi : s.syncCount < 2 ^ 63 - 1) :
    s.git.pull c.git = (.ok h.hex, s.git) ∧
    s.git.pull c.git = s.git.pull { c.git with pull := none } ∧
    s.Sync c fs = s.Sync { c with git := { c.git with pull := none } } fs ∧
    (s.Sync c fs).1 = .nil ∧ (s.Sync c fs).2.1.healthy = true ∧
    (s.Sync c fs).2.1.lastCommit = h.hex ∧
    (s.Sync c fs).2.1.syncCount = s.syncCount + 1 ∧
    (s.Sync c fs).2.1.errorCount = s.errorCount := by
  have hpull : s.git.pull c.git = (.ok h.hex, s.git) := by
    unfold Client.pull Client.getHeadCommit
    rw [hw, hp, hh]
    rfl
  have hpull2 : s.git.pull { c.git with pull := none } = (.ok h.hex, s.git) := by
    unfold Client.pull Client.getHeadCommit
    simp only [hw, hh]
  have hsync : s.git.Sync c.git = (.ok h.hex, s.git) := by
    unfold Client.Sync
    rw [if_neg hrepo, hpull]
  have hsync2 : s.git.Sync { c.git with pull := none } = (.ok h.hex, s.git) := by
    unfold Client.Sync
    rw [if_neg hrepo, hpull2]
  have h1 := Syncer.Sync_eq_success s c fs h.hex (by rw [hsync]) hcopy
  have h2 := Syncer.Sync_eq_success s { c with git := { c.git with pull := none } } fs h.hex
    (by rw [hsync2]) hcopy
  refine ⟨hpull, by rw [hpull, hpull2], ?_, ?_⟩
  · rw [h1, h2, hsync, hsync2]
  · rw [h1]
    exact ⟨rfl, rfl, rfl, wrapInt64_succ _ hlo hhi, rfl⟩

theorem Client.pull_already_up_to_date_witness :
    demoCyclePull.git.pull = some .alreadyUpToDate ∧
    demoSyncerCloned.git.pull demoCyclePull.git = (.ok demoHash.hex, demoSyncerCloned.git) ∧
    (demoSyncerCloned.Sync demoCyclePull demoFS).1 = .nil ∧
    (demoSyncerCloned.Sync demoCyclePull demoFS).2.1.healthy = true ∧
    (demoSyncerCloned.Sync demoCyclePull demoFS).2.1.syncCount = demoSyncerCloned.syncCount + 1 :=
  have h := Client.pull_already_up_to_date demoSyncerCloned demoCyclePull demoFS demoHash
    (by decide) rfl rfl rfl
    (by decide)
    (by decide) (by decide)
  ⟨rfl, h.1, h.2.2.2.1, h.2.2.2.2.1, h.2.2.2.2.2.2.1⟩

/-- C16: `Client.Sync` is a two-state machine on the repository handle.  Without a
handle it runs `clone`, whose first library call is a clone of depth 1 of the single
configured branch into the working directory; with a handle it runs `pull` and
makes no clone call.  A failed clone leaves the client as it was, a successful one
stores the handle, and a stored handle stays over every later call.  Hence on a
client fresh from `NewClient` the call after the calls `gs` clones exactly when no
clone among `gs` has succeeded. -/
theorem Client.Sync_two_states (c : Client) (g : GitCall) :
    (c.repo = none → c.Sync g = c.clone g ∧ (c.calls g).head? = some c.cloneCall) ∧
    (c.repo ≠ none → c.Sync g = c.pull g) ∧
    (c.cloneCall ∈ c.calls g ↔ c.repo = none) ∧
    c.cloneCall = .plainClone c.workDir false
      { URL := c.cfg.RepoURL, ReferenceName := "refs/heads/" ++ c.cfg.Branch,
        SingleBranch := true, Depth := 1 } ∧
    (c.repo = none → ∀ e, g.clone = .error e →
      c.Sync g = (.error ("clone failed: " ++ e), c)) ∧
    (c.repo = none → ∀ r, g.clone = .ok r → (c.Sync g).2.repo = some r) ∧
    (∀ r gs, c.repo = some r → (c.Sync g).2.repo = some r ∧ (runClient gs c).repo = some r) ∧
    (∀ gs, c.repo = none →
      ((runClient gs c).cloneCall ∈ (runClient gs c).calls g ↔
        ∀ g1 ∈ gs, ∃ e, g1.clone = .error e)) := by
  refine ⟨fun h => ⟨?_, ?_⟩, fun h => ?_, Client.clone_mem_calls c g, rfl, fun h e he => ?_,
    fun h r hr => ?_, fun r gs h => ⟨?_, ?_⟩, fun gs h => ?_⟩
  · unfold Client.Sync
    rw [if_pos h]
  · unfold Client.calls
    rw [if_pos h]
    split <;> rfl
  · unfold Client.Sync
    rw [if_neg h]
  · unfold Client.Sync Client.clone
    rw [if_pos h, he]
  · unfold Client.Sync Client.clone
    rw [if_pos h, hr]
  · rw [(Client.Sync_repo_some c g r h).2, h]
  · rw [runClient_repo_some gs c r h, h]
  · rw [Client.clone_mem_calls, runClient_repo_none gs c h]

theorem Client.Sync_two_states_witness :
    demoSyncer.git.repo = none ∧
    demoSyncer.git.Sync demoCycleGitDown.git
      = (.error "clone failed: repository not found", demoSyncer.git) ∧
    (demoSyncer.git.Sync demoCycle.git).2.repo = some ⟨1⟩ ∧
    (runClient [demoGitBroken, demoCycleGitDown.git] demoSyncerCloned.git).repo = some ⟨1⟩ :=
  have h := Client.Sync_two_states demoSyncer.git demoCycleGitDown.git
  ⟨rfl, h.2.2.2.2.1 rfl "repository not found" rfl,
   (Client.Sync_two_states demoSyncer.git demoCycle.git).2.2.2.2.2.1 rfl ⟨1⟩ rfl,
   ((Client.Sync_two_states demoSyncerCloned.git demoGitBroken).2.2.2.2.2.2.1 ⟨1⟩
      [demoGitBroken, demoCycleGitDown.git] rfl).2⟩

/-- C17, the claim as written fails: a client holding a handle whose pull fails on
unusable local state fails in the same way at the next call and makes no clone
call there, although a clone would have succeeded. -/
theorem Client.Sync_no_reclone_counterexample :
    ¬ (∀ (c : Client) (g1 g2 : GitCall), c.repo ≠ none →
        (∃ e, (c.Sync g1).1 = .error e) →
        ((∃ r, ((c.Sync g1).2.Sync g2).1 = .ok r) ∨
          (c.Sync g1).2.cloneCall ∈ (c.Sync g1).2.calls g2)) := by
  intro h
  rcases h demoSyncerCloned.git demoGitBroken demoGitBroken (by decide) ⟨_, rfl⟩ with
    ⟨r, hr⟩ | hmem
  · cases hr
  · rw [Client.clone_mem_calls] at hmem
    cases hmem

/-- C17, amended: a client that holds a repository handle keeps it, and is as a
whole unchanged, over every call of `Client.Sync`, failed or not; every later call
runs `pull` and never makes a clone call; so after a failed pull a later call
succeeds exactly when the worktree opens, the pull reports no error other than
already-up-to-date and HEAD can be read, and fails again otherwise. -/
theorem Client.Sync_keeps_handle (c : Client) (r : Repository) (gs : List GitCall)
    (g : GitCall) (hrepo : c.repo = some r) :
    runClient gs c = c ∧
    (runClient gs c).Sync g = c.pull g ∧
    (runClient gs c).cloneCall ∉ (runClient gs c).calls g ∧
    ((∃ rev, ((runClient gs c).Sync g).1 = .ok rev) ↔
      (g.worktree = none ∧ (g.pull = none ∨ g.pull = some .alreadyUpToDate) ∧
        ∃ ref, g.head = .ok ref)) := by
  have hrun := runClient_repo_some gs c r hrepo
  rw [hrun]
  have hs := (Client.Sync_repo_some c g r hrepo).1
  refine ⟨rfl, hs, ?_, ?_⟩
  · rw [Client.clone_mem_calls, hrepo]
    exact Option.some_ne_none r
  · rw [hs]
    unfold Client.pull Client.getHeadCommit
    rcases hw : g.worktree with _ | e
    · rcases hp : g.pull with _ | err
      · rcases hh : g.head with e | ref
        · simp
        · simp
      · cases err with
        | alreadyUpToDate =>
          rcases hh : g.head with e | ref
          · simp
          · simp
        | other msg => simp
    · simp

theorem Client.Sync_keeps_handle_witness :
    demoSyncerCloned.git.repo = some ⟨1⟩ ∧
    runClient [demoGitBroken] demoSyncerCloned.git = demoSyncerCloned.git ∧
    (runClient [demoGitBroken] demoSyncerCloned.git).Sync demoGitBroken
      = demoSyncerCloned.git.pull demoGitBroken :=
  have h := Client.Sync_keeps_handle demoSyncerCloned.git ⟨1⟩ [demoGitBroken] demoGitBroken rfl
  ⟨rfl, h.1, h.2.1⟩

/-! ## Errors of the git client -/

/-- C18, the claim as written fails: on a client without a handle, a clone that
succeeds followed by a failed read of HEAD gives an error that is no clone
failure wrapping a cause. -/
theorem Client.Sync_head_error_counterexample :
    ¬ (∀ (c : Client) (g : GitCall) (e : String), (c.Sync g).1 = .error e →
        (c.repo = none → ∃ cause, e = "clone failed: " ++ cause) ∧
        (c.repo ≠ none → ∃ cause, e = "pull failed: " ++ cause)) := by
  intro h
  obtain ⟨cause, hc⟩ := (h demoSyncer.git demoGitNoHead
    "failed to get HEAD: reference not found" rfl).1 rfl
  have hd := congrArg String.data hc
  rw [String.data_append] at hd
  have hl : "failed to get HEAD: reference not found".data.head? = some 'f' := rfl
  have hr : "clone failed: ".data = 'c' :: "lone failed: ".data := rfl
  have hhead := congrArg List.head? hd
  rw [hl, hr, List.cons_append, List.head?_cons] at hhead
  exact absurd (Option.some.inj hhead) (by decide)

/-- C18, amended: every error returned by `Client.Sync` names the operation that
failed and wraps its cause: a failed clone is a clone failure, a failed pull (other
than already-up-to-date) a pull failure, a worktree that cannot be opened a
worktree failure, and a failed read of HEAD, after a clone as after a pull, a HEAD
failure; a failing clone or pull is always reported so; and the returned revision
is the empty string whenever the error is non-nil. -/
theorem Client.Sync_error_names (c : Client) (g : GitCall) (e : String)
    (herr : (c.Sync g).1 = .error e) :
    ((c.repo = none ∧ ∃ cause, g.clone = .error cause ∧ e = "clone failed: " ++ cause) ∨
     (c.repo = none ∧ ∃ r cause, g.clone = .ok r ∧ g.head = .error cause ∧
        e = "failed to get HEAD: " ++ cause) ∨
     (c.repo ≠ none ∧ ∃ cause, g.worktree = some cause ∧
        e = "failed to get worktree: " ++ cause) ∨
     (c.repo ≠ none ∧ g.worktree = none ∧ ∃ err, g.pull = some err ∧
        err ≠ .alreadyUpToDate ∧ e = "pull failed: " ++ err.Error) ∨
     (c.repo ≠ none ∧ g.worktree = none ∧ ∃ cause, g.head = .error cause ∧
        e = "failed to get HEAD: " ++ cause)) ∧
    goPair (c.Sync g).1 = ("", some e) := by
  refine ⟨?_, by rw [herr]; rfl⟩
  unfold Client.Sync Client.clone Client.pull Client.getHeadCommit at herr
  by_cases hrepo : c.repo = none
  · rw [if_pos hrepo] at herr
    rcases hc : g.clone with cause | r
    · rw [hc] at herr
      simp only [Except.error.injEq] at herr
      exact Or.inl ⟨hrepo, cause, rfl, herr.symm⟩
    · rw [hc] at herr
      rcases hh : g.head with cause | ref
      · rw [hh] at herr
        simp only [Except.error.injEq] at herr
        exact Or.inr (Or.inl ⟨hrepo, r, cause, rfl, rfl, herr.symm⟩)
      · rw [hh] at herr
        cases herr
  · rw [if_neg hrepo] at herr
    rcases hw : g.worktree with _ | cause
    · rw [hw] at herr
      have hhead : (match g.head with
          | .error e => (Except.error ("failed to get HEAD: " ++ e) : Except String String)
          | .ok ref => .ok ref.hex) = .error e →
          ∃ cause, g.head = .error cause ∧ e = "failed to get HEAD: " ++ cause := by
        intro hm
        rcases hh : g.head with cause | ref
        · rw [hh] at hm
          simp only [Except.error.injEq] at hm
          exact ⟨cause, rfl, hm.symm⟩
        · rw [hh] at hm
          cases hm
      rcases hp : g.pull with _ | err
      · rw [hp] at herr
        exact Or.inr (Or.inr (Or.inr (Or.inr ⟨hrepo, rfl, hhead herr⟩)))
      · rw [hp] at herr
        by_cases hup : err = .alreadyUpToDate
        · simp only [hup, ne_eq, not_true_eq_false, if_false] at herr
          exact Or.inr (Or.inr (Or.inr (Or.inr ⟨hrepo, rfl, hhead herr⟩)))
        · simp only [ne_eq, hup, not_false_eq_true, if_true, Except.error.injEq] at herr
          exact Or.inr (Or.inr (Or.inr (Or.inl ⟨hrepo, rfl, err, rfl, hup, herr.symm⟩)))
    · rw [hw] at herr
      simp only [Except.error.injEq] at herr
      exact Or.inr (Or.inr (Or.inl ⟨hrepo, cause, rfl, herr.symm⟩))

theorem Client.Sync_error_names_witness :
    (demoSyncerCloned.git.Sync demoGitBroken).1 = .error "pull failed: object not found" ∧
    goPair (demoSyncerCloned.git.Sync demoGitBroken).1
      = ("", some "pull failed: object not found") :=
  ⟨rfl, (Client.Sync_error_names demoSyncerCloned.git demoGitBroken
    "pull failed: object not found" rfl).2⟩

/-! ## The process -/

theorem Config.Validate_snd (c : Config) : c.Validate.2 = c := by
  unfold Config.Validate
  split
  · rfl
  · split <;> rfl

theorem Syncer.Sync_ne_panic (s : Syncer) (c : Cycle) (fs : FS) (msg : String) :
    (s.Sync c fs).1 ≠ .panic msg := by
  intro h
  rcases Syncer.Sync_cases s c fs with ⟨e, he, _⟩ | ⟨hnil, _⟩
  · rw [h] at he; cases he
  · rw [h] at hnil; cases hnil

/-- The six ways `main` can go, each with the condition that selects it. -/
theorem main_cases (w : Startup) (fs : FS) :
    (∃ e, (LoadFromEnv w.environ).Validate.1 = some e ∧
      main w fs = .exited 1 ["Configuration error: " ++ e ++ "\n"]) ∨
    ((LoadFromEnv w.environ).Validate.1 = none ∧
      ((∃ e, NewSyncer (LoadFromEnv w.environ) w.mkdirTemp = .error e ∧
        main w fs = .exited 1 ["Failed to initialize syncer: " ++ e ++ "\n"]) ∨
       (∃ s, NewSyncer (LoadFromEnv w.environ) w.mkdirTemp = .ok s ∧
        ((∃ e, (s.Sync w.initial fs).1 = .error e ∧
            main w fs = .exited 1 ["Initial sync failed: " ++ e ++ "\n"]) ∨
         ((s.Sync w.initial fs).1 = .nil ∧
          (((LoadFromEnv w.environ).SyncOnce = true ∧ main w fs = .exited 0 []) ∨
           ((LoadFromEnv w.environ).SyncOnce = false ∧
            ((∃ e, w.addFunc = some e ∧
                main w fs = .exited 1 ["Failed to schedule sync: " ++ e ++ "\n"]) ∨
             (w.addFunc = none ∧
                main w fs = .running (s.Sync w.initial fs).2.1 (s.Sync w.initial fs).2.2
                  []))))))))) := by
  unfold main
  dsimp only
  have hsnd := Config.Validate_snd (LoadFromEnv w.environ)
  rcases hv : (LoadFromEnv w.environ).Validate with ⟨verr, cfg1⟩
  rw [hv] at hsnd
  simp only at hsnd
  subst hsnd
  cases verr with
  | some e => exact Or.inl ⟨e, rfl, rfl⟩
  | none =>
    refine Or.inr ⟨rfl, ?_⟩
    simp only
    rcases hn : NewSyncer (LoadFromEnv w.environ) w.mkdirTemp with e | s
    · exact Or.inl ⟨e, rfl, rfl⟩
    · refine Or.inr ⟨s, rfl, ?_⟩
      simp only
      have hnp := Syncer.Sync_ne_panic s w.initial fs
      rcases hs : s.Sync w.initial fs with ⟨res, s1, fs1⟩
      rw [hs] at hnp
      cases res with
      | error e => exact Or.inl ⟨e, rfl, rfl⟩
      | panic msg => exact absurd rfl (hnp msg)
      | nil =>
        refine Or.inr ⟨rfl, ?_⟩
        simp only
        by_cases ho : (LoadFromEnv w.environ).SyncOnce = true
        · exact Or.inl ⟨ho, by rw [if_pos ho]⟩
        · refine Or.inr ⟨by simpa using ho, ?_⟩
          rw [if_neg ho]
          rcases ha : w.addFunc with _ | e
          · exact Or.inr ⟨rfl, rfl⟩
          · exact Or.inl ⟨e, rfl, rfl⟩

theorem scheduledSync_running (syncer : Syncer) (fs : FS) (stderr : List String) (c : Cycle) :
    scheduledSync (.running syncer fs stderr) c
      = .running (syncer.Sync c fs).2.1 (syncer.Sync c fs).2.2
          (stderr ++ match (syncer.Sync c fs).1 with
            | .error e => ["Sync failed: " ++ e ++ "\n"]
            | _ => []) := by
  unfold scheduledSync
  dsimp only
  have hnp := Syncer.Sync_ne_panic syncer c fs
  rcases hs : syncer.Sync c fs with ⟨res, s1, fs1⟩
  rw [hs] at hnp
  cases res with
  | error e => rfl
  | panic msg => exact absurd rfl (hnp msg)
  | nil => simp

theorem scheduledSync_foldl (cs : List Cycle) (syncer : Syncer) (fs : FS)
    (stderr : List String) :
    ∃ syncer1 fs1 stderr1,
      cs.foldl scheduledSync (.running syncer fs stderr) = .running syncer1 fs1 stderr1 ∧
      syncer1.cfg = syncer.cfg := by
  induction cs generalizing syncer fs stderr with
  | nil => exact ⟨syncer, fs, stderr, rfl, rfl⟩
  | cons c cs ih =>
    rw [List.foldl_cons, scheduledSync_running]
    obtain ⟨s1, fs1, e1, h1, h2⟩ := ih (syncer.Sync c fs).2.1 (syncer.Sync c fs).2.2
      (stderr ++ match (syncer.Sync c fs).1 with
        | .error e => ["Sync failed: " ++ e ++ "\n"]
        | _ => [])
    exact ⟨s1, fs1, e1, h1, by rw [h2, Syncer.Sync_syncerCfg]⟩

/-- C19, the claim as written fails: with a valid configuration and a syncer that
initialises, a first cycle that finds the repository down makes `main` exit with
status 1. -/
theorem main_initial_sync_counterexample :
    ¬ (∀ (w : Startup) (fs : FS) (status : Nat) (stderr : List String),
        main w fs = .exited status stderr → status ≠ 0 →
        ((LoadFromEnv w.environ).Validate.1 ≠ none ∨
          ∃ e, NewSyncer (LoadFromEnv w.environ) w.mkdirTemp = .error e)) := by
  intro h
  have hmain : main demoStartup demoFS = .exited 1
      ["Initial sync failed: git sync failed: clone failed: repository not found\n"] := rfl
  rcases h demoStartup demoFS 1 _ hmain (by decide) with hv | ⟨e, he⟩
  · exact hv (by decide)
  · cases he

/-- C19, amended: `main` exits with a failure status exactly when the configuration
is rejected, the syncer cannot be initialised, the first cycle, run by `main`
itself, fails, or the schedule cannot be set up, and the status is then 1; in
particular a failed first cycle ends the process.  A scheduled cycle that fails
is reported on standard error and leaves the process running with the syncer
marked unhealthy and its configuration unchanged, and the process stays running
over any number of scheduled cycles. -/
theorem main_exit_status (w : Startup) (fs : FS) :
    ((∃ status stderr, main w fs = .exited status stderr ∧ status ≠ 0) ↔
      ((LoadFromEnv w.environ).Validate.1 ≠ none ∨
       (∃ e, NewSyncer (LoadFromEnv w.environ) w.mkdirTemp = .error e) ∨
       (∃ s e, NewSyncer (LoadFromEnv w.environ) w.mkdirTemp = .ok s ∧
          (s.Sync w.initial fs).1 = .error e) ∨
       (∃ s, NewSyncer (LoadFromEnv w.environ) w.mkdirTemp = .ok s ∧
          (s.Sync w.initial fs).1 = .nil ∧ (LoadFromEnv w.environ).SyncOnce = false ∧
          w.addFunc ≠ none))) ∧
    (∀ status stderr, main w fs = .exited status stderr → status = 0 ∨ status = 1) ∧
    (∀ s e, (LoadFromEnv w.environ).Validate.1 = none →
      NewSyncer (LoadFromEnv w.environ) w.mkdirTemp = .ok s →
      (s.Sync w.initial fs).1 = .error e →
      main w fs = .exited 1 ["Initial sync failed: " ++ e ++ "\n"]) ∧
    (∀ syncer fs0 stderr c e, (syncer.Sync c fs0).1 = .error e →
      scheduledSync (.running syncer fs0 stderr) c
        = .running (syncer.Sync c fs0).2.1 (syncer.Sync c fs0).2.2
            (stderr ++ ["Sync failed: " ++ e ++ "\n"]) ∧
      (syncer.Sync c fs0).2.1.healthy = false ∧
      (syncer.Sync c fs0).2.1.cfg = syncer.cfg) ∧
    (∀ cs syncer fs0 stderr, ∃ syncer1 fs1 stderr1,
      List.foldl scheduledSync (.running syncer fs0 stderr) cs
        = .running syncer1 fs1 stderr1 ∧ syncer1.cfg = syncer.cfg) := by
  refine ⟨?_, ?_, ?_, ?_, fun cs syncer fs0 stderr => scheduledSync_foldl cs syncer fs0 stderr⟩
  · rcases main_cases w fs with ⟨e, hv, hm⟩ | ⟨hv, ⟨e, hn, hm⟩ | ⟨s, hn, ⟨e, hs, hm⟩ |
      ⟨hs, ⟨ho, hm⟩ | ⟨ho, ⟨e, ha, hm⟩ | ⟨ha, hm⟩⟩⟩⟩⟩
    · simp [hm, hv]
    · simp [hm, hv, hn]
    · simp [hm, hv, hn, hs]
    · simp [hm, hv, hn, hs, ho]
    · simp [hm, hv, hn, hs, ho, ha]
    · simp [hm, hv, hn, hs, ho, ha]
  · intro status stderr h
    rcases main_cases w fs with ⟨e, hv, hm⟩ | ⟨hv, ⟨e, hn, hm⟩ | ⟨s, hn, ⟨e, hs, hm⟩ |
      ⟨hs, ⟨ho, hm⟩ | ⟨ho, ⟨e, ha, hm⟩ | ⟨ha, hm⟩⟩⟩⟩⟩
    all_goals
      rw [hm] at h
      cases h <;> simp
  · intro s e hv hn hs
    rcases main_cases w fs with ⟨e1, hv1, hm⟩ | ⟨_, ⟨e1, hn1, hm⟩ | ⟨s1, hn1, ⟨e1, hs1, hm⟩ |
      ⟨hs1, _⟩⟩⟩
    · rw [hv] at hv1; cases hv1
    · rw [hn] at hn1; cases hn1
    · rw [hn] at hn1
      cases hn1
      rw [hs] at hs1
      cases hs1
      exact hm
    · rw [hn] at hn1
      cases hn1
      rw [hs] at hs1
      cases hs1
  · intro syncer fs0 stderr c e he
    refine ⟨?_, ?_, Syncer.Sync_syncerCfg syncer c fs0⟩
    · rw [scheduledSync_running, he]
    · rcases Syncer.Sync_cases syncer c fs0 with ⟨_, _, hh, _⟩ | ⟨hnil, _⟩
      · exact hh
      · rw [he] at hnil; cases hnil

theorem main_exit_status_witness :
    (LoadFromEnv demoStartup.environ).Validate.1 = none ∧
    NewSyncer (LoadFromEnv demoStartup.environ) demoStartup.mkdirTemp
      = .ok { demoSyncer with cfg := LoadFromEnv demoEnviron,
                              git := { demoSyncer.git with cfg := LoadFromEnv demoEnviron } } ∧
    main demoStartup demoFS = .exited 1
      ["Initial sync failed: git sync failed: clone failed: repository not found\n"] :=
  ⟨by decide, rfl,
   (main_exit_status demoStartup demoFS).2.2.1 _ "git sync failed: clone failed: repository not found"
     (by decide) rfl rfl⟩

/-! ## Counters over a sequence of calls -/

/-- One call: the result is nil or an error, and the counters and the health flag
follow it (the counters as wrapped 64-bit values). -/
theorem Syncer.Sync_step (s : Syncer) (c : Cycle) (fs : FS) :
    ((s.Sync c fs).1 = .nil ∧ (s.Sync c fs).2.1.healthy = true ∧
      (s.Sync c fs).2.1.syncCount = wrapInt64 (s.syncCount + 1) ∧
      (s.Sync c fs).2.1.errorCount = s.errorCount) ∨
    ((∃ e, (s.Sync c fs).1 = .error e) ∧ (s.Sync c fs).2.1.healthy = false ∧
      (s.Sync c fs).2.1.errorCount = wrapInt64 (s.errorCount + 1) ∧
      (s.Sync c fs).2.1.syncCount = s.syncCount) := by
  rcases Syncer.Sync_cases s c fs with ⟨e, he, hh, hec, hsc, _, _⟩ | ⟨hnil, hh, hsc, hec, _⟩
  · exact Or.inr ⟨⟨e, he⟩, hh, hec, hsc⟩
  · exact Or.inl ⟨hnil, hh, hsc, hec⟩

/-- The counters and the health flag after a sequence of calls, from any syncer
whose counters leave room for the calls. -/
theorem runCycles_counts (cs : List Cycle) :
    ∀ (s : Syncer) (fs : FS), 0 ≤ s.syncCount → 0 ≤ s.errorCount →
      s.syncCount + s.errorCount + cs.length < 2 ^ 63 →
      (runCycles cs s fs).1.length = cs.length ∧
      (∀ r ∈ (runCycles cs s fs).1, r = .nil ∨ ∃ e, r = .error e) ∧
      (runCycles cs s fs).2.1.syncCount
        = s.syncCount + ((runCycles cs s fs).1.countP SyncResult.isNil : Nat) ∧
      (runCycles cs s fs).2.1.errorCount
        = s.errorCount + ((runCycles cs s fs).1.countP (fun r => !r.isNil) : Nat) ∧
      (runCycles cs s fs).2.1.healthy
        = (((runCycles cs s fs).1.getLast?).map SyncResult.isNil).getD s.healthy := by
  induction cs with
  | nil => intro s fs _ _ _; simp [runCycles]
  | cons c cs ih =>
    intro s fs h0 h1 hlt
    simp only [List.length_cons, Nat.cast_add, Nat.cast_one] at hlt
    have hrun : runCycles (c :: cs) s fs
        = ((s.Sync c fs).1 :: (runCycles cs (s.Sync c fs).2.1 (s.Sync c fs).2.2).1,
           (runCycles cs (s.Sync c fs).2.1 (s.Sync c fs).2.2).2.1,
           (runCycles cs (s.Sync c fs).2.1 (s.Sync c fs).2.2).2.2) := rfl
    rw [hrun]
    have hlast : ∀ (r : SyncResult) (rs : List SyncResult) (b : Bool),
        (((r :: rs).getLast?).map SyncResult.isNil).getD b
          = ((rs.getLast?).map SyncResult.isNil).getD r.isNil := by
      intro r rs b
      cases rs with
      | nil => rfl
      | cons x xs => rw [List.getLast?_cons_cons]; simp [List.getLast?_cons]
    rcases Syncer.Sync_step s c fs with ⟨hnil, hh, hsc, hec⟩ | ⟨⟨e, he⟩, hh, hec, hsc⟩
    · have hw : wrapInt64 (s.syncCount + 1) = s.syncCount + 1 :=
        wrapInt64_succ _ (by omega) (by omega)
      rw [hw] at hsc
      obtain ⟨i1, i2, i3, i4, i5⟩ := ih (s.Sync c fs).2.1 (s.Sync c fs).2.2
        (by rw [hsc]; omega) (by rw [hec]; exact h1) (by rw [hsc, hec]; omega)
      refine ⟨by simp [i1], ?_, ?_, ?_, ?_⟩
      · intro r hr
        rcases List.mem_cons.mp hr with h | h
        · exact Or.inl (h.trans hnil)
        · exact i2 r h
      · simp only [i3, hsc, hnil, List.countP_cons, SyncResult.isNil, if_true, Nat.cast_add,
          Nat.cast_one]
        ring
      · simp only [i4, hec, hnil, List.countP_cons, SyncResult.isNil, Bool.not_true,
          Bool.false_eq_true, if_false, Nat.add_zero]
      · simp only [hlast, i5, hh, hnil, SyncResult.isNil]
    · have hw : wrapInt64 (s.errorCount + 1) = s.errorCount + 1 :=
        wrapInt64_succ _ (by omega) (by omega)
      rw [hw] at hec
      obtain ⟨i1, i2, i3, i4, i5⟩ := ih (s.Sync c fs).2.1 (s.Sync c fs).2.2
        (by rw [hsc]; exact h0) (by rw [hec]; omega) (by rw [hsc, hec]; omega)
      refine ⟨by simp [i1], ?_, ?_, ?_, ?_⟩
      · intro r hr
        rcases List.mem_cons.mp hr with h | h
        · exact Or.inr ⟨e, h.trans he⟩
        · exact i2 r h
      · simp only [i3, hsc, he, List.countP_cons, SyncResult.isNil, Bool.false_eq_true,
          if_false, Nat.add_zero]
      · simp only [i4, hec, he, List.countP_cons, SyncResult.isNil, Bool.not_false, if_true,
          Nat.cast_add, Nat.cast_one]
        ring
      · simp only [hlast, i5, hh, he, SyncResult.isNil]

/-- C22: every call of `Syncer.Sync` completes with nil or an error and, on
counters below the largest Go `int64`, increases exactly one counter by exactly
one: `syncCount` exactly when it returns nil, `errorCount` otherwise; neither
counter decreases.  Hence after any sequence of calls (fewer than 2^63) on a
syncer fresh from `NewSyncer` every call has completed, `syncCount` is the number
of calls that returned nil, `errorCount` the number of the others, their sum the
number of calls, and `healthy` tells whether the most recent call returned nil
(false when there was none). -/
theorem Syncer.Sync_counts (cfg : Config) (mkdirTemp : Except String Path) (s0 : Syncer)
    (hnew : NewSyncer cfg mkdirTemp = .ok s0) :
    (∀ (s : Syncer) (c : Cycle) (fs : FS),
      -2 ^ 63 ≤ s.syncCount → s.syncCount < 2 ^ 63 - 1 →
      -2 ^ 63 ≤ s.errorCount → s.errorCount < 2 ^ 63 - 1 →
      ((s.Sync c fs).1 = .nil ∨ ∃ e, (s.Sync c fs).1 = .error e) ∧
      ((s.Sync c fs).1 = .nil →
        (s.Sync c fs).2.1.syncCount = s.syncCount + 1 ∧
        (s.Sync c fs).2.1.errorCount = s.errorCount) ∧
      ((s.Sync c fs).1 ≠ .nil →
        (s.Sync c fs).2.1.errorCount = s.errorCount + 1 ∧
        (s.Sync c fs).2.1.syncCount = s.syncCount) ∧
      ((s.Sync c fs).2.1.syncCount = s.syncCount + 1 ↔ (s.Sync c fs).1 = .nil) ∧
      s.syncCount ≤ (s.Sync c fs).2.1.syncCount ∧
      s.errorCount ≤ (s.Sync c fs).2.1.errorCount) ∧
    (∀ (cs : List Cycle) (fs : FS), (cs.length : Int) < 2 ^ 63 →
      (runCycles cs s0 fs).1.length = cs.length ∧
      (∀ r ∈ (runCycles cs s0 fs).1, r = .nil ∨ ∃ e, r = .error e) ∧
      (runCycles cs s0 fs).2.1.syncCount + (runCycles cs s0 fs).2.1.errorCount = cs.length ∧
      (runCycles cs s0 fs).2.1.syncCount
        = ((runCycles cs s0 fs).1.countP SyncResult.isNil : Nat) ∧
      (runCycles cs s0 fs).2.1.errorCount
        = ((runCycles cs s0 fs).1.countP (fun r => !r.isNil) : Nat) ∧
      (runCycles cs s0 fs).2.1.healthy
        = (((runCycles cs s0 fs).1.getLast?).map SyncResult.isNil).getD false) := by
  refine ⟨fun s c fs hs0 hs1 he0 he1 => ?_, fun cs fs hlen => ?_⟩
  · have hws : wrapInt64 (s.syncCount + 1) = s.syncCount + 1 := wrapInt64_succ _ hs0 hs1
    have hwe : wrapInt64 (s.errorCount + 1) = s.errorCount + 1 := wrapInt64_succ _ he0 he1
    rcases Syncer.Sync_step s c fs with ⟨hnil, _, hsc, hec⟩ | ⟨⟨e, he⟩, _, hec, hsc⟩
    · rw [hws] at hsc
      refine ⟨Or.inl hnil, fun _ => ⟨hsc, hec⟩, fun h => absurd hnil h,
        ⟨fun _ => hnil, fun _ => hsc⟩, by rw [hsc]; omega, by rw [hec]⟩
    · rw [hwe] at hec
      have hne : (s.Sync c fs).1 ≠ .nil := by rw [he]; exact fun h => by cases h
      refine ⟨Or.inr ⟨e, he⟩, fun h => absurd h hne, fun _ => ⟨hec, hsc⟩,
        ⟨fun h => ?_, fun h => absurd h hne⟩, by rw [hsc], by rw [hec]; omega⟩
      rw [hsc] at h
      omega
  · have hs : s0.healthy = false ∧ s0.syncCount = 0 ∧ s0.errorCount = 0 := by
      unfold NewSyncer at hnew
      split at hnew
      · cases hnew
      · cases hnew; exact ⟨rfl, rfl, rfl⟩
    obtain ⟨hh, hsc, hec⟩ := hs
    obtain ⟨h1, h2, h3, h4, h5⟩ := runCycles_counts cs s0 fs (by omega) (by omega) (by omega)
    rw [hsc, zero_add] at h3
    rw [hec, zero_add] at h4
    rw [hh] at h5
    refine ⟨h1, h2, ?_, h3, h4, h5⟩
    rw [h3, h4, ← h1, ← Nat.cast_add]
    congr 1
    have hcount := List.length_eq_countP_add_countP SyncResult.isNil (runCycles cs s0 fs).1
    rw [hcount]
    congr 2
    funext r
    cases r <;> rfl

theorem Syncer.Sync_counts_witness :
    NewSyncer demoConfig (.ok ["tmp", "git-sync-work-1"]) = .ok demoSyncer ∧
    (runCycles [demoCycleGitDown, demoCycle, demoCycleNoSource] demoSyncer demoFS).2.1.syncCount
      + (runCycles [demoCycleGitDown, demoCycle, demoCycleNoSource] demoSyncer demoFS).2.1.errorCount
      = ([demoCycleGitDown, demoCycle, demoCycleNoSource].length : Int) ∧
    (demoSyncer.Sync demoCycleGitDown demoFS).2.1.errorCount = demoSyncer.errorCount + 1 :=
  have h := Syncer.Sync_counts demoConfig (.ok ["tmp", "git-sync-work-1"]) demoSyncer rfl
  ⟨rfl, (h.2 [demoCycleGitDown, demoCycle, demoCycleNoSource] demoFS (by decide)).2.2.1,
   ((h.1 demoSyncer demoCycleGitDown demoFS (by decide) (by decide) (by decide)
      (by decide)).2.2.1 (by decide)).1⟩

/-! ## The slice of the success log line -/

/-- C23: every revision `Client.Sync` returns with a nil error is the hexadecimal
rendering of the hash `repo.Head` gave, forty characters and forty bytes long, so
the slice `commit[:7]` is in bounds: `Syncer.Sync` never panics, and when the git
step and the mirror succeed it returns nil with the status updated. -/
theorem Syncer.Sync_slice_in_bounds (s : Syncer) (c : Cycle) (fs : FS) :
    (∀ (cl : Client) (g : GitCall) (r : String), (cl.Sync g).1 = .ok r →
      ∃ h : Hash, g.head = .ok h ∧ r = h.hex ∧ r.length = 40 ∧ r.utf8ByteSize = 40 ∧
        7 ≤ r.utf8ByteSize) ∧
    (∀ msg, (s.Sync c fs).1 ≠ .panic msg) ∧
    (∀ r, (s.git.Sync c.git).1 = .ok r → (s.copyFiles c.env c.source fs).1 = none →
      (s.Sync c fs).1 = .nil ∧ (s.Sync c fs).2.1.lastCommit = r ∧
      (s.Sync c fs).2.1.lastSync = c.now ∧ (s.Sync c fs).2.1.healthy = true ∧
      (s.Sync c fs).2.1.syncCount = wrapInt64 (s.syncCount + 1)) := by
  refine ⟨fun cl g r hr => ?_, fun msg => Syncer.Sync_ne_panic s c fs msg, fun r hg hc => ?_⟩
  · obtain ⟨h, hh, hrh⟩ := Client.Sync_ok cl g r hr
    refine ⟨h, hh, hrh, ?_, ?_, ?_⟩
    · rw [hrh]; exact Hash.hex_length h
    · rw [hrh]; exact Hash.hex_utf8ByteSize h
    · rw [hrh, Hash.hex_utf8ByteSize h]; omega
  · rw [Syncer.Sync_eq_success s c fs r hg hc]
    exact ⟨rfl, rfl, rfl, rfl, rfl⟩

theorem Syncer.Sync_slice_in_bounds_witness :
    (demoSyncer.git.Sync demoCycle.git).1 = .ok demoHash.hex ∧
    demoHash.hex.utf8ByteSize = 40 ∧
    (demoSyncer.Sync demoCycle demoFS).1 = .nil ∧
    (demoSyncer.Sync demoCycle demoFS).2.1.lastCommit = demoHash.hex :=
  have h := Syncer.Sync_slice_in_bounds demoSyncer demoCycle demoFS
  have hc : (demoSyncer.copyFiles demoCycle.env demoCycle.source demoFS).1 = none :=
    by decide
  ⟨rfl,
   by
    obtain ⟨h1, _, hr, _, hsz, _⟩ := h.1 demoSyncer.git demoCycle.git demoHash.hex rfl
    exact hsz,
   (h.2.2 demoHash.hex rfl hc).1, (h.2.2 demoHash.hex rfl hc).2.1⟩

/-! ## The resolved source path -/

theorem filepathJoin_inside (wd : Path) (src : String)
    (hwd : ∀ e ∈ wd, e ≠ "" ∧ e ≠ "." ∧ e ≠ "..") (hsrc : ".." ∉ pathElems src) :
    wd <+: filepathJoin wd src := by
  unfold filepathJoin cleanPath
  rw [List.foldl_append, foldl_cleanStep_plain wd hwd [], List.append_nil]
  have hsuf := foldl_cleanStep_suffix (pathElems src) hsrc wd.reverse
  have := List.reverse_prefix.mpr hsuf
  rwa [List.reverse_reverse] at this

/-- C24, the claim as written fails: with the source path ../../etc the syncer
`NewSyncer` returns for the working directory /tmp/git-sync-work-1 resolves its
source to /etc, outside the working directory. -/
theorem Syncer.sourcePath_escape_counterexample :
    ¬ (∀ (cfg : Config) (workDir : Path) (s : Syncer),
        (∀ e ∈ workDir, e ≠ "" ∧ e ≠ "." ∧ e ≠ "..") →
        NewSyncer cfg (.ok workDir) = .ok s → s.git.WorkDir <+: s.sourcePath) := by
  intro h
  have hp := h demoConfigEscape ["tmp", "git-sync-work-1"]
    { demoSyncer with cfg := demoConfigEscape, git := { demoSyncer.git with cfg := demoConfigEscape } }
    (by decide) rfl
  have hs : Syncer.sourcePath
      { demoSyncer with cfg := demoConfigEscape,
                        git := { demoSyncer.git with cfg := demoConfigEscape } } = ["etc"] := by
    decide
  rw [hs] at hp
  revert hp
  decide

/-- C24, amended: for a working directory that is a cleaned path and a `SourcePath`
none of whose slash-separated segments is two dots, the source path `copyFiles`
resolves, which is the root of its walk, is the working directory or a path inside
it, and for the default `SourcePath` / it is the working directory itself.  A
`SourcePath` with such segments is joined and cleaned all the same, without any
containment check, and may resolve outside. -/
theorem Syncer.sourcePath_inside (s : Syncer) (env : Env)
    (hwd : ∀ e ∈ s.git.WorkDir, e ≠ "" ∧ e ≠ "." ∧ e ≠ "..")
    (hsrc : ".." ∉ pathElems s.cfg.SourcePath) :
    s.git.WorkDir <+: s.sourcePath ∧ (s.walkCtx env).root = s.sourcePath ∧
    (s.cfg.SourcePath = "/" → s.sourcePath = s.git.WorkDir) := by
  refine ⟨filepathJoin_inside _ _ hwd hsrc, rfl, fun h => ?_⟩
  unfold Syncer.sourcePath filepathJoin cleanPath
  rw [h, List.foldl_append, foldl_cleanStep_plain _ hwd []]
  have : pathElems "/" = ["", ""] := by decide
  rw [this]
  simp [cleanStep]

theorem Syncer.sourcePath_inside_witness :
    demoSyncer.sourcePath = ["tmp", "git-sync-work-1", "docs"] ∧
    demoSyncer.git.WorkDir <+: demoSyncer.sourcePath :=
  ⟨by decide, (Syncer.sourcePath_inside demoSyncer demoEnv (by decide) (by decide)).1⟩

end GitSync
